import Mathlib

/-!
Verification of the JSONK kernel JSON library (parser, serializer,
merge-patch engine) against its specification.

The development shallowly embeds the C sources of jsonk.c / jsonk.h:
  - bytes are modelled as `List Char` (the kernel builds with unsigned
    char; a `Char` here stands for one input byte),
  - the 64-bit signed arithmetic of the C sources is modelled on `Int`
    with explicit wrapping through `toS64`,
  - allocation is treated as always succeeding (the host allocator is an
    external collaborator per the specification); the layout-dependent
    per-parse total-memory budget is not modelled, all layout-independent
    limits (depth, string length, key length, object members, array
    elements, string count) are,
  - the recursive-descent parser of the C source terminates because each
    loop iteration consumes input; the embedding makes this explicit with
    a fuel argument.  `jsonk_parse` supplies fuel `3 * length + 8`, which
    is proved sufficient (lemma `parseV_fuel_irrel` below): results are
    independent of the fuel once it is at least `3 * length + c` for a
    small per-function constant `c`.
-/

/-- Byte strings of the C sources. -/
abbrev Bytes := List Char

def s2l (s : String) : Bytes := s.data

/-- The number payload of `struct jsonk_value` (s64 integer, u32 fraction,
sign flag, integer flag). -/
structure JNumber where
  integer : Int
  fraction : Nat
  is_negative : Bool
  is_integer : Bool
deriving Repr, DecidableEq

/-- In-memory JSON tree: `struct jsonk_value`.  Objects carry their member
list (key bytes and value, in insertion order), arrays their element
list.  The cached `size` fields of the C structs are the list lengths. -/
inductive JValue where
  | null
  | boolean (b : Bool)
  | number (n : JNumber)
  | str (s : Bytes)
  | arr (es : List JValue)
  | obj (ms : List (Bytes × JValue))
deriving Repr

abbrev Members := List (Bytes × JValue)

instance : Inhabited JValue := ⟨.null⟩

/-! ## Compile-time limits (jsonk.h) -/

def JSONK_MAX_DEPTH : Nat := 32
def JSONK_MAX_STRING_LENGTH : Nat := 1024 * 1024
def JSONK_MAX_ARRAY_SIZE : Nat := 10000
def JSONK_MAX_OBJECT_MEMBERS : Nat := 1000
def JSONK_MAX_KEY_LENGTH : Nat := 256

/-- `S64_MAX`. -/
def S64_MAX : Int := 9223372036854775807

/-- Wrap an unbounded integer into the s64 range (two's complement),
modelling C 64-bit signed overflow as it behaves on the target. -/
def toS64 (x : Int) : Int := (x + 9223372036854775808) % 18446744073709551616 - 9223372036854775808

/-! ## Character classification (parser utility functions of jsonk.h) -/

def jsonk_is_whitespace (c : Char) : Bool :=
  c = ' ' || c = '\t' || c = '\n' || c = '\r'

def isDigitB (c : Char) : Bool := '0' ≤ c && c ≤ '9'

def isHexB (c : Char) : Bool :=
  ('0' ≤ c && c ≤ '9') || ('a' ≤ c && c ≤ 'f') || ('A' ≤ c && c ≤ 'F')

def digitVal (c : Char) : Nat := c.toNat - 48

/-- `jsonk_skip_whitespace`: drop leading JSON whitespace. -/
def jsonk_skip_whitespace : Bytes → Bytes
  | [] => []
  | c :: rest => if jsonk_is_whitespace c then jsonk_skip_whitespace rest else c :: rest

/-! ## Token scanner -/

inductive TokType where
  | objStart | objEnd | arrStart | arrEnd | colon | comma
  | str | num | tru | fls | nul
deriving Repr, DecidableEq

/-- `struct jsonk_token`: kind plus the token text (for string tokens the
content between the quotes, escapes unresolved, as in the C source). -/
structure Tok where
  t : TokType
  text : Bytes
deriving Repr, DecidableEq

/-- Body of `jsonk_parse_string`: scan a string token after the opening
quote.  Returns the content (escapes kept) and the input after the
closing quote.  Escape validation and the rejection of raw control bytes
follow the C source. -/
def lexString : Bytes → Option (Bytes × Bytes)
  | [] => none
  | c :: rest =>
    if c = '"' then some ([], rest)
    else if c = '\\' then
      match rest with
      | [] => none
      | e :: rest2 =>
        if e = '"' || e = '\\' || e = '/' || e = 'b' || e = 'f' ||
           e = 'n' || e = 'r' || e = 't' then
          (lexString rest2).map (fun p => (c :: e :: p.1, p.2))
        else if e = 'u' then
          match rest2 with
          | h1 :: h2 :: h3 :: h4 :: rest3 =>
            if isHexB h1 && isHexB h2 && isHexB h3 && isHexB h4 then
              (lexString rest3).map (fun p => (c :: e :: h1 :: h2 :: h3 :: h4 :: p.1, p.2))
            else none
          | _ => none
        else none
    else if c.toNat < 0x20 then none
    else (lexString rest).map (fun p => (c :: p.1, p.2))

/-- Leading run of decimal digits. -/
def takeDigits : Bytes → Bytes × Bytes
  | [] => ([], [])
  | c :: rest =>
    if isDigitB c then
      let p := takeDigits rest
      (c :: p.1, p.2)
    else ([], c :: rest)

/-- `jsonk_parse_number`: lex a number token (strict grammar: optional
minus, no leading zeros, optional fraction with at least one digit,
optional exponent with at least one digit).  Returns the token text and
the rest of the input. -/
def lexNumber (l : Bytes) : Option (Bytes × Bytes) :=
  let minusPart : Bytes × Bytes := match l with
    | '-' :: r => (['-'], r)
    | _ => ([], l)
  match minusPart.2 with
  | [] => none
  | c :: r =>
    if c = '0' then
      match r with
      | d :: _ =>
        if isDigitB d then none
        else lexNumTail (minusPart.1 ++ ['0']) r
      | [] => lexNumTail (minusPart.1 ++ ['0']) r
    else if isDigitB c then
      let p := takeDigits r
      lexNumTail (minusPart.1 ++ c :: p.1) p.2
    else none
where
  /-- Optional fraction and exponent after the integer part. -/
  lexNumTail (intPart : Bytes) (l : Bytes) : Option (Bytes × Bytes) :=
    let fracStep : Option (Bytes × Bytes) := match l with
      | '.' :: r =>
        match takeDigits r with
        | ([], _) => none
        | (ds, r2) => some (intPart ++ '.' :: ds, r2)
      | _ => some (intPart, l)
    match fracStep with
    | none => none
    | some (tf, l2) =>
      match l2 with
      | 'e' :: r | 'E' :: r =>
        let signPart : Bytes × Bytes := match r with
          | '+' :: r2 => ([r.head!], r2)
          | '-' :: r2 => ([r.head!], r2)
          | _ => ([], r)
        match takeDigits signPart.2 with
        | ([], _) => none
        | (ds, r3) => some (tf ++ l2.head! :: signPart.1 ++ ds, r3)
      | _ => some (tf, l2)

/-- `jsonk_parse_literal`: match true / false / null exactly. -/
def lexLiteral (l : Bytes) : Option (Tok × Bytes) :=
  if l.take 4 = s2l ("true") then some (⟨.tru, s2l ("true")⟩, l.drop 4)
  else if l.take 5 = s2l ("false") then some (⟨.fls, s2l ("false")⟩, l.drop 5)
  else if l.take 4 = s2l ("null") then some (⟨.nul, s2l ("null")⟩, l.drop 4)
  else none

/-- `jsonk_next_token`: skip whitespace, then lex one token.  `none`
covers both end-of-input and lexical errors (the C distinction between
-ENODATA and -EINVAL is not observable by the parser). -/
def jsonk_next_token (l : Bytes) : Option (Tok × Bytes) :=
  match jsonk_skip_whitespace l with
  | [] => none
  | c :: rest =>
    if c = '{' then some (⟨.objStart, [c]⟩, rest)
    else if c = '}' then some (⟨.objEnd, [c]⟩, rest)
    else if c = '[' then some (⟨.arrStart, [c]⟩, rest)
    else if c = ']' then some (⟨.arrEnd, [c]⟩, rest)
    else if c = ':' then some (⟨.colon, [c]⟩, rest)
    else if c = ',' then some (⟨.comma, [c]⟩, rest)
    else if c = '"' then (lexString rest).map (fun p => (⟨.str, p.1⟩, p.2))
    else if c = '-' || isDigitB c then
      (lexNumber (c :: rest)).map (fun p => (⟨.num, p.1⟩, p.2))
    else if c = 't' || c = 'f' || c = 'n' then lexLiteral (c :: rest)
    else none

/-! ## Number construction (`jsonk_value_create_number`) -/

/-- Digit-accumulation loop of the kernel helper `_parse_integer` used by
`simple_strtoull`: unsigned 64-bit, wrapping modulo 2^64 (the overflow
flag it raises is ignored by `simple_strtoull`). -/
def strtoullDigits : Bytes → Nat → Nat × Bytes
  | [], acc => (acc, [])
  | c :: rest, acc =>
    if isDigitB c then strtoullDigits rest ((acc * 10 + digitVal c) % 18446744073709551616)
    else (acc, c :: rest)

/-- Kernel `simple_strtoll` (base 10): optional minus, then wrapping
unsigned accumulation, negated and converted to s64. -/
def simple_strtoll (l : Bytes) : Int × Bytes :=
  match l with
  | '-' :: rest =>
    let p := strtoullDigits rest 0
    (toS64 (-(p.1 : Int)), p.2)
  | _ =>
    let p := strtoullDigits l 0
    (toS64 (p.1 : Int), p.2)

/-- The `has_decimal` / `has_exponent` scan of `jsonk_value_create_number`:
the loop records a decimal point and stops at the first e/E. -/
def scanDecExp : Bytes → Bool × Bool
  | [] => (false, false)
  | c :: rest =>
    if c = 'e' || c = 'E' then (false, true)
    else
      let p := scanDecExp rest
      (p.1 || decide (c = '.'), p.2)

/-- Integer-part loop of the decimal branch: s64 accumulation guarded by
`int_part > S64_MAX / 10` (saturating to `S64_MAX` and breaking), the
unguarded boundary step wrapping as s64. -/
def intPartLoop : Bytes → Int → Int × Bytes
  | [], acc => (acc, [])
  | c :: rest, acc =>
    if isDigitB c then
      if acc > S64_MAX / 10 then (S64_MAX, c :: rest)
      else intPartLoop rest (toS64 (acc * 10 + (digitVal c : Int)))
    else (acc, c :: rest)

/-- Fraction loop of the decimal branch: at most nine digits, u32
accumulator with the `UINT_MAX / 10` guard. -/
def fracLoop : Bytes → Nat → Nat → Nat
  | [], acc, _ => acc
  | c :: rest, acc, nd =>
    if isDigitB c && nd < 9 then
      if acc > 429496729 then acc
      else fracLoop rest (acc * 10 + digitVal c) (nd + 1)
    else acc

/-- `jsonk_value_create_number` on the token text. -/
def jsonk_value_create_number (s : Bytes) : Option JNumber :=
  let de := scanDecExp s
  if de.1 || de.2 then
    -- decimal / exponent branch: is_integer false, saturating integer
    -- part, up to nine fraction digits, exponent discarded
    let negT : Bool × Bytes := match s with
      | '-' :: r => (true, r)
      | _ => (false, s)
    let ip := intPartLoop negT.2 0
    let frac : Nat := match ip.2 with
      | '.' :: r => fracLoop r 0 0
      | _ => 0
    some { integer := if negT.1 then toS64 (-ip.1) else ip.1
           fraction := frac
           is_negative := negT.1
           is_integer := false }
  else
    -- pure integer branch: simple_strtoll, whole string must be consumed
    let p := simple_strtoll s
    if p.2 = [] then
      some { integer := p.1, fraction := 0, is_negative := decide (p.1 < 0), is_integer := true }
    else none

/-! ## String construction (`jsonk_value_create_string_tracked`) -/

/-- The unescaping loop: the eight single-character escapes are rewritten,
`\uXXXX` is copied literally (six bytes), a trailing lone backslash is
copied verbatim (the `i + 1 < len` guard fails), anything else after a
backslash is an error. -/
def jsonk_unescape : Bytes → Option Bytes
  | [] => some []
  | c :: rest =>
    if c = '\\' then
      match rest with
      | [] => some [c]
      | e :: r2 =>
        if e = '"' then (jsonk_unescape r2).map (fun u => '"' :: u)
        else if e = '\\' then (jsonk_unescape r2).map (fun u => '\\' :: u)
        else if e = '/' then (jsonk_unescape r2).map (fun u => '/' :: u)
        else if e = 'b' then (jsonk_unescape r2).map (fun u => '\x08' :: u)
        else if e = 'f' then (jsonk_unescape r2).map (fun u => '\x0c' :: u)
        else if e = 'n' then (jsonk_unescape r2).map (fun u => '\n' :: u)
        else if e = 'r' then (jsonk_unescape r2).map (fun u => '\r' :: u)
        else if e = 't' then (jsonk_unescape r2).map (fun u => '\t' :: u)
        else if e = 'u' then
          match r2 with
          | h1 :: h2 :: h3 :: h4 :: r3 =>
            (jsonk_unescape r3).map (fun u => '\\' :: 'u' :: h1 :: h2 :: h3 :: h4 :: u)
          | _ => none
        else none
    else (jsonk_unescape rest).map (fun u => c :: u)

/-- `jsonk_value_create_string_tracked` on the token content, with the
per-parse string count `sc`.  Fails on over-long content, on the string
count cap, or on an invalid escape. -/
def jsonk_value_create_string (content : Bytes) (sc : Nat) : Option (JValue × Nat) :=
  if content.length > JSONK_MAX_STRING_LENGTH then none
  else if sc ≥ JSONK_MAX_ARRAY_SIZE then none
  else (jsonk_unescape content).map (fun u => (.str u, sc + 1))

/-! ## Recursive parser (`jsonk_parse_value` and friends)

The C parser recurses on the input and carries a mutable `struct` with
the cursor, the depth counter `d`, and the string count `sc`.  Each
function consumes a suffix of the byte list and returns the remaining
suffix.  The `fuel` argument only makes the C loops structurally
recursive: `jsonk_parse` supplies `3 * length + 8` and the fuel-
irrelevance lemmas below show any fuel of at least `3 * length + 3`
yields the same result, so the embedding computes the limit the C code
computes. -/

mutual

/-- `jsonk_parse_value`: fails at depth `JSONK_MAX_DEPTH`, dispatches on
the next token; `{` and `[` are pushed back by cursor rewind. -/
def parseV (fuel : Nat) (l : Bytes) (d : Nat) (sc : Nat) : Option (JValue × Bytes × Nat) :=
  match fuel with
  | 0 => none
  | fuel + 1 =>
    if d ≥ JSONK_MAX_DEPTH then none
    else
      match jsonk_next_token l with
      | none => none
      | some (tok, rest) =>
        match tok.t with
        | .objStart => parseObj fuel (tok.text ++ rest) (d + 1) sc
        | .arrStart => parseArr fuel (tok.text ++ rest) (d + 1) sc
        | .str => (jsonk_value_create_string tok.text sc).map (fun p => (p.1, rest, p.2))
        | .num => (jsonk_value_create_number tok.text).map (fun n => (.number n, rest, sc))
        | .tru => some (.boolean true, rest, sc)
        | .fls => some (.boolean false, rest, sc)
        | .nul => some (.null, rest, sc)
        | _ => none
termination_by structural fuel

/-- `jsonk_parse_object`: consume `{`, then either `}` (empty object) or
the member loop. -/
def parseObj (fuel : Nat) (l : Bytes) (d : Nat) (sc : Nat) : Option (JValue × Bytes × Nat) :=
  match fuel with
  | 0 => none
  | fuel + 1 =>
    match jsonk_next_token l with
    | some (tok, l1) =>
      if tok.t = .objStart then
        match jsonk_next_token l1 with
        | some (tok2, l2) =>
          if tok2.t = .objEnd then some (.obj [], l2, sc)
          else parseMems fuel tok2 l2 d sc []
        | none => none
      else none
    | none => none
termination_by structural fuel

/-- Member loop of `jsonk_parse_object`: string key, colon, value, then
comma or `}`.  The key token's text is copied into a NUL-terminated
buffer, but the C passes `token.len` of the local token variable — by
then overwritten by the COLON token, so always 1 — to
`jsonk_object_add_member_tracked`: only the first byte of the key
buffer is stored (a NUL byte when the key text is empty), and the
key-length check compares that same 1.  The member-count limit applies
as written. -/
def parseMems (fuel : Nat) (tok : Tok) (l : Bytes) (d : Nat) (sc : Nat) (acc : Members) :
    Option (JValue × Bytes × Nat) :=
  match fuel with
  | 0 => none
  | fuel + 1 =>
    if tok.t = .str then
      match jsonk_next_token l with
      | some (c, l2) =>
        if c.t = .colon then
          match parseV fuel l2 d sc with
          | some (v, l3, sc1) =>
            if acc.length ≥ JSONK_MAX_OBJECT_MEMBERS then none
            else if c.text.length > JSONK_MAX_KEY_LENGTH then none
            else
              let acc1 := acc ++ [((tok.text ++ ['\x00']).take c.text.length, v)]
              match jsonk_next_token l3 with
              | some (e, l4) =>
                if e.t = .objEnd then some (.obj acc1, l4, sc1)
                else if e.t = .comma then
                  match jsonk_next_token l4 with
                  | some (k2, l5) => parseMems fuel k2 l5 d sc1 acc1
                  | none => none
                else none
              | none => none
          | none => none
        else none
      | none => none
    else none
termination_by structural fuel

/-- `jsonk_parse_array`: consume `[`, then the element loop. -/
def parseArr (fuel : Nat) (l : Bytes) (d : Nat) (sc : Nat) : Option (JValue × Bytes × Nat) :=
  match fuel with
  | 0 => none
  | fuel + 1 =>
    match jsonk_next_token l with
    | some (tok, l1) =>
      if tok.t = .arrStart then parseElems fuel l1 d sc []
      else none
    | none => none
termination_by structural fuel

/-- Element loop of `jsonk_parse_array`: peek for `]` after whitespace
(this also accepts a trailing comma, as the C loop does), else parse a
value, enforce the element-count limit, then comma or `]`. -/
def parseElems (fuel : Nat) (l : Bytes) (d : Nat) (sc : Nat) (acc : List JValue) :
    Option (JValue × Bytes × Nat) :=
  match fuel with
  | 0 => none
  | fuel + 1 =>
    match jsonk_skip_whitespace l with
    | ']' :: lr => some (.arr acc, lr, sc)
    | lw =>
      match parseV fuel lw d sc with
      | some (v, l2, sc1) =>
        if acc.length ≥ JSONK_MAX_ARRAY_SIZE then none
        else
          let acc1 := acc ++ [v]
          match jsonk_next_token l2 with
          | some (e, l3) =>
            if e.t = .arrEnd then some (.arr acc1, l3, sc1)
            else if e.t = .comma then parseElems fuel l3 d sc1 acc1
            else none
          | none => none
      | none => none
termination_by structural fuel

end

/-- `jsonk_parse`: reject the empty input, then parse one value from a
fresh context (depth 0, string count 0); trailing input is not examined. -/
def jsonk_parse (l : Bytes) : Option JValue :=
  if l.length = 0 then none
  else (parseV (3 * l.length + 8) l 0 0).map (fun p => p.1)

/-! ## Decidable equality for trees (not part of the C sources; used only
to state and decide concrete facts about them) -/

mutual

def beqV : JValue → JValue → Bool
  | .null, .null => true
  | .boolean a, .boolean b => a = b
  | .number a, .number b => a = b
  | .str a, .str b => a = b
  | .arr a, .arr b => beqL a b
  | .obj a, .obj b => beqM a b
  | _, _ => false

def beqL : List JValue → List JValue → Bool
  | [], [] => true
  | a :: la, b :: lb => beqV a b && beqL la lb
  | _, _ => false

def beqM : Members → Members → Bool
  | [], [] => true
  | (k, a) :: la, (k2, b) :: lb => k = k2 && beqV a b && beqM la lb
  | _, _ => false

end

mutual

theorem beqV_iff : ∀ a b, beqV a b = true ↔ a = b
  | .null, b => by cases b <;> simp [beqV]
  | .boolean a, b => by cases b <;> simp [beqV]
  | .number a, b => by cases b <;> simp [beqV]
  | .str a, b => by cases b <;> simp [beqV]
  | .arr a, .null | .arr a, .boolean _ | .arr a, .number _ | .arr a, .str _
  | .arr a, .obj _ => by simp [beqV]
  | .arr a, .arr b => by simp [beqV, beqL_iff a b]
  | .obj a, .null | .obj a, .boolean _ | .obj a, .number _ | .obj a, .str _
  | .obj a, .arr _ => by simp [beqV]
  | .obj a, .obj b => by simp [beqV, beqM_iff a b]

theorem beqL_iff : ∀ a b, beqL a b = true ↔ a = b
  | [], [] => by simp [beqL]
  | [], _ :: _ => by simp [beqL]
  | _ :: _, [] => by simp [beqL]
  | a :: la, b :: lb => by simp [beqL, beqV_iff a b, beqL_iff la lb]

theorem beqM_iff : ∀ a b, beqM a b = true ↔ a = b
  | [], [] => by simp [beqM]
  | [], _ :: _ => by simp [beqM]
  | _ :: _, [] => by simp [beqM]
  | (k, a) :: la, (k2, b) :: lb => by
    simp [beqM, beqV_iff a b, beqM_iff la lb, and_assoc]

end

instance : DecidableEq JValue := fun a b => decidable_of_iff _ (beqV_iff a b)

/-! ## Serializer (`jsonk_serialize`)

`serRun v size` returns the bytes the C serializer stores into a
`size`-byte buffer together with a success flag: on overflow the bytes
written before the failing bounds check are kept (the C function returns
-EOVERFLOW leaving them in the caller's buffer).  Every bounds check of
the C source is of the form `pos + n >= buffer_size`, i.e. strict.  The
NUL terminators that `snprintf` stores beyond the reported length are
not modelled.  `render v` is the unbounded rendering. -/

/-- Decimal digits of a natural number (the `%u` / magnitude part of the
C `snprintf`).  The fuel is the number itself, which bounds the digit
count. -/
def natDecAux : Nat → Nat → Bytes
  | 0, _ => []
  | fuel + 1, n =>
    if n < 10 then [Char.ofNat (48 + n)]
    else natDecAux fuel (n / 10) ++ [Char.ofNat (48 + n % 10)]

def natDec (n : Nat) : Bytes := natDecAux (n + 1) n

/-- `%lld`: signed decimal rendering. -/
def intDec (i : Int) : Bytes :=
  if i < 0 then '-' :: natDec i.natAbs else natDec i.toNat

/-- The integer argument the C serializer passes to `snprintf`:
`is_negative ? -integer : integer`, the negation wrapping as s64. -/
def serShownInt (n : JNumber) : Int :=
  if n.is_negative then toS64 (-n.integer) else n.integer

/-- The full number rendering (`%lld` or `%lld.%u`). -/
def renderNumber (n : JNumber) : Bytes :=
  if n.is_integer then intDec (serShownInt n)
  else intDec (serShownInt n) ++ '.' :: natDec n.fraction

/-- The serializer's escape for one string byte. -/
def escapeChar (c : Char) : Bytes :=
  if c = '"' || c = '\\' then ['\\', c]
  else if c = '\x08' then ['\\', 'b']
  else if c = '\x0c' then ['\\', 'f']
  else if c = '\n' then ['\\', 'n']
  else if c = '\r' then ['\\', 'r']
  else if c = '\t' then ['\\', 't']
  else [c]

/-- String-content loop of the serializer: bytes emitted, success, new
position. -/
def serStr : Bytes → Nat → Nat → Bytes × Bool × Nat
  | [], _, pos => ([], true, pos)
  | c :: rest, size, pos =>
    let e := escapeChar c
    if pos + e.length < size then
      match serStr rest size (pos + e.length) with
      | (bs, ok, pos2) => (e ++ bs, ok, pos2)
    else ([], false, pos)

mutual

def serRun : JValue → Nat → Bytes × Bool
  | .null, size => if 4 < size then (s2l ("null"), true) else ([], false)
  | .boolean b, size =>
    if b then (if 4 < size then (s2l ("true"), true) else ([], false))
    else (if 5 < size then (s2l ("false"), true) else ([], false))
  | .number n, size =>
    let ds := renderNumber n
    if ds.length < size then (ds, true) else (ds.take (size - 1), false)
  | .str s, size =>
    if 1 < size then
      match serStr s size 1 with
      | (bs, true, pos) =>
        if pos + 1 < size then ('"' :: bs ++ ['"'], true) else ('"' :: bs, false)
      | (bs, false, _) => ('"' :: bs, false)
    else ([], false)
  | .obj ms, size =>
    if 1 < size then
      match serMems ms size 1 true with
      | (bs, true, pos) =>
        if pos + 1 < size then ('{' :: bs ++ ['}'], true) else ('{' :: bs, false)
      | (bs, false, _) => ('{' :: bs, false)
    else ([], false)
  | .arr es, size =>
    if 1 < size then
      match serElems es size 1 true with
      | (bs, true, pos) =>
        if pos + 1 < size then ('[' :: bs ++ [']'], true) else ('[' :: bs, false)
      | (bs, false, _) => ('[' :: bs, false)
    else ([], false)

/-- Object-member loop: comma when not first (`first` is split at the
pattern level; the C code guards `pos + 1` for the comma, then checks
`pos + key_len + 3` for `"key":`, then serializes the value into the
remaining buffer and continues). -/
def serMems : Members → Nat → Nat → Bool → Bytes × Bool × Nat
  | [], _, pos, _ => ([], true, pos)
  | (k, v) :: rest, size, pos, true =>
    if pos + k.length + 3 < size then
      match serRun v (size - (pos + k.length + 3)) with
      | (vb, true) =>
        match serMems rest size (pos + k.length + 3 + vb.length) false with
        | (bs, ok, pos2) => ('"' :: k ++ '"' :: ':' :: vb ++ bs, ok, pos2)
      | (vb, false) => ('"' :: k ++ '"' :: ':' :: vb, false, pos + k.length + 3)
    else ([], false, pos)
  | (k, v) :: rest, size, pos, false =>
    if pos + 1 ≥ size then ([], false, pos)
    else if pos + 1 + k.length + 3 < size then
      match serRun v (size - (pos + 1 + k.length + 3)) with
      | (vb, true) =>
        match serMems rest size (pos + 1 + k.length + 3 + vb.length) false with
        | (bs, ok, pos2) => (',' :: '"' :: k ++ '"' :: ':' :: vb ++ bs, ok, pos2)
      | (vb, false) => (',' :: '"' :: k ++ '"' :: ':' :: vb, false, pos + 1 + k.length + 3)
    else ([','], false, pos + 1)

/-- Array-element loop (analogous, without keys). -/
def serElems : List JValue → Nat → Nat → Bool → Bytes × Bool × Nat
  | [], _, pos, _ => ([], true, pos)
  | v :: rest, size, pos, true =>
    match serRun v (size - pos) with
    | (vb, true) =>
      match serElems rest size (pos + vb.length) false with
      | (bs, ok, pos2) => (vb ++ bs, ok, pos2)
    | (vb, false) => (vb, false, pos)
  | v :: rest, size, pos, false =>
    if pos + 1 ≥ size then ([], false, pos)
    else
      match serRun v (size - (pos + 1)) with
      | (vb, true) =>
        match serElems rest size (pos + 1 + vb.length) false with
        | (bs, ok, pos2) => (',' :: vb ++ bs, ok, pos2)
      | (vb, false) => (',' :: vb, false, pos + 1)

end

/-- `jsonk_serialize`: success flag and written byte count; the bytes
returned are what the buffer prefix holds after the call. -/
def jsonk_serialize (v : JValue) (buffer_size : Nat) : Bytes × Bool :=
  serRun v buffer_size

mutual

/-- Unbounded compact rendering (what `jsonk_serialize` produces into a
large enough buffer). -/
def render : JValue → Bytes
  | .null => s2l ("null")
  | .boolean b => if b then s2l ("true") else s2l ("false")
  | .number n => renderNumber n
  | .str s => '"' :: renderStr s ++ ['"']
  | .obj ms => '{' :: renderMems ms true ++ ['}']
  | .arr es => '[' :: renderElems es true ++ [']']

def renderStr : Bytes → Bytes
  | [] => []
  | c :: rest => escapeChar c ++ renderStr rest

def renderMems : Members → Bool → Bytes
  | [], _ => []
  | (k, v) :: rest, true => '"' :: k ++ '"' :: ':' :: render v ++ renderMems rest false
  | (k, v) :: rest, false => ',' :: '"' :: k ++ '"' :: ':' :: render v ++ renderMems rest false

def renderElems : List JValue → Bool → Bytes
  | [], _ => []
  | v :: rest, true => render v ++ renderElems rest false
  | v :: rest, false => ',' :: render v ++ renderElems rest false

end

/-! ## Deep copy (`jsonk_value_deep_copy`) -/

mutual

/-- `jsonk_value_deep_copy`: fails beyond the depth cap; string payloads
are passed through `jsonk_value_create_string_tracked` again (so they are
unescaped a second time and can fail); children whose copy or insertion
fails are silently skipped, as in the C source (the return codes are
ignored there). -/
def jsonk_value_deep_copy : JValue → Nat → Option JValue
  | v, d =>
    if d > JSONK_MAX_DEPTH then none
    else
      match v with
      | .null => some .null
      | .boolean b => some (.boolean b)
      | .number n => some (.number n)
      | .str s =>
        if s.length > JSONK_MAX_STRING_LENGTH then none
        else (jsonk_unescape s).map (fun u => .str u)
      | .obj ms => some (.obj (deepCopyMems ms (d + 1) 0))
      | .arr es => some (.arr (deepCopyElems es (d + 1) 0))

/-- Member loop of the object case; `n` is the size of the copy built so
far (the silently-skipping `jsonk_object_add_member_tracked` checks). -/
def deepCopyMems : Members → Nat → Nat → Members
  | [], _, _ => []
  | (k, v) :: rest, d, n =>
    match jsonk_value_deep_copy v d with
    | some c =>
      if n < JSONK_MAX_OBJECT_MEMBERS && k.length ≤ JSONK_MAX_KEY_LENGTH then
        (k, c) :: deepCopyMems rest d (n + 1)
      else deepCopyMems rest d n
    | none => deepCopyMems rest d n

/-- Element loop of the array case. -/
def deepCopyElems : List JValue → Nat → Nat → List JValue
  | [], _, _ => []
  | v :: rest, d, n =>
    match jsonk_value_deep_copy v d with
    | some c =>
      if n < JSONK_MAX_ARRAY_SIZE then c :: deepCopyElems rest d (n + 1)
      else deepCopyElems rest d n
    | none => deepCopyElems rest d n

end

/-! ## Merge-patch engine -/

/-- The emptiness test of `jsonk_merge_objects`: Null, empty string,
zero-member object, zero-element array. -/
def isEmptyPatchValue : JValue → Bool
  | .null => true
  | .str s => s.length = 0
  | .obj ms => ms.length = 0
  | .arr es => es.length = 0
  | _ => false

/-- `jsonk_object_find_member`: first member with the given key. -/
def findMember : Members → Bytes → Option JValue
  | [], _ => none
  | (k2, v) :: rest, k => if k2 = k then some v else findMember rest k

/-- `jsonk_object_remove_member`: delete the first member with the key. -/
def removeMember : Members → Bytes → Members
  | [], _ => []
  | (k2, v) :: rest, k => if k2 = k then rest else (k2, v) :: removeMember rest k

/-- In-place update of the first member with the key (what the C code
does by assigning `target_member->value`). -/
def replaceValue : Members → Bytes → JValue → Members
  | [], _, _ => []
  | (k2, v) :: rest, k, nv =>
    if k2 = k then (k2, nv) :: rest else (k2, v) :: replaceValue rest k nv

mutual

/-- `jsonk_merge_objects`: walk the patch members in order; for each
member `k ↦ v`: empty patch values delete, absent keys insert a deep
copy (subject to the member and key limits of
`jsonk_object_add_member`), present keys are updated by `mergeUpdate`;
the `changed` flags of the steps are or-ed.  `none` models a negative
return (the caller maps it to ERROR_MEMORY). -/
def jsonk_merge_objects : Members → Members → Option (Members × Bool)
  | target, [] => some (target, false)
  | target, (k, v) :: rest =>
    let step : Option (Members × Bool) :=
      if isEmptyPatchValue v then
        if (findMember target k).isSome then some (removeMember target k, true)
        else some (target, false)
      else
        match findMember target k with
        | none =>
          match jsonk_value_deep_copy v 1 with
          | none => none
          | some c =>
            if target.length ≥ JSONK_MAX_OBJECT_MEMBERS then none
            else if k.length > JSONK_MAX_KEY_LENGTH then none
            else some (target ++ [(k, c)], true)
        | some tv => mergeUpdate target k v tv
    match step with
    | none => none
    | some (t1, c1) =>
      match jsonk_merge_objects t1 rest with
      | none => none
      | some (t2, c2) => some (t2, c1 || c2)

/-- Update of an existing member: if both the patch value and the target
value are Objects the merge recurses, otherwise the target value is
replaced by a deep copy of the patch value. -/
def mergeUpdate (target : Members) (k : Bytes) (v tv : JValue) : Option (Members × Bool) :=
  match v with
  | .obj pms =>
    match tv with
    | .obj tms =>
      match jsonk_merge_objects tms pms with
      | none => none
      | some (m, c) => some (replaceValue target k (.obj m), c)
    | _ =>
      match jsonk_value_deep_copy (.obj pms) 1 with
      | none => none
      | some c => some (replaceValue target k c, true)
  | _ =>
    match jsonk_value_deep_copy v 1 with
    | none => none
    | some c => some (replaceValue target k c, true)

end

/-- The per-member step of the loop above, as a standalone function. -/
def mergeStep (target : Members) (k : Bytes) (v : JValue) : Option (Members × Bool) :=
  if isEmptyPatchValue v then
    if (findMember target k).isSome then some (removeMember target k, true)
    else some (target, false)
  else
    match findMember target k with
    | none =>
      match jsonk_value_deep_copy v 1 with
      | none => none
      | some c =>
        if target.length ≥ JSONK_MAX_OBJECT_MEMBERS then none
        else if k.length > JSONK_MAX_KEY_LENGTH then none
        else some (target ++ [(k, c)], true)
    | some tv => mergeUpdate target k v tv

theorem merge_cons (t : Members) (k : Bytes) (v : JValue) (rest : Members) :
    jsonk_merge_objects t ((k, v) :: rest) =
      match mergeStep t k v with
      | none => none
      | some (t1, c1) =>
        match jsonk_merge_objects t1 rest with
        | none => none
        | some (t2, c2) => some (t2, c1 || c2) := rfl

/-- `enum jsonk_patch_result`. -/
inductive PatchResult where
  | success | errorParse | errorPath | errorType | errorMemory
  | errorOverflow | noChange
deriving Repr, DecidableEq

/-- `jsonk_apply_patch`: returns the outcome code, the bytes the call
leaves in the prefix of the caller's result buffer (empty when the
buffer is untouched), and the value stored through `result_len`
(`none` when the call never assigns it). -/
def jsonk_apply_patch (target patch : Bytes) (result_max_len : Nat) :
    PatchResult × Bytes × Option Nat :=
  match jsonk_parse target with
  | none => (.errorParse, [], none)
  | some tj =>
    match tj with
    | .obj tms =>
      match jsonk_parse patch with
      | none =>
        -- patch-parse fallback: return the original bytes when they fit
        if target.length ≤ result_max_len then (.noChange, target, some target.length)
        else (.errorOverflow, [], none)
      | some pj =>
        match pj with
        | .obj pms =>
          match jsonk_value_deep_copy (.obj tms) 0 with
          | some (.obj cms) =>
            match jsonk_merge_objects cms pms with
            | none => (.errorMemory, [], none)
            | some (merged, changed) =>
              match serRun (.obj merged) result_max_len with
              | (bs, true) =>
                ((if changed then .success else .noChange), bs, some bs.length)
              | (bs, false) => (.errorOverflow, bs, none)
          | _ => (.errorMemory, [], none)
        | _ => (.errorType, [], none)
    | _ => (.errorType, [], none)

/-! ## Tree measures and predicates -/

mutual

/-- Height of a tree (a leaf has height 1). -/
def heightJ : JValue → Nat
  | .obj ms => 1 + heightMems ms
  | .arr es => 1 + heightElems es
  | _ => 1

def heightMems : Members → Nat
  | [] => 0
  | (_, v) :: rest => max (heightJ v) (heightMems rest)

def heightElems : List JValue → Nat
  | [] => 0
  | v :: rest => max (heightJ v) (heightElems rest)

end

def isObjB : JValue → Bool
  | .obj _ => true
  | _ => false

mutual

/-- Sufficient conditions for `jsonk_value_deep_copy v d` to be an exact
copy: depth within the cap at every node, string payloads that survive
the second unescaping pass and the length check, and child lists within
the member/element limits with keys within the key limit. -/
def dcOk : JValue → Nat → Bool
  | .null, d => decide (d ≤ JSONK_MAX_DEPTH)
  | .boolean _, d => decide (d ≤ JSONK_MAX_DEPTH)
  | .number _, d => decide (d ≤ JSONK_MAX_DEPTH)
  | .str s, d =>
    decide (d ≤ JSONK_MAX_DEPTH) && decide (s.length ≤ JSONK_MAX_STRING_LENGTH) &&
      (jsonk_unescape s == some s)
  | .obj ms, d =>
    decide (d ≤ JSONK_MAX_DEPTH) && decide (ms.length ≤ JSONK_MAX_OBJECT_MEMBERS) &&
      dcOkMems ms (d + 1)
  | .arr es, d =>
    decide (d ≤ JSONK_MAX_DEPTH) && decide (es.length ≤ JSONK_MAX_ARRAY_SIZE) &&
      dcOkElems es (d + 1)

def dcOkMems : Members → Nat → Bool
  | [], _ => true
  | (k, v) :: rest, d =>
    decide (k.length ≤ JSONK_MAX_KEY_LENGTH) && dcOk v d && dcOkMems rest d

def dcOkElems : List JValue → Nat → Bool
  | [], _ => true
  | v :: rest, d => dcOk v d && dcOkElems rest d

end

mutual

theorem deep_copy_id : ∀ v d, dcOk v d = true → jsonk_value_deep_copy v d = some v
  | .null, d, h => by
    simp [dcOk] at h
    simp [jsonk_value_deep_copy, Nat.not_lt.mpr h]
  | .boolean b, d, h => by
    simp [dcOk] at h
    simp [jsonk_value_deep_copy, Nat.not_lt.mpr h]
  | .number n, d, h => by
    simp [dcOk] at h
    simp [jsonk_value_deep_copy, Nat.not_lt.mpr h]
  | .str s, d, h => by
    simp [dcOk] at h
    obtain ⟨⟨h1, h2⟩, h3⟩ := h
    simp [jsonk_value_deep_copy, Nat.not_lt.mpr h1, Nat.not_lt.mpr h2, h3]
  | .obj ms, d, h => by
    simp [dcOk] at h
    obtain ⟨⟨h1, h2⟩, h3⟩ := h
    simp [jsonk_value_deep_copy, Nat.not_lt.mpr h1]
    exact deep_copy_mems_id ms (d + 1) 0 h3 (by omega)
  | .arr es, d, h => by
    simp [dcOk] at h
    obtain ⟨⟨h1, h2⟩, h3⟩ := h
    simp [jsonk_value_deep_copy, Nat.not_lt.mpr h1]
    exact deep_copy_elems_id es (d + 1) 0 h3 (by omega)

theorem deep_copy_mems_id : ∀ ms d n, dcOkMems ms d = true →
    n + ms.length ≤ JSONK_MAX_OBJECT_MEMBERS → deepCopyMems ms d n = ms
  | [], _, _, _, _ => rfl
  | (k, v) :: rest, d, n, h, hn => by
    simp [dcOkMems] at h
    obtain ⟨⟨hk, hv⟩, hrest⟩ := h
    have hlen : n + rest.length + 1 ≤ JSONK_MAX_OBJECT_MEMBERS := by
      simp [List.length_cons] at hn; omega
    have hn2 : n < JSONK_MAX_OBJECT_MEMBERS := by omega
    simp [deepCopyMems, deep_copy_id v d hv, hn2, hk,
      deep_copy_mems_id rest d (n + 1) hrest (by omega)]

theorem deep_copy_elems_id : ∀ es d n, dcOkElems es d = true →
    n + es.length ≤ JSONK_MAX_ARRAY_SIZE → deepCopyElems es d n = es
  | [], _, _, _, _ => rfl
  | v :: rest, d, n, h, hn => by
    simp [dcOkElems] at h
    obtain ⟨hv, hrest⟩ := h
    have hlen : n + rest.length + 1 ≤ JSONK_MAX_ARRAY_SIZE := by
      simp [List.length_cons] at hn; omega
    have hn2 : n < JSONK_MAX_ARRAY_SIZE := by omega
    simp [deepCopyElems, deep_copy_id v d hv, hn2,
      deep_copy_elems_id rest d (n + 1) hrest (by omega)]

end

/-! ## Member-list lemmas -/

theorem findMember_eq_none_of_not_mem : ∀ (t : Members) (k : Bytes),
    (∀ p ∈ t, p.1 ≠ k) → findMember t k = none
  | [], _, _ => rfl
  | (k1, v1) :: tl, k, h => by
    have h1 : k1 ≠ k := h (k1, v1) (by simp)
    simp [findMember, h1,
      findMember_eq_none_of_not_mem tl k (fun p hp => h p (by simp [hp]))]

theorem removeMember_of_none : ∀ (t : Members) (k : Bytes),
    findMember t k = none → removeMember t k = t
  | [], _, _ => rfl
  | (k1, v1) :: tl, k, h => by
    by_cases hk : k1 = k
    · simp [findMember, hk] at h
    · simp only [findMember, if_neg hk] at h
      simp [removeMember, hk, removeMember_of_none tl k h]

theorem findMember_removeMember_self : ∀ (t : Members) (k : Bytes),
    (t.map Prod.fst).Nodup → findMember (removeMember t k) k = none
  | [], _, _ => rfl
  | (k1, v1) :: tl, k, hnd => by
    rw [List.map_cons] at hnd
    have hnd2 : (tl.map Prod.fst).Nodup := (List.nodup_cons.mp hnd).2
    have hout : k1 ∉ tl.map Prod.fst := (List.nodup_cons.mp hnd).1
    by_cases hk : k1 = k
    · subst hk
      simpa [removeMember] using findMember_eq_none_of_not_mem tl k1
        (fun p hp he => hout (he ▸ List.mem_map_of_mem Prod.fst hp))
    · simp [removeMember, hk, findMember, hk, findMember_removeMember_self tl k hnd2]

theorem findMember_removeMember_other : ∀ (t : Members) (k k2 : Bytes), k2 ≠ k →
    findMember (removeMember t k) k2 = findMember t k2
  | [], _, _, _ => rfl
  | (k1, v1) :: tl, k, k2, h => by
    by_cases hk : k1 = k
    · subst hk
      have h2 : k1 ≠ k2 := fun e => h e.symm
      simp [removeMember, findMember, h2]
    · simp [removeMember, hk, findMember, findMember_removeMember_other tl k k2 h]

theorem merge_cons_of_step (t t1 : Members) (k : Bytes) (v : JValue) (c1 : Bool)
    (rest : Members) (hstep : mergeStep t k v = some (t1, c1)) :
    jsonk_merge_objects t ((k, v) :: rest) =
      (jsonk_merge_objects t1 rest).map (fun p => (p.1, c1 || p.2)) := by
  rw [merge_cons]
  simp only [hstep]
  cases jsonk_merge_objects t1 rest with
  | none => simp
  | some p => simp

theorem mergeStep_empty (t : Members) (k : Bytes) (v : JValue)
    (hemp : isEmptyPatchValue v = true) :
    mergeStep t k v = some (removeMember t k, (findMember t k).isSome) := by
  by_cases hf : (findMember t k).isSome
  · simp [mergeStep, hemp, hf]
  · have hnone : findMember t k = none := by
      cases hfk : findMember t k
      · rfl
      · simp [hfk] at hf
    simp [mergeStep, hemp, hnone, removeMember_of_none t k hnone]

/-- C1.  For every patch member `k ↦ v` processed by the merge engine on a
target object (with functional key lookup, i.e. no duplicate keys, and
within the documented member/key limits): if `v` is empty (Null, empty
string, empty Object, empty Array) then `k` is deleted from the target
when present and nothing changes when absent (the step contributes
`changed` exactly when `k` was present); otherwise if `k` is absent a
deep copy of `v` — equal to `v` — is inserted at the end; otherwise if
both values are Objects the engine recurses into them; otherwise the
target's value for `k` is replaced by a deep copy of `v`. -/
theorem c1_merge_member_semantics (t : Members) (k : Bytes) (v : JValue) (rest : Members)
    (hnd : (t.map Prod.fst).Nodup)
    (hdc : dcOk v 1 = true)
    (hlen : t.length < JSONK_MAX_OBJECT_MEMBERS)
    (hk : k.length ≤ JSONK_MAX_KEY_LENGTH) :
    (isEmptyPatchValue v = true →
      jsonk_merge_objects t ((k, v) :: rest) =
        (jsonk_merge_objects (removeMember t k) rest).map
          (fun p => (p.1, (findMember t k).isSome || p.2)) ∧
      findMember (removeMember t k) k = none ∧
      (∀ k2, k2 ≠ k → findMember (removeMember t k) k2 = findMember t k2) ∧
      (findMember t k = none → removeMember t k = t)) ∧
    (isEmptyPatchValue v = false → findMember t k = none →
      jsonk_merge_objects t ((k, v) :: rest) =
        (jsonk_merge_objects (t ++ [(k, v)]) rest).map (fun p => (p.1, true))) ∧
    (∀ tms pms m mc, isEmptyPatchValue v = false → findMember t k = some (.obj tms) →
      v = .obj pms → jsonk_merge_objects tms pms = some (m, mc) →
      jsonk_merge_objects t ((k, v) :: rest) =
        (jsonk_merge_objects (replaceValue t k (.obj m)) rest).map
          (fun p => (p.1, mc || p.2))) ∧
    (∀ tv, isEmptyPatchValue v = false → findMember t k = some tv →
      (isObjB v && isObjB tv) = false →
      jsonk_merge_objects t ((k, v) :: rest) =
        (jsonk_merge_objects (replaceValue t k v) rest).map (fun p => (p.1, true))) := by
  refine ⟨?_, ?_, ?_, ?_⟩
  · intro hemp
    exact ⟨merge_cons_of_step t _ k v _ rest (mergeStep_empty t k v hemp),
      findMember_removeMember_self t k hnd,
      fun k2 hne => findMember_removeMember_other t k k2 hne,
      removeMember_of_none t k⟩
  · intro hemp hnone
    rw [merge_cons_of_step t (t ++ [(k, v)]) k v true rest
      (by simp [mergeStep, hemp, hnone, deep_copy_id v 1 hdc, Nat.not_le.mpr hlen,
        Nat.not_lt.mpr hk])]
    cases jsonk_merge_objects (t ++ [(k, v)]) rest <;> simp
  · intro tms pms m mc hemp hfind hv hsub
    subst hv
    rw [merge_cons_of_step t (replaceValue t k (.obj m)) k _ mc rest
      (by simp [mergeStep, hemp, hfind, mergeUpdate, hsub])]
  · intro tv hemp hfind hnotobj
    rw [merge_cons_of_step t (replaceValue t k v) k v true rest ?_]
    · cases jsonk_merge_objects (replaceValue t k v) rest <;> simp
    · simp only [mergeStep, hemp, Bool.false_eq_true, if_false, hfind]
      cases v <;> cases tv <;>
        simp [isObjB] at hnotobj <;>
        simp [mergeUpdate, deep_copy_id _ 1 hdc]

/-- Witness for C1 at a concrete instance. -/
theorem c1_merge_member_semantics_witness :
    (((([(s2l ("a"), JValue.number ⟨1, 0, false, true⟩)] : Members).map Prod.fst).Nodup) ∧
      dcOk .null 1 = true ∧
      ([(s2l ("a"), JValue.number ⟨1, 0, false, true⟩)] : Members).length <
        JSONK_MAX_OBJECT_MEMBERS ∧
      (s2l ("a")).length ≤ JSONK_MAX_KEY_LENGTH) ∧
    ((isEmptyPatchValue .null = true →
      jsonk_merge_objects [(s2l ("a"), JValue.number ⟨1, 0, false, true⟩)]
          ((s2l ("a"), .null) :: []) =
        (jsonk_merge_objects
            (removeMember [(s2l ("a"), JValue.number ⟨1, 0, false, true⟩)] (s2l ("a"))) []).map
          (fun p =>
            (p.1, (findMember [(s2l ("a"), JValue.number ⟨1, 0, false, true⟩)]
              (s2l ("a"))).isSome || p.2)) ∧
      findMember (removeMember [(s2l ("a"), JValue.number ⟨1, 0, false, true⟩)] (s2l ("a")))
          (s2l ("a")) = none ∧
      (∀ k2, k2 ≠ s2l ("a") →
        findMember (removeMember [(s2l ("a"), JValue.number ⟨1, 0, false, true⟩)] (s2l ("a"))) k2 =
          findMember [(s2l ("a"), JValue.number ⟨1, 0, false, true⟩)] k2) ∧
      (findMember [(s2l ("a"), JValue.number ⟨1, 0, false, true⟩)] (s2l ("a")) = none →
        removeMember [(s2l ("a"), JValue.number ⟨1, 0, false, true⟩)] (s2l ("a")) =
          [(s2l ("a"), JValue.number ⟨1, 0, false, true⟩)])) ∧
    (isEmptyPatchValue .null = false →
      findMember [(s2l ("a"), JValue.number ⟨1, 0, false, true⟩)] (s2l ("a")) = none →
      jsonk_merge_objects [(s2l ("a"), JValue.number ⟨1, 0, false, true⟩)]
          ((s2l ("a"), .null) :: []) =
        (jsonk_merge_objects
            ([(s2l ("a"), JValue.number ⟨1, 0, false, true⟩)] ++ [(s2l ("a"), .null)]) []).map
          (fun p => (p.1, true))) ∧
    (∀ tms pms m mc, isEmptyPatchValue .null = false →
      findMember [(s2l ("a"), JValue.number ⟨1, 0, false, true⟩)] (s2l ("a")) = some (.obj tms) →
      JValue.null = .obj pms → jsonk_merge_objects tms pms = some (m, mc) →
      jsonk_merge_objects [(s2l ("a"), JValue.number ⟨1, 0, false, true⟩)]
          ((s2l ("a"), .null) :: []) =
        (jsonk_merge_objects
            (replaceValue [(s2l ("a"), JValue.number ⟨1, 0, false, true⟩)] (s2l ("a")) (.obj m))
            []).map (fun p => (p.1, mc || p.2))) ∧
    (∀ tv, isEmptyPatchValue .null = false →
      findMember [(s2l ("a"), JValue.number ⟨1, 0, false, true⟩)] (s2l ("a")) = some tv →
      (isObjB .null && isObjB tv) = false →
      jsonk_merge_objects [(s2l ("a"), JValue.number ⟨1, 0, false, true⟩)]
          ((s2l ("a"), .null) :: []) =
        (jsonk_merge_objects
            (replaceValue [(s2l ("a"), JValue.number ⟨1, 0, false, true⟩)] (s2l ("a")) .null)
            []).map (fun p => (p.1, true)))) :=
  ⟨⟨by decide, by decide, by decide, by decide⟩,
    c1_merge_member_semantics _ _ _ _ (by decide) (by decide) (by decide) (by decide)⟩

/-- C4.  The code as written double-negates: parsing the negative integer
literal -5 stores integer -5 with the is-negative flag set, and the
serializer then emits the decimal of `is_negative ? -integer : integer`,
i.e. the bytes "5" — not the required "-5".  (This evaluates the code at
the failing input; the claim itself states the specified behaviour,
which the code violates.) -/
theorem c4_serializer_double_negation :
    jsonk_parse (s2l ("-5")) = some (.number ⟨-5, 0, true, true⟩) ∧
    render (.number ⟨-5, 0, true, true⟩) = s2l ("5") ∧
    serRun (.number ⟨-5, 0, true, true⟩) 16 = (s2l ("5"), true) ∧
    s2l ("5") ≠ s2l ("-5") := by decide

/-- C5.  When the target parses to an Object and the patch fails to
parse, `jsonk_apply_patch` copies the target bytes verbatim and reports
NO_CHANGE with the target length if they fit in the result buffer
(`target_len <= result_max_len`), and reports ERROR_OVERFLOW (touching
nothing) otherwise. -/
theorem c5_patch_parse_fallback (target patch : Bytes) (rmax : Nat) (tms : Members)
    (ht : jsonk_parse target = some (.obj tms)) (hp : jsonk_parse patch = none) :
    jsonk_apply_patch target patch rmax =
      if target.length ≤ rmax then (.noChange, target, some target.length)
      else (.errorOverflow, [], none) := by
  simp [jsonk_apply_patch, ht, hp]

/-- Witness for C5: a 7-byte target, an ill-formed patch, a 7-byte buffer. -/
theorem c5_patch_parse_fallback_witness :
    (jsonk_parse (s2l ("\x7b\"a\":1\x7d")) = some (.obj [(s2l ("a"), .number ⟨1, 0, false, true⟩)]) ∧
      jsonk_parse (s2l ("\x7b!")) = none) ∧
    jsonk_apply_patch (s2l ("\x7b\"a\":1\x7d")) (s2l ("\x7b!")) 7 =
      if (s2l ("\x7b\"a\":1\x7d")).length ≤ 7 then
        (.noChange, s2l ("\x7b\"a\":1\x7d"), some (s2l ("\x7b\"a\":1\x7d")).length)
      else (.errorOverflow, [], none) :=
  ⟨⟨by decide, by decide⟩,
    c5_patch_parse_fallback _ _ 7 [(s2l ("a"), .number ⟨1, 0, false, true⟩)]
      (by decide) (by decide)⟩

/-- C2 counterexample.  The claim says an error outcome leaves the
caller's result buffer unchanged (fallback aside) and that on
ERROR_OVERFLOW the written length reported is zero.  At target
`{"a":1}`, patch `{"b":2}`, buffer size 3, the call returns
ERROR_OVERFLOW after the serializer has already stored the byte `{` in
the buffer, and it never stores anything through `result_len` (so no
zero is reported — the caller's variable keeps its previous value). -/
theorem c2_counterexample :
    jsonk_apply_patch (s2l ("\x7b\"a\":1\x7d")) (s2l ("\x7b\"b\":2\x7d")) 3 =
      (.errorOverflow, ['\x7b'], none) ∧
    (['\x7b'] : Bytes) ≠ [] ∧ (none : Option Nat) ≠ some 0 := by decide

/-- C2 as amended.  On ERROR_PARSE, ERROR_TYPE and ERROR_MEMORY the
result buffer is untouched and the length output is never assigned; on
ERROR_OVERFLOW the length output is likewise never assigned (it is not
set to zero), and the buffer may already hold a prefix of the attempted
serialization (the fallback-overflow path leaves it untouched). -/
theorem c2_error_buffer_effects (target patch : Bytes) (rmax : Nat)
    (code : PatchResult) (bs : Bytes) (len : Option Nat)
    (h : jsonk_apply_patch target patch rmax = (code, bs, len)) :
    (code = .errorParse → bs = [] ∧ len = none) ∧
    (code = .errorType → bs = [] ∧ len = none) ∧
    (code = .errorMemory → bs = [] ∧ len = none) ∧
    (code = .errorOverflow → len = none) ∧
    (code = .errorOverflow → jsonk_parse patch = none → bs = []) := by
  unfold jsonk_apply_patch at h
  repeat' split at h
  all_goals cases h
  all_goals
    refine ⟨fun hc => ?_, fun hc => ?_, fun hc => ?_, fun hc => ?_, fun hc hp => ?_⟩ <;>
      simp_all

/-- Witness for C2 as amended, at an ERROR_PARSE instance. -/
theorem c2_error_buffer_effects_witness :
    jsonk_apply_patch (s2l ("x")) (s2l ("\x7b\x7d")) 5 = (.errorParse, [], none) ∧
    ((PatchResult.errorParse = .errorParse → ([] : Bytes) = [] ∧ (none : Option Nat) = none) ∧
     (PatchResult.errorParse = .errorType → ([] : Bytes) = [] ∧ (none : Option Nat) = none) ∧
     (PatchResult.errorParse = .errorMemory → ([] : Bytes) = [] ∧ (none : Option Nat) = none) ∧
     (PatchResult.errorParse = .errorOverflow → (none : Option Nat) = none) ∧
     (PatchResult.errorParse = .errorOverflow → jsonk_parse (s2l ("\x7b\x7d")) = none →
       ([] : Bytes) = [])) :=
  ⟨by decide, c2_error_buffer_effects (s2l ("x")) (s2l ("\x7b\x7d")) 5 _ _ _ (by decide)⟩

/-- C9.  `jsonk_parse` returns whatever leading value the value parser
delivers, never examining the remaining bytes: whenever the value parser
succeeds with any unconsumed remainder, `jsonk_parse` succeeds with that
tree; in particular a valid object followed by arbitrary garbage parses
to exactly the tree of the object alone. -/
theorem c9_trailing_bytes_ignored :
    (∀ (l : Bytes) (p : JValue × Bytes × Nat),
      parseV (3 * l.length + 8) l 0 0 = some p → jsonk_parse l = some p.1) ∧
    jsonk_parse (s2l ("\x7b\"a\":1\x7d) GARBAGE !!")) =
      some (.obj [(s2l ("a"), .number ⟨1, 0, false, true⟩)]) ∧
    jsonk_parse (s2l ("\x7b\"a\":1\x7d")) =
      some (.obj [(s2l ("a"), .number ⟨1, 0, false, true⟩)]) := by
  refine ⟨?_, by decide, by decide⟩
  intro l p h
  have hne : l ≠ [] := by
    intro e
    subst e
    simp [parseV, jsonk_next_token, jsonk_skip_whitespace] at h
  simp [jsonk_parse, List.length_eq_zero, hne, h]

/-- Witness for C9: the general clause applied to a number followed by
unconsumed whitespace and bytes. -/
theorem c9_trailing_bytes_ignored_witness :
    parseV (3 * (s2l ("7 x")).length + 8) (s2l ("7 x")) 0 0 =
      some (.number ⟨7, 0, false, true⟩, s2l (" x"), 0) ∧
    jsonk_parse (s2l ("7 x")) = some (.number ⟨7, 0, false, true⟩) :=
  ⟨by decide, c9_trailing_bytes_ignored.1 (s2l ("7 x"))
    (.number ⟨7, 0, false, true⟩, s2l (" x"), 0) (by decide)⟩


/-! ## Serializer success lemmas: on success the bounded serializer
produces exactly the unbounded rendering, in strictly fewer bytes than
the buffer size (every bounds check in the C source is strict). -/

theorem serStr_ok : ∀ (s : Bytes) (size pos : Nat), (serStr s size pos).2.1 = true →
    (serStr s size pos).1 = renderStr s ∧ (serStr s size pos).2.2 = pos + (renderStr s).length
  | [], size, pos, _ => by simp [serStr, renderStr]
  | c :: rest, size, pos, hok => by
    by_cases hc : pos + (escapeChar c).length < size
    · simp only [serStr, if_pos hc] at hok ⊢
      obtain ⟨h1, h2⟩ := serStr_ok rest size (pos + (escapeChar c).length) hok
      rw [h1, h2]
      simp [renderStr]
      omega
    · simp [serStr, if_neg hc] at hok

mutual

theorem serRun_ok : ∀ (v : JValue) (size : Nat), (serRun v size).2 = true →
    (serRun v size).1 = render v ∧ (render v).length < size
  | .null, size, hok => by
    by_cases hs : 4 < size
    · simp [serRun, if_pos hs, render, s2l]
      omega
    · simp [serRun, if_neg hs] at hok
  | .boolean b, size, hok => by
    cases b
    · by_cases hs : 5 < size
      · simp [serRun, if_pos hs, render, s2l] at hok ⊢
        omega
      · simp [serRun, if_neg hs] at hok
    · by_cases hs : 4 < size
      · simp [serRun, if_pos hs, render, s2l] at hok ⊢
        omega
      · simp [serRun, if_neg hs] at hok
  | .number n, size, hok => by
    by_cases hs : (renderNumber n).length < size
    · simp [serRun, if_pos hs, render, hs]
    · simp [serRun, if_neg hs] at hok
  | .str s, size, hok => by
    by_cases h1 : 1 < size
    · rcases hS : serStr s size 1 with ⟨bs0, ok0, p0⟩
      simp only [serRun, if_pos h1, hS] at hok ⊢
      cases ok0
      · simp at hok
      · obtain ⟨hb, hp⟩ := serStr_ok s size 1 (by rw [hS])
        rw [hS] at hb hp
        simp at hb hp
        subst hb
        by_cases h2 : p0 + 1 < size
        · simp only [if_pos h2] at hok ⊢
          refine ⟨by simp [render], ?_⟩
          simp [render]
          omega
        · simp [if_neg h2] at hok
    · simp [serRun, if_neg h1] at hok
  | .obj ms, size, hok => by
    by_cases h1 : 1 < size
    · rcases hS : serMems ms size 1 true with ⟨bs0, ok0, p0⟩
      simp only [serRun, if_pos h1, hS] at hok ⊢
      cases ok0
      · simp at hok
      · obtain ⟨hb, hp⟩ := serMems_ok ms size 1 true (by rw [hS])
        rw [hS] at hb hp
        simp at hb hp
        subst hb
        by_cases h2 : p0 + 1 < size
        · simp only [if_pos h2] at hok ⊢
          refine ⟨by simp [render], ?_⟩
          simp [render]
          omega
        · simp [if_neg h2] at hok
    · simp [serRun, if_neg h1] at hok
  | .arr es, size, hok => by
    by_cases h1 : 1 < size
    · rcases hS : serElems es size 1 true with ⟨bs0, ok0, p0⟩
      simp only [serRun, if_pos h1, hS] at hok ⊢
      cases ok0
      · simp at hok
      · obtain ⟨hb, hp⟩ := serElems_ok es size 1 true (by rw [hS])
        rw [hS] at hb hp
        simp at hb hp
        subst hb
        by_cases h2 : p0 + 1 < size
        · simp only [if_pos h2] at hok ⊢
          refine ⟨by simp [render], ?_⟩
          simp [render]
          omega
        · simp [if_neg h2] at hok
    · simp [serRun, if_neg h1] at hok

theorem serMems_ok : ∀ (ms : Members) (size pos : Nat) (first : Bool),
    (serMems ms size pos first).2.1 = true →
      (serMems ms size pos first).1 = renderMems ms first ∧
      (serMems ms size pos first).2.2 = pos + (renderMems ms first).length
  | [], size, pos, first, _ => by simp [serMems, renderMems]
  | (k, v) :: rest, size, pos, true, hok => by
    by_cases hkc : pos + k.length + 3 < size
    · rcases hV : serRun v (size - (pos + k.length + 3)) with ⟨vb, okv⟩
      simp only [serMems, if_pos hkc, hV] at hok ⊢
      cases okv
      · simp at hok
      · obtain ⟨hvb, hvlen⟩ := serRun_ok v (size - (pos + k.length + 3)) (by rw [hV])
        rw [hV] at hvb
        simp at hvb
        subst hvb
        rcases hM : serMems rest size (pos + k.length + 3 + (render v).length) false
          with ⟨bs0, ok0, p0⟩
        simp only [hM] at hok ⊢
        cases ok0
        · simp at hok
        · obtain ⟨hmb, hmp⟩ := serMems_ok rest size
            (pos + k.length + 3 + (render v).length) false (by rw [hM])
          rw [hM] at hmb hmp
          simp at hmb hmp
          subst hmb
          refine ⟨by simp [renderMems], ?_⟩
          simp [renderMems, hmp]
          omega
    · simp [serMems, if_neg hkc] at hok
  | (k, v) :: rest, size, pos, false, hok => by
    by_cases hg : pos + 1 ≥ size
    · simp [serMems, hg] at hok
    · by_cases hkc : pos + 1 + k.length + 3 < size
      · rcases hV : serRun v (size - (pos + 1 + k.length + 3)) with ⟨vb, okv⟩
        simp only [serMems, if_neg hg, if_pos hkc, hV] at hok ⊢
        cases okv
        · simp at hok
        · obtain ⟨hvb, hvlen⟩ := serRun_ok v (size - (pos + 1 + k.length + 3)) (by rw [hV])
          rw [hV] at hvb
          simp at hvb
          subst hvb
          rcases hM : serMems rest size (pos + 1 + k.length + 3 + (render v).length) false
            with ⟨bs0, ok0, p0⟩
          simp only [hM] at hok ⊢
          cases ok0
          · simp at hok
          · obtain ⟨hmb, hmp⟩ := serMems_ok rest size
              (pos + 1 + k.length + 3 + (render v).length) false (by rw [hM])
            rw [hM] at hmb hmp
            simp at hmb hmp
            subst hmb
            refine ⟨by simp [renderMems], ?_⟩
            simp [renderMems, hmp]
            omega
      · simp [serMems, if_neg hg, if_neg hkc] at hok

theorem serElems_ok : ∀ (es : List JValue) (size pos : Nat) (first : Bool),
    (serElems es size pos first).2.1 = true →
      (serElems es size pos first).1 = renderElems es first ∧
      (serElems es size pos first).2.2 = pos + (renderElems es first).length
  | [], size, pos, first, _ => by simp [serElems, renderElems]
  | v :: rest, size, pos, true, hok => by
    rcases hV : serRun v (size - pos) with ⟨vb, okv⟩
    simp only [serElems, hV] at hok ⊢
    cases okv
    · simp at hok
    · obtain ⟨hvb, hvlen⟩ := serRun_ok v (size - pos) (by rw [hV])
      rw [hV] at hvb
      simp at hvb
      subst hvb
      rcases hM : serElems rest size (pos + (render v).length) false with ⟨bs0, ok0, p0⟩
      simp only [hM] at hok ⊢
      cases ok0
      · simp at hok
      · obtain ⟨hmb, hmp⟩ := serElems_ok rest size (pos + (render v).length) false
          (by rw [hM])
        rw [hM] at hmb hmp
        simp at hmb hmp
        subst hmb
        refine ⟨by simp [renderElems], ?_⟩
        simp [renderElems, hmp]
        omega
  | v :: rest, size, pos, false, hok => by
    by_cases hg : pos + 1 ≥ size
    · simp [serElems, hg] at hok
    · rcases hV : serRun v (size - (pos + 1)) with ⟨vb, okv⟩
      simp only [serElems, if_neg hg, hV] at hok ⊢
      cases okv
      · simp at hok
      · obtain ⟨hvb, hvlen⟩ := serRun_ok v (size - (pos + 1)) (by rw [hV])
        rw [hV] at hvb
        simp at hvb
        subst hvb
        rcases hM : serElems rest size (pos + 1 + (render v).length) false with ⟨bs0, ok0, p0⟩
        simp only [hM] at hok ⊢
        cases ok0
        · simp at hok
        · obtain ⟨hmb, hmp⟩ := serElems_ok rest size (pos + 1 + (render v).length) false
            (by rw [hM])
          rw [hM] at hmb hmp
          simp at hmb hmp
          subst hmb
          refine ⟨by simp [renderElems], ?_⟩
          simp [renderElems, hmp]
          omega

end

/-- C10.  Whenever `jsonk_serialize` succeeds the number of bytes written
is strictly smaller than the buffer size — one byte of the buffer always
stays unused; consequently a value whose compact rendering is exactly
the buffer size fails with overflow even though it would fit. -/
theorem c10_serializer_strict_bound :
    (∀ (v : JValue) (size : Nat) (bs : Bytes), serRun v size = (bs, true) → bs.length < size) ∧
    (∀ v : JValue, (serRun v ((render v).length)).2 = false) := by
  have key : ∀ (v : JValue) (size : Nat) (bs : Bytes), serRun v size = (bs, true) →
      bs = render v ∧ bs.length < size := by
    intro v size bs h
    have h2 : (serRun v size).2 = true := by rw [h]
    obtain ⟨hb, hl⟩ := serRun_ok v size h2
    rw [h] at hb
    simp at hb
    subst hb
    exact ⟨rfl, hl⟩
  refine ⟨fun v size bs h => (key v size bs h).2, fun v => ?_⟩
  by_contra hne
  have h2 : (serRun v ((render v).length)).2 = true := by
    cases hh : (serRun v ((render v).length)).2
    · exact absurd hh hne
    · rfl
  obtain ⟨hb, hl⟩ := serRun_ok v ((render v).length) h2
  exact lt_irrefl _ hl

/-- Witness for C10: the first clause applied to serializing null into a
10-byte buffer, and the second clause at the same value (null renders as
4 bytes and fails in a 4-byte buffer). -/
theorem c10_serializer_strict_bound_witness :
    serRun .null 10 = (s2l ("null"), true) ∧ (s2l ("null")).length < 10 ∧
    (serRun .null ((render .null).length)).2 = false ∧ (render .null).length = 4 :=
  ⟨by decide, c10_serializer_strict_bound.1 .null 10 (s2l ("null")) (by decide),
    c10_serializer_strict_bound.2 .null, by decide⟩

/-! ## Parser depth lemmas -/

theorem heightMems_bound : ∀ (ms : Members) (B : Nat), (∀ w ∈ ms, heightJ w.2 ≤ B) →
    heightMems ms ≤ B
  | [], _, _ => Nat.zero_le _
  | (k, v) :: rest, B, h => by
    simp only [heightMems]
    exact max_le (h (k, v) (by simp)) (heightMems_bound rest B (fun w hw => h w (by simp [hw])))

theorem heightElems_bound : ∀ (es : List JValue) (B : Nat), (∀ w ∈ es, heightJ w ≤ B) →
    heightElems es ≤ B
  | [], _, _ => Nat.zero_le _
  | v :: rest, B, h => by
    simp only [heightElems]
    exact max_le (h v (by simp)) (heightElems_bound rest B (fun w hw => h w (by simp [hw])))

theorem create_string_shape (c : Bytes) (sc : Nat) (p : JValue × Nat)
    (h : jsonk_value_create_string c sc = some p) : ∃ u, p = (.str u, sc + 1) := by
  unfold jsonk_value_create_string at h
  split at h
  · cases h
  · split at h
    · cases h
    · obtain ⟨u, hu, he⟩ := Option.map_eq_some'.mp h
      exact ⟨u, he.symm⟩

mutual

theorem parseV_height : ∀ (fuel : Nat) (l : Bytes) (d sc : Nat) (v : JValue) (r : Bytes)
    (sc2 : Nat), parseV fuel l d sc = some (v, r, sc2) → heightJ v + d ≤ JSONK_MAX_DEPTH
  | 0, _, _, _, _, _, _, h => by simp [parseV] at h
  | fuel + 1, l, d, sc, v, r, sc2, h => by
    rw [parseV] at h
    split at h
    · cases h
    · rename_i hd
      have hd2 : d < JSONK_MAX_DEPTH := Nat.lt_of_not_le (by simpa using hd)
      rcases hT : jsonk_next_token l with _ | ⟨tok, rest⟩
      · simp [hT] at h
      · simp only [hT] at h
        obtain ⟨tt, ttext⟩ := tok
        cases tt <;> simp only at h
        case objStart =>
          have := parseObj_height fuel (ttext ++ rest) (d + 1) sc v r sc2 (by omega) h
          omega
        case arrStart =>
          have := parseArr_height fuel (ttext ++ rest) (d + 1) sc v r sc2 (by omega) h
          omega
        case str =>
          obtain ⟨p, hp, he⟩ := Option.map_eq_some'.mp h
          obtain ⟨u, hu⟩ := create_string_shape ttext sc p hp
          cases he
          subst hu
          simp [heightJ]
          omega
        case num =>
          obtain ⟨n, hn, he⟩ := Option.map_eq_some'.mp h
          cases he
          simp [heightJ]
          omega
        case tru => cases h; simp [heightJ]; omega
        case fls => cases h; simp [heightJ]; omega
        case nul => cases h; simp [heightJ]; omega
        case objEnd => cases h
        case arrEnd => cases h
        case colon => cases h
        case comma => cases h

theorem parseObj_height : ∀ (fuel : Nat) (l : Bytes) (d sc : Nat) (v : JValue) (r : Bytes)
    (sc2 : Nat), d ≤ JSONK_MAX_DEPTH → parseObj fuel l d sc = some (v, r, sc2) →
      heightJ v + d ≤ JSONK_MAX_DEPTH + 1
  | 0, _, _, _, _, _, _, _, h => by simp [parseObj] at h
  | fuel + 1, l, d, sc, v, r, sc2, hd, h => by
    rw [parseObj] at h
    rcases hT : jsonk_next_token l with _ | ⟨tok, l1⟩
    · simp [hT] at h
    · simp only [hT] at h
      split at h
      · rcases hT2 : jsonk_next_token l1 with _ | ⟨tok2, l2⟩
        · simp [hT2] at h
        · simp only [hT2] at h
          split at h
          · cases h
            simp [heightJ, heightMems]
            omega
          · exact parseMems_height fuel tok2 l2 d sc [] v r sc2 hd (by simp) h
      · cases h

theorem parseMems_height : ∀ (fuel : Nat) (tok : Tok) (l : Bytes) (d sc : Nat) (acc : Members)
    (v : JValue) (r : Bytes) (sc2 : Nat), d ≤ JSONK_MAX_DEPTH →
      (∀ w ∈ acc, heightJ w.2 + d ≤ JSONK_MAX_DEPTH) →
      parseMems fuel tok l d sc acc = some (v, r, sc2) → heightJ v + d ≤ JSONK_MAX_DEPTH + 1
  | 0, _, _, _, _, _, _, _, _, _, _, h => by simp [parseMems] at h
  | fuel + 1, tok, l, d, sc, acc, v, r, sc2, hd, hacc, h => by
    rw [parseMems] at h
    split at h
    · rcases hT : jsonk_next_token l with _ | ⟨c, l2⟩
      · simp [hT] at h
      · simp only [hT] at h
        split at h
        · rcases hV : parseV fuel l2 d sc with _ | ⟨v0, l3, sc1⟩
          · simp [hV] at h
          · simp only [hV] at h
            have hv0 := parseV_height fuel l2 d sc v0 l3 sc1 hV
            split at h
            · cases h
            · split at h
              · cases h
              · have hacc1 : ∀ w ∈ acc ++ [((tok.text ++ ['\x00']).take c.text.length, v0)],
                    heightJ w.2 + d ≤ JSONK_MAX_DEPTH := by
                  intro w hw
                  rcases List.mem_append.mp hw with hw1 | hw2
                  · exact hacc w hw1
                  · simp at hw2
                    subst hw2
                    exact hv0
                rcases hT3 : jsonk_next_token l3 with _ | ⟨e, l4⟩
                · simp [hT3] at h
                · simp only [hT3] at h
                  split at h
                  · cases h
                    have := heightMems_bound (acc ++ [((tok.text ++ ['\x00']).take c.text.length, v0)])
                      (JSONK_MAX_DEPTH - d)
                      (fun w hw => by have := hacc1 w hw; omega)
                    simp [heightJ]
                    omega
                  · split at h
                    · rcases hT4 : jsonk_next_token l4 with _ | ⟨k2, l5⟩
                      · simp [hT4] at h
                      · simp only [hT4] at h
                        exact parseMems_height fuel k2 l5 d sc1
                          (acc ++ [((tok.text ++ ['\x00']).take c.text.length, v0)])
                          v r sc2 hd hacc1 h
                    · cases h
        · cases h
    · cases h

theorem parseArr_height : ∀ (fuel : Nat) (l : Bytes) (d sc : Nat) (v : JValue) (r : Bytes)
    (sc2 : Nat), d ≤ JSONK_MAX_DEPTH → parseArr fuel l d sc = some (v, r, sc2) →
      heightJ v + d ≤ JSONK_MAX_DEPTH + 1
  | 0, _, _, _, _, _, _, _, h => by simp [parseArr] at h
  | fuel + 1, l, d, sc, v, r, sc2, hd, h => by
    rw [parseArr] at h
    rcases hT : jsonk_next_token l with _ | ⟨tok, l1⟩
    · simp [hT] at h
    · simp only [hT] at h
      split at h
      · exact parseElems_height fuel l1 d sc [] v r sc2 hd (by simp) h
      · cases h

theorem parseElems_height : ∀ (fuel : Nat) (l : Bytes) (d sc : Nat) (acc : List JValue)
    (v : JValue) (r : Bytes) (sc2 : Nat), d ≤ JSONK_MAX_DEPTH →
      (∀ w ∈ acc, heightJ w + d ≤ JSONK_MAX_DEPTH) →
      parseElems fuel l d sc acc = some (v, r, sc2) → heightJ v + d ≤ JSONK_MAX_DEPTH + 1
  | 0, _, _, _, _, _, _, _, _, _, h => by simp [parseElems] at h
  | fuel + 1, l, d, sc, acc, v, r, sc2, hd, hacc, h => by
    rw [parseElems] at h
    split at h
    · cases h
      have := heightElems_bound acc (JSONK_MAX_DEPTH - d)
        (fun w hw => by have := hacc w hw; omega)
      simp [heightJ]
      omega
    · rcases hV : parseV fuel (jsonk_skip_whitespace l) d sc with _ | ⟨v0, l2, sc1⟩
      · simp [hV] at h
      · simp only [hV] at h
        have hv0 := parseV_height fuel (jsonk_skip_whitespace l) d sc v0 l2 sc1 hV
        split at h
        · cases h
        · have hacc1 : ∀ w ∈ acc ++ [v0], heightJ w + d ≤ JSONK_MAX_DEPTH := by
            intro w hw
            rcases List.mem_append.mp hw with hw1 | hw2
            · exact hacc w hw1
            · simp at hw2
              subst hw2
              exact hv0
          rcases hT : jsonk_next_token l2 with _ | ⟨e, l3⟩
          · simp [hT] at h
          · simp only [hT] at h
            split at h
            · cases h
              have := heightElems_bound (acc ++ [v0]) (JSONK_MAX_DEPTH - d)
                (fun w hw => by have := hacc1 w hw; omega)
              simp [heightJ]
              omega
            · split at h
              · exact parseElems_height fuel l3 d sc1 (acc ++ [v0]) v r sc2 hd hacc1 h
              · cases h

end

/-- C7.  The value parser fails as soon as the depth counter has reached
the compile-time cap of 32 (each recursive value parse runs at depth one
more than its parent), so every parsed tree has height at most 32; an
input nested exactly 32 deep (with an empty innermost array) parses
successfully, while one nested 33 deep fails. -/
theorem c7_depth_limit :
    (∀ (fuel : Nat) (l : Bytes) (d sc : Nat), d ≥ JSONK_MAX_DEPTH → parseV fuel l d sc = none) ∧
    (∀ (l : Bytes) (v : JValue), jsonk_parse l = some v → heightJ v ≤ JSONK_MAX_DEPTH) ∧
    (jsonk_parse (List.replicate 32 '[' ++ List.replicate 32 ']')).isSome = true ∧
    jsonk_parse (List.replicate 33 '[' ++ List.replicate 33 ']') = none := by
  refine ⟨?_, ?_, by decide, by decide⟩
  · intro fuel l d sc hd
    cases fuel
    · rfl
    · rw [parseV]
      simp [hd]
  · intro l v h
    unfold jsonk_parse at h
    split at h
    · cases h
    · obtain ⟨p, hp, he⟩ := Option.map_eq_some'.mp h
      obtain ⟨v0, r, sc2⟩ := p
      cases he
      have := parseV_height _ l 0 0 v0 r sc2 hp
      simpa using this

/-- Witness for C7: the cap clause at depth 32 on a concrete input, and
the height bound applied to a parsed two-level document. -/
theorem c7_depth_limit_witness :
    parseV 20 (s2l ("[1]")) 32 0 = none ∧
    jsonk_parse (s2l ("[[1]]")) = some (.arr [.arr [.number ⟨1, 0, false, true⟩]]) ∧
    heightJ (.arr [.arr [.number ⟨1, 0, false, true⟩]]) ≤ JSONK_MAX_DEPTH :=
  ⟨c7_depth_limit.1 20 (s2l ("[1]")) 32 0 (by decide), by decide,
    c7_depth_limit.2.1 (s2l ("[[1]]")) (.arr [.arr [.number ⟨1, 0, false, true⟩]]) (by decide)⟩

/-- C8 counterexample.  An integer literal one past the 64-bit range does
not saturate: the kernel strtoll accumulation wraps modulo 2^64, so
parsing the literal 2^63 yields the integer −2^63 with the is-negative
flag set, not the saturated S64_MAX the claim requires. -/
theorem c8_counterexample :
    jsonk_value_create_number (s2l ("9223372036854775808")) =
      some ⟨-9223372036854775808, 0, true, true⟩ ∧
    (-9223372036854775808 : Int) ≠ S64_MAX ∧ ((-9223372036854775808 : Int) < 0) := by decide

/-- C8 as amended.  Literals of magnitude 2^63−1 and −2^63 parse to the
exact 64-bit values with is-integer true; an integer literal whose
magnitude overflows wraps modulo 2^64 (through the kernel strtoll)
rather than saturating, still with is-integer true; a literal containing
a decimal point or exponent gets is-integer false, its integer part
accumulated with the saturating `S64_MAX / 10` guard (saturation shown
at a 20-digit literal), up to nine fraction digits populate the fraction
field, and the exponent is discarded. -/
theorem c8_number_construction :
    jsonk_value_create_number (s2l ("9223372036854775807")) =
      some ⟨9223372036854775807, 0, false, true⟩ ∧
    jsonk_value_create_number (s2l ("-9223372036854775808")) =
      some ⟨-9223372036854775808, 0, true, true⟩ ∧
    jsonk_value_create_number (s2l ("9223372036854775808")) =
      some ⟨-9223372036854775808, 0, true, true⟩ ∧
    (∀ (s : Bytes) (n : JNumber), jsonk_value_create_number s = some n →
      n.is_integer = !((scanDecExp s).1 || (scanDecExp s).2)) ∧
    jsonk_value_create_number (s2l ("0.1234567891")) = some ⟨0, 123456789, false, false⟩ ∧
    jsonk_value_create_number (s2l ("1.5e300")) = some ⟨1, 5, false, false⟩ ∧
    jsonk_value_create_number (s2l ("92233720368547758070.5")) =
      some ⟨9223372036854775807, 0, false, false⟩ := by
  refine ⟨by decide, by decide, by decide, ?_, by decide, by decide, by decide⟩
  intro s n h
  simp only [jsonk_value_create_number] at h
  split at h
  · rename_i hcond
    injection h with h2
    subst h2
    simp [hcond]
  · rename_i hcond
    rw [Bool.not_eq_true] at hcond
    split at h
    · injection h with h2
      subst h2
      simp [hcond]
    · cases h

/-- Witness for C8 as amended: the general is-integer clause applied to
the literal 1.5. -/
theorem c8_number_construction_witness :
    jsonk_value_create_number (s2l ("1.5")) = some ⟨1, 5, false, false⟩ ∧
    (JNumber.mk 1 5 false false).is_integer =
      !((scanDecExp (s2l ("1.5"))).1 || (scanDecExp (s2l ("1.5"))).2) :=
  ⟨by decide,
    c8_number_construction.2.2.2.1 (s2l ("1.5")) ⟨1, 5, false, false⟩ (by decide)⟩

/-- C3 counterexample.  The round trip fails on the input -5: the tree
parses with integer -5, the serializer (double negation, see C4) emits
the two bytes 5, and reparsing those gives a different tree.  Also the
example input of the claim is 42 bytes long, not 41. -/
theorem c3_counterexample :
    jsonk_parse (s2l ("-5")) = some (.number ⟨-5, 0, true, true⟩) ∧
    jsonk_serialize (.number ⟨-5, 0, true, true⟩) 64 = (s2l ("5"), true) ∧
    jsonk_parse (s2l ("5")) = some (.number ⟨5, 0, false, true⟩) ∧
    JValue.number ⟨5, 0, false, true⟩ ≠ JValue.number ⟨-5, 0, true, true⟩ ∧
    (s2l ("\x7b\"name\":\"JSONK\",\"version\":1,\"active\":true\x7d")).length = 42 :=
  ⟨by decide, by decide, by decide, by decide, by decide⟩

/-- C6 counterexample.  Target \x7b\x7d with the patch
\x7b"a":\x7b"b":null\x7d\x7d: the first application inserts the nested
object as a whole (deep copy keeps the null member) and succeeds; the
second application recurses into the two objects, where the null member
now acts as a deletion, so it returns different bytes
\x7b"a":\x7b\x7d\x7d and reports SUCCESS, not NO_CHANGE. -/
theorem c6_counterexample :
    jsonk_apply_patch (s2l ("\x7b\x7d")) (s2l ("\x7b\"a\":\x7b\"b\":null\x7d\x7d")) 64 =
      (.success, s2l ("\x7b\"a\":\x7b\"b\":null\x7d\x7d"), some 16) ∧
    jsonk_apply_patch (s2l ("\x7b\"a\":\x7b\"b\":null\x7d\x7d"))
        (s2l ("\x7b\"a\":\x7b\"b\":null\x7d\x7d")) 64 =
      (.success, s2l ("\x7b\"a\":\x7b\x7d\x7d"), some 8) ∧
    s2l ("\x7b\"a\":\x7b\x7d\x7d") ≠ s2l ("\x7b\"a\":\x7b\"b\":null\x7d\x7d") :=
  ⟨by decide, by decide, by decide⟩

/-! ## Serializer completeness: a buffer strictly larger than the
rendering makes `jsonk_serialize` succeed and produce exactly the
rendering. -/

theorem serStr_complete : ∀ (s : Bytes) (size pos : Nat),
    pos + (renderStr s).length < size →
    serStr s size pos = (renderStr s, true, pos + (renderStr s).length)
  | [], size, pos, h => by simp [serStr, renderStr]
  | c :: rest, size, pos, h => by
    have hl : (renderStr (c :: rest)).length =
        (escapeChar c).length + (renderStr rest).length := by simp [renderStr]
    rw [hl] at h
    have h1 : pos + (escapeChar c).length < size := by omega
    simp only [serStr]
    rw [if_pos h1, serStr_complete rest size (pos + (escapeChar c).length) (by omega)]
    simp [renderStr, Nat.add_assoc]

mutual

theorem serRun_complete : ∀ (v : JValue) (size : Nat), (render v).length < size →
    serRun v size = (render v, true)
  | .null, size, h => by
    simp [render, s2l] at h
    simp [serRun, render, h]
  | .boolean true, size, h => by
    simp [render, s2l] at h
    simp [serRun, render, h]
  | .boolean false, size, h => by
    simp [render, s2l] at h
    simp [serRun, render, h]
  | .number n, size, h => by
    simp only [render] at h
    simp [serRun, render, h]
  | .str s, size, h => by
    simp only [render, List.length_cons, List.length_append, List.length_singleton] at h
    have h1 : 1 < size := by omega
    have h2 : 1 + (renderStr s).length < size := by omega
    simp only [serRun]
    rw [if_pos h1, serStr_complete s size 1 h2]
    have h3 : 1 + (renderStr s).length + 1 < size := by omega
    simp only [h3, if_pos, render]
  | .obj ms, size, h => by
    simp only [render, List.length_cons, List.length_append, List.length_singleton] at h
    have h1 : 1 < size := by omega
    have h2 : 1 + (renderMems ms true).length < size := by omega
    simp only [serRun]
    rw [if_pos h1, serMems_complete ms size 1 true h2]
    have h3 : 1 + (renderMems ms true).length + 1 < size := by omega
    simp only [h3, if_pos, render]
  | .arr es, size, h => by
    simp only [render, List.length_cons, List.length_append, List.length_singleton] at h
    have h1 : 1 < size := by omega
    have h2 : 1 + (renderElems es true).length < size := by omega
    simp only [serRun]
    rw [if_pos h1, serElems_complete es size 1 true h2]
    have h3 : 1 + (renderElems es true).length + 1 < size := by omega
    simp only [h3, if_pos, render]

theorem serMems_complete : ∀ (ms : Members) (size pos : Nat) (first : Bool),
    pos + (renderMems ms first).length < size →
    serMems ms size pos first = (renderMems ms first, true, pos + (renderMems ms first).length)
  | [], size, pos, first, h => by cases first <;> simp [serMems, renderMems]
  | (k, v) :: rest, size, pos, true, h => by
    have hl : (renderMems ((k, v) :: rest) true).length =
        k.length + 3 + (render v).length + (renderMems rest false).length := by
      simp [renderMems]; omega
    rw [hl] at h
    have h1 : pos + k.length + 3 < size := by omega
    simp only [serMems]
    rw [if_pos h1, serRun_complete v (size - (pos + k.length + 3)) (by omega)]
    simp only [serMems_complete rest size (pos + k.length + 3 + (render v).length) false
      (by omega)]
    simp [renderMems]
    all_goals omega
  | (k, v) :: rest, size, pos, false, h => by
    have hl : (renderMems ((k, v) :: rest) false).length =
        1 + k.length + 3 + (render v).length + (renderMems rest false).length := by
      simp [renderMems]; omega
    rw [hl] at h
    have h0 : ¬ (pos + 1 ≥ size) := by omega
    have h1 : pos + 1 + k.length + 3 < size := by omega
    simp only [serMems]
    rw [if_neg h0, if_pos h1, serRun_complete v (size - (pos + 1 + k.length + 3)) (by omega)]
    simp only [serMems_complete rest size (pos + 1 + k.length + 3 + (render v).length) false
      (by omega)]
    simp [renderMems]
    all_goals omega

theorem serElems_complete : ∀ (es : List JValue) (size pos : Nat) (first : Bool),
    pos + (renderElems es first).length < size →
    serElems es size pos first = (renderElems es first, true, pos + (renderElems es first).length)
  | [], size, pos, first, h => by cases first <;> simp [serElems, renderElems]
  | v :: rest, size, pos, true, h => by
    have hl : (renderElems (v :: rest) true).length =
        (render v).length + (renderElems rest false).length := by simp [renderElems]
    rw [hl] at h
    simp only [serElems]
    rw [serRun_complete v (size - pos) (by omega)]
    simp only [serElems_complete rest size (pos + (render v).length) false (by omega)]
    simp [renderElems]
    all_goals omega
  | v :: rest, size, pos, false, h => by
    have hl : (renderElems (v :: rest) false).length =
        1 + (render v).length + (renderElems rest false).length := by
      simp [renderElems]; omega
    rw [hl] at h
    have h0 : ¬ (pos + 1 ≥ size) := by omega
    simp only [serElems]
    rw [if_neg h0, serRun_complete v (size - (pos + 1)) (by omega)]
    simp only [serElems_complete rest size (pos + 1 + (render v).length) false (by omega)]
    simp [renderElems]
    all_goals omega

end

/-! ## Round-trip groundwork: digits and number tokens -/

/-- Head condition under which a number token is delimited: the next
byte must not extend the digit run, fraction or exponent. -/
def numDelimB : Bytes → Bool
  | [] => true
  | c :: _ => !(isDigitB c || c = '.' || c = 'e' || c = 'E')

/-- Numeric value of a digit list (no overflow), Nat version. -/
def foldValN (acc : Nat) (ds : Bytes) : Nat :=
  ds.foldl (fun a c => a * 10 + digitVal c) acc

/-- Numeric value of a digit list, Int accumulator version. -/
def foldValI (acc : Int) (ds : Bytes) : Int :=
  ds.foldl (fun a c => a * 10 + (digitVal c : Int)) acc

theorem digit_facts (c : Char) (h : isDigitB c = true) :
    jsonk_is_whitespace c = false ∧ c ≠ '{' ∧ c ≠ '}' ∧ c ≠ '[' ∧ c ≠ ']' ∧
      c ≠ ':' ∧ c ≠ ',' ∧ c ≠ '"' ∧ c ≠ '-' ∧ c ≠ 'e' ∧ c ≠ 'E' ∧ c ≠ '.' ∧
      c ≠ 't' ∧ c ≠ 'f' ∧ c ≠ 'n' ∧ c ≠ '\\' := by
  have hsp : c ≠ ' ' := fun he => by subst he; exact absurd h (by decide)
  have hta : c ≠ '\t' := fun he => by subst he; exact absurd h (by decide)
  have hnl : c ≠ '\n' := fun he => by subst he; exact absurd h (by decide)
  have hcr : c ≠ '\r' := fun he => by subst he; exact absurd h (by decide)
  refine ⟨by simp [jsonk_is_whitespace, hsp, hta, hnl, hcr], ?_, ?_, ?_, ?_, ?_, ?_, ?_, ?_,
    ?_, ?_, ?_, ?_, ?_, ?_, ?_⟩ <;>
    exact fun he => by subst he; exact absurd h (by decide)

theorem skip_ws_cons (c : Char) (l : Bytes) (h : jsonk_is_whitespace c = false) :
    jsonk_skip_whitespace (c :: l) = c :: l := by
  simp [jsonk_skip_whitespace, h]

theorem takeDigits_split : ∀ (ds r : Bytes), (∀ c ∈ ds, isDigitB c = true) →
    (∀ c, r.head? = some c → isDigitB c = false) →
    takeDigits (ds ++ r) = (ds, r)
  | [], r, _, hr => by
    cases r with
    | nil => simp [takeDigits]
    | cons c t => simp [takeDigits, hr c rfl]
  | d :: ds, r, hds, hr => by
    have hd : isDigitB d = true := hds d (by simp)
    simp [takeDigits, hd,
      takeDigits_split ds r (fun c hc => hds c (List.mem_cons_of_mem _ hc)) hr]

/-- Single-digit facts about the bytes `natDecAux` emits. -/
theorem digit_ofNat (m : Nat) (hm : m < 10) :
    isDigitB (Char.ofNat (48 + m)) = true ∧ digitVal (Char.ofNat (48 + m)) = m ∧
      (m ≠ 0 → Char.ofNat (48 + m) ≠ '0') := by
  interval_cases m <;> refine ⟨by decide, by decide, by decide⟩

/-- Shape of the decimal rendering: nonempty, all digits, no leading
zero (unless the number is zero). -/
theorem natDecAux_spec : ∀ (f n : Nat), n < f →
    ∃ c t, natDecAux f n = c :: t ∧ isDigitB c = true ∧
      (∀ d ∈ t, isDigitB d = true) ∧ (n ≠ 0 → c ≠ '0')
  | f + 1, n, _ => by
    by_cases hn : n < 10
    · refine ⟨Char.ofNat (48 + n), [], by simp [natDecAux, hn], (digit_ofNat n hn).1, by simp,
        (digit_ofNat n hn).2.2⟩
    · obtain ⟨c, t, hct, hc, ht, hc0⟩ :=
        natDecAux_spec f (n / 10) (by omega)
      have hm : n % 10 < 10 := Nat.mod_lt _ (by norm_num)
      refine ⟨c, t ++ [Char.ofNat (48 + n % 10)], ?_, hc, ?_, fun _ => hc0 (by omega)⟩
      · simp [natDecAux, hn, hct]
      · intro d hd
        rcases List.mem_append.mp hd with h1 | h1
        · exact ht d h1
        · simp at h1
          subst h1
          exact (digit_ofNat _ hm).1

theorem natDec_spec (n : Nat) :
    ∃ c t, natDec n = c :: t ∧ isDigitB c = true ∧
      (∀ d ∈ t, isDigitB d = true) ∧ (n ≠ 0 → c ≠ '0') :=
  natDecAux_spec (n + 1) n (by omega)

theorem natDec_digits (n : Nat) : ∀ d ∈ natDec n, isDigitB d = true := by
  obtain ⟨c, t, hct, hc, ht, _⟩ := natDec_spec n
  intro d hd
  rw [hct] at hd
  rcases List.mem_cons.mp hd with h1 | h1
  · subst h1; exact hc
  · exact ht d h1

theorem natDec_ne_nil (n : Nat) : natDec n ≠ [] := by
  obtain ⟨c, t, hct, _, _, _⟩ := natDec_spec n
  simp [hct]

/-- Value of the decimal rendering. -/
theorem natDecAux_val : ∀ (f n : Nat), n < f → (acc : Nat) →
    foldValN acc (natDecAux f n) = acc * 10 ^ (natDecAux f n).length + n
  | f + 1, n, _, acc => by
    by_cases hn : n < 10
    · simp [natDecAux, hn, foldValN, (digit_ofNat n hn).2.1]
    · have hrec := natDecAux_val f (n / 10) (by omega) acc
      have hm : n % 10 < 10 := Nat.mod_lt _ (by norm_num)
      rw [show natDecAux (f + 1) n = natDecAux f (n / 10) ++ [Char.ofNat (48 + n % 10)] by
        simp [natDecAux, hn]]
      simp only [foldValN] at *
      rw [List.foldl_append]
      simp only [List.foldl_cons, List.foldl_nil, List.length_append, List.length_singleton]
      rw [hrec, (digit_ofNat _ hm).2.1]
      have : n / 10 * 10 + n % 10 = n := by omega
      ring_nf
      omega

theorem natDec_val (n : Nat) : foldValN 0 (natDec n) = n := by
  have := natDecAux_val (n + 1) n (by omega) 0
  simpa [natDec] using this

/-- Digit count of the decimal rendering. -/
theorem natDecAux_length : ∀ (f n k : Nat), n < f → n < 10 ^ k → 1 ≤ k →
    (natDecAux f n).length ≤ k
  | f + 1, n, k, _, hnk, hk => by
    by_cases hn : n < 10
    · simp [natDecAux, hn]
      omega
    · have hk2 : 2 ≤ k := by
        rcases Nat.lt_or_ge k 2 with h | h
        · interval_cases k <;> omega
        · exact h
      have hdiv : n / 10 < 10 ^ (k - 1) := by
        have h10 : 10 ^ k = 10 ^ (k - 1) * 10 := by
          rw [← pow_succ]
          congr 1
          omega
        rw [Nat.div_lt_iff_lt_mul (by norm_num)]
        omega
      have := natDecAux_length f (n / 10) (k - 1) (by omega) hdiv (by omega)
      rw [show natDecAux (f + 1) n = natDecAux f (n / 10) ++ [Char.ofNat (48 + n % 10)] by
        simp [natDecAux, hn]]
      simp
      omega

theorem natDec_length (n k : Nat) (h : n < 10 ^ k) (hk : 1 ≤ k) : (natDec n).length ≤ k :=
  natDecAux_length (n + 1) n k (by omega) h hk

/-- The fold value only grows along the digits (Nat version). -/
theorem foldValN_ge : ∀ (ds : Bytes) (acc : Nat), acc ≤ foldValN acc ds
  | [], acc => le_refl _
  | c :: ds, acc => by
    have h1 : acc ≤ acc * 10 + digitVal c := by omega
    have h2 := foldValN_ge ds (acc * 10 + digitVal c)
    simp only [foldValN, List.foldl_cons] at *
    omega

/-- The fold value only grows along the digits (Int version), and stays
nonnegative. -/
theorem foldValI_ge : ∀ (ds : Bytes) (acc : Int), 0 ≤ acc →
    acc ≤ foldValI acc ds ∧ 0 ≤ foldValI acc ds
  | [], acc, h => ⟨le_refl _, h⟩
  | c :: ds, acc, h => by
    have h1 : acc ≤ acc * 10 + (digitVal c : Int) := by
      have : (0 : Int) ≤ (digitVal c : Int) := Int.natCast_nonneg _
      nlinarith
    have h2 := foldValI_ge ds (acc * 10 + (digitVal c : Int)) (by omega)
    simp only [foldValI, List.foldl_cons] at *
    omega

/-- `strtoullDigits` computes the fold value when it stays below 2^64. -/
theorem strtoullDigits_split : ∀ (ds r : Bytes) (acc : Nat),
    (∀ c ∈ ds, isDigitB c = true) →
    (∀ c, r.head? = some c → isDigitB c = false) →
    foldValN acc ds < 18446744073709551616 →
    strtoullDigits (ds ++ r) acc = (foldValN acc ds, r)
  | [], r, acc, _, hr, _ => by
    cases r with
    | nil => simp [strtoullDigits, foldValN]
    | cons c t => simp [strtoullDigits, hr c rfl, foldValN]
  | d :: ds, r, acc, hds, hr, hb => by
    have hd : isDigitB d = true := hds d (by simp)
    have hstep : acc * 10 + digitVal d ≤ foldValN acc (d :: ds) := by
      have := foldValN_ge ds (acc * 10 + digitVal d)
      simp only [foldValN, List.foldl_cons] at *
      omega
    have hmod : (acc * 10 + digitVal d) % 18446744073709551616 = acc * 10 + digitVal d :=
      Nat.mod_eq_of_lt (by omega)
    simp only [List.cons_append, strtoullDigits, hd, if_pos, hmod]
    rw [List.append_eq]
    rw [strtoullDigits_split ds r (acc * 10 + digitVal d)
      (fun c hc => hds c (List.mem_cons_of_mem _ hc)) hr
      (by simp only [foldValN, List.foldl_cons] at hb ⊢; exact hb)]
    simp only [foldValN, List.foldl_cons]

/-- `intPartLoop` computes the fold value when it stays within s64 range:
the saturation guard never fires and the s64 wrap is the identity. -/
theorem intPartLoop_split : ∀ (ds r : Bytes) (acc : Int),
    (∀ c ∈ ds, isDigitB c = true) →
    (∀ c, r.head? = some c → isDigitB c = false) →
    0 ≤ acc →
    foldValI acc ds ≤ S64_MAX →
    intPartLoop (ds ++ r) acc = (foldValI acc ds, r)
  | [], r, acc, _, hr, _, _ => by
    cases r with
    | nil => simp [intPartLoop, foldValI]
    | cons c t => simp [intPartLoop, hr c rfl, foldValI]
  | d :: ds, r, acc, hds, hr, hpos, hb => by
    have hd : isDigitB d = true := hds d (by simp)
    have hdv : (0 : Int) ≤ (digitVal d : Int) := Int.natCast_nonneg _
    have hstep : acc * 10 + (digitVal d : Int) ≤ foldValI acc (d :: ds) := by
      have := (foldValI_ge ds (acc * 10 + (digitVal d : Int)) (by omega)).1
      simp only [foldValI, List.foldl_cons] at *
      omega
    have hbs : foldValI acc (d :: ds) ≤ S64_MAX := hb
    have hguard : ¬ (acc > S64_MAX / 10) := by
      simp only [S64_MAX] at *
      omega
    have hwrap : toS64 (acc * 10 + (digitVal d : Int)) = acc * 10 + (digitVal d : Int) := by
      simp only [toS64, S64_MAX] at *
      omega
    simp only [List.cons_append, intPartLoop, hd, if_pos, if_neg hguard, hwrap]
    rw [List.append_eq]
    rw [intPartLoop_split ds r (acc * 10 + (digitVal d : Int))
      (fun c hc => hds c (List.mem_cons_of_mem _ hc)) hr (by omega)
      (by simp only [foldValI, List.foldl_cons] at hb ⊢; exact hb)]
    simp only [foldValI, List.foldl_cons]

/-- `fracLoop` consumes exactly a digit list of at most nine digits whose
value stays at most 999999999 (the guard never fires). -/
theorem fracLoop_split : ∀ (ds : Bytes) (acc nd : Nat),
    (∀ c ∈ ds, isDigitB c = true) →
    nd + ds.length ≤ 9 →
    foldValN acc ds ≤ 999999999 →
    fracLoop ds acc nd = foldValN acc ds
  | [], acc, nd, _, _, _ => by simp [fracLoop, foldValN]
  | d :: ds, acc, nd, hds, hn, hb => by
    have hd : isDigitB d = true := hds d (by simp)
    have hnd : nd < 9 := by simp at hn; omega
    have hstep : acc * 10 + digitVal d ≤ foldValN acc (d :: ds) := by
      have := foldValN_ge ds (acc * 10 + digitVal d)
      simp only [foldValN, List.foldl_cons] at *
      omega
    have hguard : ¬ (acc > 429496729) := by omega
    simp only [fracLoop]
    rw [if_pos (show (isDigitB d && decide (nd < 9)) = true by simp [hd, hnd]), if_neg hguard]
    rw [fracLoop_split ds (acc * 10 + digitVal d) (nd + 1)
      (fun c hc => hds c (List.mem_cons_of_mem _ hc)) (by simp at hn ⊢; omega)
      (by simp only [foldValN, List.foldl_cons] at hb ⊢; exact hb)]
    simp only [foldValN, List.foldl_cons]

theorem scanDecExp_digits : ∀ (ds l : Bytes), (∀ c ∈ ds, isDigitB c = true) →
    scanDecExp (ds ++ l) = scanDecExp l
  | [], l, _ => rfl
  | c :: ds, l, h => by
    have hc := h c (by simp)
    obtain ⟨-, -, -, -, -, -, -, -, -, he, hE, hdot, -, -, -, -⟩ := digit_facts c hc
    simp [scanDecExp, he, hE, hdot,
      scanDecExp_digits ds l (fun d hd => h d (List.mem_cons_of_mem _ hd))]

theorem scanDecExp_int (n : Nat) : scanDecExp (natDec n) = (false, false) := by
  have h := scanDecExp_digits (natDec n) [] (natDec_digits n)
  simpa [scanDecExp] using h

theorem scanDecExp_frac (i f : Nat) :
    scanDecExp (natDec i ++ '.' :: natDec f) = (true, false) := by
  rw [scanDecExp_digits (natDec i) _ (natDec_digits i)]
  have h2 := scanDecExp_digits (natDec f) [] (natDec_digits f)
  simp only [List.append_nil] at h2
  simp [scanDecExp, h2]

theorem lexNumTail_delim (ip r : Bytes) (hr : numDelimB r = true) :
    lexNumber.lexNumTail ip r = some (ip, r) := by
  rcases r with _ | ⟨c, t⟩
  · rfl
  · simp only [numDelimB, Bool.not_eq_true'] at hr
    simp only [Bool.or_eq_false_iff, decide_eq_false_iff_not] at hr
    obtain ⟨⟨⟨h1, h2⟩, h3⟩, h4⟩ := hr
    simp only [lexNumber.lexNumTail]
    split
    · rename_i heq
      split at heq
      · rename_i r2 heq2
        injection heq2 with h5 h6
        exact absurd h5 h2
      · cases heq
    · rename_i tf l2 heq
      split at heq
      · rename_i r2 heq2
        injection heq2 with h5 h6
        exact absurd h5 h2
      · injection heq with h5
        injection h5 with h6 h7
        subst h6
        subst h7
        split
        · rename_i r2 heq2
          injection heq2 with h5 h6
          exact absurd h5 h3
        · rename_i r2 heq2
          injection heq2 with h5 h6
          exact absurd h5 h4
        · rfl

theorem digit_enum (c : Char) (h : isDigitB c = true) :
    c ∈ (['0', '1', '2', '3', '4', '5', '6', '7', '8', '9'] : List Char) := by
  simp only [isDigitB, Bool.and_eq_true, decide_eq_true_eq] at h
  obtain ⟨h1, h2⟩ := h
  have h1' : 48 ≤ c.toNat := h1
  have h2' : c.toNat ≤ 57 := h2
  have hc : c = Char.ofNat c.toNat := (Char.ofNat_toNat c).symm
  set m := c.toNat with hm
  interval_cases m <;> simp [hc, ← hm]

theorem lexNumber_go (n : Nat) (l2 : Bytes)
    (hl2 : ∀ c, l2.head? = some c → isDigitB c = false) :
    lexNumber (natDec n ++ l2) = lexNumber.lexNumTail (natDec n) l2 := by
  obtain ⟨c, t, hct, hc, ht, hc0⟩ := natDec_spec n
  by_cases hn : n = 0
  · subst hn
    have h00 : natDec 0 = ['0'] := by decide
    rw [h00]
    rcases hl : l2 with _ | ⟨d, l3⟩
    · rfl
    · have hd : isDigitB d = false := hl2 d (by rw [hl]; rfl)
      have hred : lexNumber (['0'] ++ d :: l3) =
          (if isDigitB d then none else lexNumber.lexNumTail ['0'] (d :: l3)) := rfl
      rw [hred, hd]
      simp
  · have hcz : c ≠ '0' := hc0 hn
    rw [hct]
    have htd : takeDigits (t ++ l2) = (t, l2) := takeDigits_split t l2 ht hl2
    have henum := digit_enum c hc
    fin_cases henum
    · exact absurd rfl hcz
    all_goals
      change lexNumber.lexNumTail (_ :: (takeDigits (t ++ l2)).1) (takeDigits (t ++ l2)).2 = _
    all_goals rw [htd]

theorem foldValI_eq_natCast : ∀ (ds : Bytes) (a : Nat),
    foldValI (a : Int) ds = ((foldValN a ds : Nat) : Int)
  | [], _ => rfl
  | c :: ds, a => by
    have h := foldValI_eq_natCast ds (a * 10 + digitVal c)
    simp only [foldValI, foldValN, List.foldl_cons] at *
    rw [show ((a : Int) * 10 + (digitVal c : Int)) = ((a * 10 + digitVal c : Nat) : Int) by
      push_cast; ring]
    exact h

theorem simple_strtoll_natDec (n : Nat) (h : n < 18446744073709551616) :
    simple_strtoll (natDec n) = (toS64 (n : Int), []) := by
  obtain ⟨c, t, hct, hc, ht, hc0⟩ := natDec_spec n
  have hsd : strtoullDigits (natDec n) 0 = (n, []) := by
    have h2 := strtoullDigits_split (natDec n) [] 0 (natDec_digits n) (by simp)
      (by rw [natDec_val]; exact h)
    rw [natDec_val] at h2
    simpa using h2
  rw [hct] at hsd ⊢
  have henum := digit_enum c hc
  fin_cases henum
  all_goals
    change ((toS64 (((strtoullDigits (_ :: t) 0).1 : Nat) : Int), (strtoullDigits (_ :: t) 0).2) :
      Int × Bytes) = _
  all_goals rw [hsd]

theorem create_number_nat (n : Nat) (h : (n : Int) ≤ S64_MAX) :
    jsonk_value_create_number (natDec n) = some ⟨(n : Int), 0, false, true⟩ := by
  have hb : n < 18446744073709551616 := by
    simp only [S64_MAX] at h
    omega
  have hss := simple_strtoll_natDec n hb
  have hts : toS64 (n : Int) = (n : Int) := by
    simp only [S64_MAX] at h
    simp only [toS64]
    omega
  rw [hts] at hss
  simp only [jsonk_value_create_number]
  rw [scanDecExp_int n]
  rw [hss]
  change (some ⟨(n : Int), 0, decide ((n : Int) < 0), true⟩ : Option JNumber) = _
  simp [Int.not_lt.mpr (Int.natCast_nonneg n)]

theorem create_number_frac (i f : Nat) (hi : (i : Int) ≤ S64_MAX) (hf : f ≤ 999999999) :
    jsonk_value_create_number (natDec i ++ '.' :: natDec f) = some ⟨(i : Int), f, false, false⟩ := by
  obtain ⟨c, t, hct, hc, ht, hc0⟩ := natDec_spec i
  have hip : intPartLoop (natDec i ++ '.' :: natDec f) 0 = ((i : Int), '.' :: natDec f) := by
    have h2 := intPartLoop_split (natDec i) ('.' :: natDec f) 0 (natDec_digits i)
      (fun d hd => by
        have hd' : d = '.' := by
          simp only [List.head?] at hd
          injection hd with h5
          exact h5.symm
        rw [hd']
        decide)
      (le_refl 0)
      (by rw [show ((0 : Int) = ((0 : Nat) : Int)) from rfl, foldValI_eq_natCast, natDec_val]
          exact hi)
    rw [show ((0 : Int) = ((0 : Nat) : Int)) from rfl, foldValI_eq_natCast, natDec_val] at h2
    exact h2
  have hfrac : fracLoop (natDec f) 0 0 = f := by
    have h3 := fracLoop_split (natDec f) 0 0 (natDec_digits f)
      (by
        have := natDec_length f 9 (by omega) (by omega)
        omega)
      (by rw [natDec_val]; exact hf)
    rw [natDec_val] at h3
    exact h3
  simp only [jsonk_value_create_number]
  rw [scanDecExp_frac i f]
  rw [hct]
  rw [hct] at hip
  have henum := digit_enum c hc
  fin_cases henum
  all_goals
    change (some ⟨(intPartLoop ((_ : Char) :: t ++ '.' :: natDec f) 0).1,
      (match (intPartLoop ((_ : Char) :: t ++ '.' :: natDec f) 0).2 with
        | '.' :: r => fracLoop r 0 0
        | _ => 0),
      false, false⟩ : Option JNumber) = _
  all_goals rw [hip]
  all_goals
    change (some ⟨(i : Int), fracLoop (natDec f) 0 0, false, false⟩ : Option JNumber) = _
  all_goals rw [hfrac]

/-! ## Round-trip groundwork: string tokens -/

/-- Payloads whose serialization is a valid string token: every byte is
either printable (>= 0x20) or one of the five control bytes the
serializer escapes. -/
def strOkB (s : Bytes) : Bool :=
  s.all (fun c => decide (0x20 ≤ c.toNat) ||
    decide (c ∈ (['\x08', '\t', '\n', '\x0c', '\r'] : List Char)))

/-- Valid string-token bodies: what `jsonk_parse_string` accepts between
the quotes. -/
def strTokBody : Bytes → Bool
  | [] => true
  | c :: rest =>
    if c = '\\' then
      match rest with
      | [] => false
      | e :: r2 =>
        if e = '"' || e = '\\' || e = '/' || e = 'b' || e = 'f' ||
           e = 'n' || e = 'r' || e = 't' then
          strTokBody r2
        else if e = 'u' then
          match r2 with
          | a :: b :: c2 :: d :: r3 =>
            isHexB a && isHexB b && isHexB c2 && isHexB d && strTokBody r3
          | _ => false
        else false
    else decide (c ≠ '"') && decide (0x20 ≤ c.toNat) && strTokBody rest

set_option maxHeartbeats 2000000 in
theorem lexString_body : ∀ (s r : Bytes), strTokBody s = true →
    lexString (s ++ '"' :: r) = some (s, r) := by
  have hgen : ∀ (n : Nat) (s r : Bytes), s.length ≤ n → strTokBody s = true →
      lexString (s ++ '"' :: r) = some (s, r) := by
    intro n
    induction n with
    | zero =>
      intro s r hlen h
      rcases s with _ | ⟨c, rest⟩
      · rw [List.nil_append, lexString.eq_def]
        rfl
      · simp at hlen
    | succ n IH =>
      intro s r hlen h
      rcases s with _ | ⟨c, rest⟩
      · rw [List.nil_append, lexString.eq_def]
        rfl
      · rw [strTokBody.eq_def] at h
        simp only [List.cons_append]
        rw [lexString.eq_def]
        simp only [List.length_cons] at hlen
        by_cases hc : c = '\\'
        · subst hc
          simp only [reduceIte, reduceDIte] at h ⊢
          rcases rest with _ | ⟨e, r2⟩
          · simp at h
          · simp only [List.length_cons] at hlen
            try simp only [reduceIte, reduceDIte] at h
            by_cases he : (e = '"' || e = '\\' || e = '/' || e = 'b' || e = 'f' ||
                e = 'n' || e = 'r' || e = 't') = true
            · simp only [he, reduceIte, reduceDIte] at h ⊢
              have ih := IH r2 r (by omega) h
              simp [ih]
              try
                intro h1 h2 h3 h4 h5 h6 h7 h8
                simp [h1, h2, h3, h4, h5, h6, h7, h8] at he
            · rw [Bool.not_eq_true] at he
              simp only [he, reduceIte, reduceDIte] at h ⊢
              by_cases hu : e = 'u'
              · subst hu
                try simp only [reduceIte, reduceDIte] at h
                rcases r2 with _ | ⟨a, t1⟩
                · simp at h
                rcases t1 with _ | ⟨b, t2⟩
                · simp at h
                rcases t2 with _ | ⟨c2, t3⟩
                · simp at h
                rcases t3 with _ | ⟨d, r3⟩
                · simp at h
                simp only [List.length_cons] at hlen
                try simp only [reduceIte, reduceDIte] at h ⊢
                rw [if_neg (show ¬ (false = true) by simp)] at h
                simp only [Bool.and_eq_true] at h
                obtain ⟨⟨⟨⟨ha2, hb2⟩, hc3⟩, hd2⟩, hbody⟩ := h
                have ih := IH r3 r (by omega) hbody
                simp [ha2, hb2, hc3, hd2, ih]
              · simp [hu] at h
        · simp only [hc, reduceIte, reduceDIte] at h ⊢
          simp only [Bool.and_eq_true, decide_eq_true_eq] at h
          obtain ⟨⟨hq, hctrl⟩, hbody⟩ := h
          have ih := IH rest r (by omega) hbody
          have hlt : ¬ (c.toNat < 0x20) := by omega
          simp only [hq, hlt, reduceIte, reduceDIte]
          simp [ih]
  intro s r h
  exact hgen s.length s r (le_refl _) h

set_option maxHeartbeats 2000000 in
theorem strTokBody_renderStr : ∀ (s : Bytes), strOkB s = true → strTokBody (renderStr s) = true
  | [], _ => rfl
  | c :: rest, h => by
    simp only [strOkB, List.all_cons, Bool.and_eq_true] at h
    obtain ⟨hc, hrest⟩ := h
    have ih := strTokBody_renderStr rest hrest
    simp only [renderStr]
    by_cases h1 : c = '"'
    · subst h1
      show strTokBody ('\\' :: '"' :: renderStr rest) = true
      rw [strTokBody.eq_def]
      simp only [reduceIte, reduceDIte]
      exact ih
    by_cases h2 : c = '\\'
    · subst h2
      show strTokBody ('\\' :: '\\' :: renderStr rest) = true
      rw [strTokBody.eq_def]
      simp only [reduceIte, reduceDIte]
      exact ih
    by_cases h3 : c = '\x08'
    · subst h3
      show strTokBody ('\\' :: 'b' :: renderStr rest) = true
      rw [strTokBody.eq_def]
      simp only [reduceIte, reduceDIte]
      exact ih
    by_cases h4 : c = '\x0c'
    · subst h4
      show strTokBody ('\\' :: 'f' :: renderStr rest) = true
      rw [strTokBody.eq_def]
      simp only [reduceIte, reduceDIte]
      exact ih
    by_cases h5 : c = '\n'
    · subst h5
      show strTokBody ('\\' :: 'n' :: renderStr rest) = true
      rw [strTokBody.eq_def]
      simp only [reduceIte, reduceDIte]
      exact ih
    by_cases h6 : c = '\r'
    · subst h6
      show strTokBody ('\\' :: 'r' :: renderStr rest) = true
      rw [strTokBody.eq_def]
      simp only [reduceIte, reduceDIte]
      exact ih
    by_cases h7 : c = '\t'
    · subst h7
      show strTokBody ('\\' :: 't' :: renderStr rest) = true
      rw [strTokBody.eq_def]
      simp only [reduceIte, reduceDIte]
      exact ih
    · have hesc : escapeChar c = [c] := by
        simp [escapeChar, h1, h2, h3, h4, h5, h6, h7]
      rw [hesc]
      have hge : 0x20 ≤ c.toNat := by
        simp only [Bool.or_eq_true, decide_eq_true_eq] at hc
        rcases hc with hge | hmem
        · exact hge
        · simp only [List.mem_cons, List.mem_singleton] at hmem
          rcases hmem with h | h | h | h | h <;> simp_all
      show strTokBody (c :: renderStr rest) = true
      rw [strTokBody.eq_def]
      simp only [h2, reduceIte, reduceDIte]
      simp [h1, hge, ih]

set_option maxHeartbeats 2000000 in
theorem unescape_renderStr : ∀ (s : Bytes), strOkB s = true →
    jsonk_unescape (renderStr s) = some s
  | [], _ => rfl
  | c :: rest, h => by
    simp only [strOkB, List.all_cons, Bool.and_eq_true] at h
    obtain ⟨hc, hrest⟩ := h
    have ih := unescape_renderStr rest hrest
    simp only [renderStr]
    by_cases h1 : c = '"'
    · subst h1
      show jsonk_unescape ('\\' :: '"' :: renderStr rest) = some ('"' :: rest)
      rw [jsonk_unescape.eq_def]
      simp only [reduceIte, reduceDIte]
      rw [ih]
      rfl
    by_cases h2 : c = '\\'
    · subst h2
      show jsonk_unescape ('\\' :: '\\' :: renderStr rest) = some ('\\' :: rest)
      rw [jsonk_unescape.eq_def]
      simp only [reduceIte, reduceDIte]
      rw [ih]
      rfl
    by_cases h3 : c = '\x08'
    · subst h3
      show jsonk_unescape ('\\' :: 'b' :: renderStr rest) = some ('\x08' :: rest)
      rw [jsonk_unescape.eq_def]
      simp only [reduceIte, reduceDIte]
      rw [ih]
      rfl
    by_cases h4 : c = '\x0c'
    · subst h4
      show jsonk_unescape ('\\' :: 'f' :: renderStr rest) = some ('\x0c' :: rest)
      rw [jsonk_unescape.eq_def]
      simp only [reduceIte, reduceDIte]
      rw [ih]
      rfl
    by_cases h5 : c = '\n'
    · subst h5
      show jsonk_unescape ('\\' :: 'n' :: renderStr rest) = some ('\n' :: rest)
      rw [jsonk_unescape.eq_def]
      simp only [reduceIte, reduceDIte]
      rw [ih]
      rfl
    by_cases h6 : c = '\r'
    · subst h6
      show jsonk_unescape ('\\' :: 'r' :: renderStr rest) = some ('\r' :: rest)
      rw [jsonk_unescape.eq_def]
      simp only [reduceIte, reduceDIte]
      rw [ih]
      rfl
    by_cases h7 : c = '\t'
    · subst h7
      show jsonk_unescape ('\\' :: 't' :: renderStr rest) = some ('\t' :: rest)
      rw [jsonk_unescape.eq_def]
      simp only [reduceIte, reduceDIte]
      rw [ih]
      rfl
    · have hesc : escapeChar c = [c] := by
        simp [escapeChar, h1, h2, h3, h4, h5, h6, h7]
      rw [hesc]
      show jsonk_unescape (c :: renderStr rest) = some (c :: rest)
      rw [jsonk_unescape.eq_def]
      simp only [h2, reduceIte, reduceDIte]
      rw [ih]
      rfl

/-! ## Round-trip groundwork: tree measures and conditions -/

mutual

/-- Number of string values in a tree (each consumes one slot of the
per-parse string budget; keys do not). -/
def strCount : JValue → Nat
  | .str _ => 1
  | .obj ms => strCountMems ms
  | .arr es => strCountElems es
  | _ => 0

def strCountMems : Members → Nat
  | [] => 0
  | (_, v) :: rest => strCount v + strCountMems rest

def strCountElems : List JValue → Nat
  | [] => 0
  | v :: rest => strCount v + strCountElems rest

end

mutual

/-- Fuel the embedded parser needs on the rendering of a tree. -/
def fV : JValue → Nat
  | .obj ms => 2 + fMems ms
  | .arr es => 2 + fElems es
  | _ => 1

def fMems : Members → Nat
  | [] => 0
  | (_, v) :: rest => 1 + fV v + fMems rest

def fElems : List JValue → Nat
  | [] => 1
  | v :: rest => 1 + fV v + fElems rest

end

mutual

/-- Trees whose compact rendering parses back to the same tree (given
depth and string-count budgets): numbers are unsigned and in range with
normalised fraction fields, strings are serialization-stable and within
the length cap, keys are single-byte valid token bodies (the parser
stores only the first key byte, since `jsonk_parse_object` passes the
colon token's length when adding the member), and the member/element
counts fit the limits. -/
def rtOkV : JValue → Bool
  | .null => true
  | .boolean _ => true
  | .number n =>
    !n.is_negative && decide (0 ≤ n.integer) && decide (n.integer ≤ S64_MAX) &&
      (if n.is_integer then decide (n.fraction = 0) else decide (n.fraction ≤ 999999999))
  | .str s => strOkB s && decide ((renderStr s).length ≤ JSONK_MAX_STRING_LENGTH)
  | .obj ms => decide (ms.length ≤ JSONK_MAX_OBJECT_MEMBERS) && rtOkM ms
  | .arr es => decide (es.length ≤ JSONK_MAX_ARRAY_SIZE) && rtOkE es

def rtOkM : Members → Bool
  | [] => true
  | (k, v) :: rest =>
    strTokBody k && decide (k.length = 1) && rtOkV v && rtOkM rest

def rtOkE : List JValue → Bool
  | [] => true
  | v :: rest => rtOkV v && rtOkE rest

end

theorem next_token_objStart (l : Bytes) :
    jsonk_next_token ('{' :: l) = some (⟨.objStart, ['{']⟩, l) := rfl

theorem next_token_objEnd (l : Bytes) :
    jsonk_next_token ('}' :: l) = some (⟨.objEnd, ['}']⟩, l) := rfl

theorem next_token_arrStart (l : Bytes) :
    jsonk_next_token ('[' :: l) = some (⟨.arrStart, ['[']⟩, l) := rfl

theorem next_token_arrEnd (l : Bytes) :
    jsonk_next_token (']' :: l) = some (⟨.arrEnd, [']']⟩, l) := rfl

theorem next_token_colon (l : Bytes) :
    jsonk_next_token (':' :: l) = some (⟨.colon, [':']⟩, l) := rfl

theorem next_token_comma (l : Bytes) :
    jsonk_next_token (',' :: l) = some (⟨.comma, [',']⟩, l) := rfl

theorem next_token_true (r : Bytes) :
    jsonk_next_token (s2l ("true") ++ r) = some (⟨.tru, s2l ("true")⟩, r) := rfl

theorem next_token_false (r : Bytes) :
    jsonk_next_token (s2l ("false") ++ r) = some (⟨.fls, s2l ("false")⟩, r) := rfl

theorem next_token_null (r : Bytes) :
    jsonk_next_token (s2l ("null") ++ r) = some (⟨.nul, s2l ("null")⟩, r) := rfl

theorem next_token_str (s r : Bytes) (h : strTokBody s = true) :
    jsonk_next_token ('"' :: (s ++ '"' :: r)) = some (⟨.str, s⟩, r) := by
  have hred : jsonk_next_token ('"' :: (s ++ '"' :: r)) =
      (lexString (s ++ '"' :: r)).map (fun p => (⟨.str, p.1⟩, p.2)) := rfl
  rw [hred, lexString_body s r h]
  rfl

theorem renderNumber_eq (n : JNumber) (hneg : n.is_negative = false) (h0 : 0 ≤ n.integer) :
    renderNumber n = (if n.is_integer then natDec n.integer.toNat
      else natDec n.integer.toNat ++ '.' :: natDec n.fraction) := by
  by_cases hi : n.is_integer <;>
    simp [renderNumber, serShownInt, intDec, hneg, hi, Int.not_lt.mpr h0]

theorem lexNumTail_frac (ip : Bytes) (f : Nat) (r : Bytes) (hr : numDelimB r = true) :
    lexNumber.lexNumTail ip ('.' :: (natDec f ++ r)) = some (ip ++ '.' :: natDec f, r) := by
  obtain ⟨c, t, hct, hc, ht, _⟩ := natDec_spec f
  have htake : takeDigits (natDec f ++ r) = (natDec f, r) := by
    refine takeDigits_split (natDec f) r (natDec_digits f) ?_
    intro d hd
    rcases r with _ | ⟨rc, rt⟩
    · cases hd
    · simp only [numDelimB, Bool.not_eq_true'] at hr
      simp only [Bool.or_eq_false_iff, decide_eq_false_iff_not] at hr
      injection hd with h5
      rw [← h5]
      exact hr.1.1.1
  simp only [lexNumber.lexNumTail]
  rw [htake, hct]
  rcases r with _ | ⟨rc, rt⟩
  · rfl
  · simp only [numDelimB, Bool.not_eq_true'] at hr
    simp only [Bool.or_eq_false_iff, decide_eq_false_iff_not] at hr
    obtain ⟨⟨⟨h1, h2⟩, h3⟩, h4⟩ := hr
    split
    · rename_i heqb
      exact absurd (heqb : some (ip ++ '.' :: c :: t, rc :: rt) = none) (by simp)
    · rename_i tf l2 heqb
      have heqb2 : some (ip ++ '.' :: c :: t, rc :: rt) = some (tf, l2) := heqb
      injection heqb2 with h7
      injection h7 with h8 h9
      subst h8
      subst h9
      split
      · rename_i r2c heqc
        injection heqc with h5c h6c
        exact absurd h5c h3
      · rename_i r2c heqc
        injection heqc with h5c h6c
        exact absurd h5c h4
      · rfl

theorem numDelim_head (r : Bytes) (hr : numDelimB r = true) :
    ∀ d, r.head? = some d → isDigitB d = false ∧ d ≠ '.' ∧ d ≠ 'e' ∧ d ≠ 'E' := by
  intro d hd
  rcases r with _ | ⟨rc, rt⟩
  · cases hd
  · injection hd with h5
    simp only [numDelimB, Bool.not_eq_true'] at hr
    simp only [Bool.or_eq_false_iff, decide_eq_false_iff_not] at hr
    obtain ⟨⟨⟨h1, h2⟩, h3⟩, h4⟩ := hr
    subst h5
    exact ⟨h1, h2, h3, h4⟩

theorem next_token_num (c : Char) (tb r : Bytes) (hc : isDigitB c = true)
    (hlex : lexNumber (c :: (tb ++ r)) = some (c :: tb, r)) :
    jsonk_next_token (c :: (tb ++ r)) = some (⟨.num, c :: tb⟩, r) := by
  obtain ⟨hws, hbr1, hbr2, hsq1, hsq2, hcol, hcom, hq, hm, he, hE, hdot, ht1, hf1, hn1, hbs⟩ :=
    digit_facts c hc
  rw [jsonk_next_token.eq_def, skip_ws_cons c (tb ++ r) hws]
  simp only [hbr1, hbr2, hsq1, hsq2, hcol, hcom, hq, hm, hc, Bool.or_true, reduceIte]
  rw [hlex]
  rfl

theorem next_token_int (i : Nat) (r : Bytes) (hr : numDelimB r = true) :
    jsonk_next_token (natDec i ++ r) = some (⟨.num, natDec i⟩, r) := by
  obtain ⟨c, t, hct, hc, ht, _⟩ := natDec_spec i
  have hlex : lexNumber (natDec i ++ r) = some (natDec i, r) := by
    rw [lexNumber_go i r (fun d hd => (numDelim_head r hr d hd).1),
      lexNumTail_delim _ _ hr]
  rw [hct] at hlex ⊢
  rw [List.cons_append] at hlex ⊢
  exact next_token_num c t r hc hlex

theorem next_token_frac (i f : Nat) (r : Bytes) (hr : numDelimB r = true) :
    jsonk_next_token ((natDec i ++ '.' :: natDec f) ++ r) =
      some (⟨.num, natDec i ++ '.' :: natDec f⟩, r) := by
  obtain ⟨c, t, hct, hc, ht, _⟩ := natDec_spec i
  have hlex : lexNumber ((natDec i ++ '.' :: natDec f) ++ r) =
      some (natDec i ++ '.' :: natDec f, r) := by
    rw [List.append_assoc]
    rw [show ('.' :: natDec f) ++ r = '.' :: (natDec f ++ r) from rfl]
    rw [lexNumber_go i ('.' :: (natDec f ++ r))
      (fun d hd => by injection hd with h5; rw [← h5]; decide)]
    exact lexNumTail_frac (natDec i) f r hr
  have hlex2 : lexNumber (c :: ((t ++ '.' :: natDec f) ++ r)) =
      some (c :: (t ++ '.' :: natDec f), r) := by
    rw [hct] at hlex
    simpa [List.append_assoc] using hlex
  have := next_token_num c (t ++ '.' :: natDec f) r hc hlex2
  rw [hct]
  simpa [List.append_assoc] using this

theorem render_ne_nil (v : JValue) : render v ≠ [] := by
  cases v with
  | null => simp [render, s2l]
  | boolean b => cases b <;> simp [render, s2l]
  | str s => simp [render]
  | obj ms => simp [render]
  | arr es => simp [render]
  | number n =>
    by_cases hneg : serShownInt n < 0 <;> by_cases hi : n.is_integer <;>
      simp [render, renderNumber, intDec, hneg, hi, natDec_ne_nil]

theorem render_head (v : JValue) : ∀ c t, render v = c :: t →
    jsonk_is_whitespace c = false ∧ c ≠ ']' := by
  intro c t h
  cases v with
  | null =>
    rw [show render JValue.null = 'n' :: ['u', 'l', 'l'] from rfl] at h
    injection h with h1 _
    subst h1
    exact ⟨by decide, by decide⟩
  | boolean b =>
    cases b
    · rw [show render (JValue.boolean false) = 'f' :: ['a', 'l', 's', 'e'] from rfl] at h
      injection h with h1 _
      subst h1
      exact ⟨by decide, by decide⟩
    · rw [show render (JValue.boolean true) = 't' :: ['r', 'u', 'e'] from rfl] at h
      injection h with h1 _
      subst h1
      exact ⟨by decide, by decide⟩
  | str s =>
    rw [show render (JValue.str s) = '"' :: (renderStr s ++ ['"']) from rfl] at h
    injection h with h1 _
    subst h1
    exact ⟨by decide, by decide⟩
  | obj ms =>
    rw [show render (JValue.obj ms) = '{' :: (renderMems ms true ++ ['}']) from rfl] at h
    injection h with h1 _
    subst h1
    exact ⟨by decide, by decide⟩
  | arr es =>
    rw [show render (JValue.arr es) = '[' :: (renderElems es true ++ [']']) from rfl] at h
    injection h with h1 _
    subst h1
    exact ⟨by decide, by decide⟩
  | number n =>
    simp only [render, renderNumber] at h
    by_cases hi : n.is_integer
    · rw [if_pos hi] at h
      simp only [intDec] at h
      by_cases hneg : serShownInt n < 0
      · rw [if_pos hneg] at h
        injection h with h1 _
        subst h1
        exact ⟨by decide, by decide⟩
      · rw [if_neg hneg] at h
        obtain ⟨c0, t0, hct, hc0, _, _⟩ := natDec_spec (serShownInt n).toNat
        rw [hct] at h
        injection h with h1 _
        subst h1
        obtain ⟨hws, _, _, _, hsq2, _, _, _, _, _, _, _, _, _, _, _⟩ := digit_facts c0 hc0
        exact ⟨hws, hsq2⟩
    · rw [if_neg hi] at h
      simp only [intDec] at h
      by_cases hneg : serShownInt n < 0
      · rw [if_pos hneg] at h
        rw [List.cons_append] at h
        injection h with h1 _
        subst h1
        exact ⟨by decide, by decide⟩
      · rw [if_neg hneg] at h
        obtain ⟨c0, t0, hct, hc0, _, _⟩ := natDec_spec (serShownInt n).toNat
        rw [hct, List.cons_append] at h
        injection h with h1 _
        subst h1
        obtain ⟨hws, _, _, _, hsq2, _, _, _, _, _, _, _, _, _, _, _⟩ := digit_facts c0 hc0
        exact ⟨hws, hsq2⟩

theorem skip_ws_render (v : JValue) (X : Bytes) :
    jsonk_skip_whitespace (render v ++ X) = render v ++ X := by
  rcases hr : render v with _ | ⟨c, t⟩
  · exact absurd hr (render_ne_nil v)
  · rw [List.cons_append]
    exact skip_ws_cons c (t ++ X) (render_head v c t hr).1

theorem heightJ_pos (v : JValue) : 1 ≤ heightJ v := by
  cases v <;> simp [heightJ]

mutual

theorem fV_le : ∀ v : JValue, fV v + 2 ≤ 3 * (render v).length
  | .null => by simp [fV, render, s2l]
  | .boolean b => by cases b <;> simp [fV, render, s2l]
  | .number n => by
    have h1 : 1 ≤ (render (.number n)).length := by
      rcases hr : render (.number n) with _ | ⟨c, t⟩
      · exact absurd hr (render_ne_nil (.number n))
      · simp
    simp only [fV]
    omega
  | .str s => by
    simp [fV, render]
  | .obj ms => by
    have h2 := fM_true ms
    simp only [fV, render, List.length_cons, List.length_append, List.length_singleton]
    omega
  | .arr es => by
    have h2 := fE_true es
    simp only [fV, render, List.length_cons, List.length_append, List.length_singleton]
    omega

theorem fM_false : ∀ ms : Members, fMems ms ≤ 3 * (renderMems ms false).length
  | [] => by simp [fMems, renderMems]
  | (k, v) :: rest => by
    have h1 := fV_le v
    have h2 := fM_false rest
    simp only [fMems, renderMems, List.length_cons, List.length_append]
    omega

theorem fM_true : ∀ ms : Members, fMems ms ≤ 3 * (renderMems ms true).length + 2
  | [] => by simp [fMems, renderMems]
  | (k, v) :: rest => by
    have h1 := fV_le v
    have h2 := fM_false rest
    simp only [fMems, renderMems, List.length_cons, List.length_append]
    omega

theorem fE_false : ∀ es : List JValue, fElems es ≤ 3 * (renderElems es false).length + 1
  | [] => by simp [fElems, renderElems]
  | v :: rest => by
    have h1 := fV_le v
    have h2 := fE_false rest
    simp only [fElems, renderElems, List.length_cons, List.length_append]
    omega

theorem fE_true : ∀ es : List JValue, fElems es ≤ 3 * (renderElems es true).length + 2
  | [] => by simp [fElems, renderElems]
  | v :: rest => by
    have h1 := fV_le v
    have h2 := fE_false rest
    simp only [fElems, renderElems, List.length_cons, List.length_append]
    omega

end

theorem fV_pos (v : JValue) : 1 ≤ fV v := by
  cases v <;> simp [fV] <;> omega

theorem numDelim_mems (ms : Members) (r : Bytes) :
    numDelimB (renderMems ms false ++ '}' :: r) = true := by
  cases ms with
  | nil => rfl
  | cons kv rest => rfl

theorem numDelim_elems (es : List JValue) (r : Bytes) :
    numDelimB (renderElems es false ++ ']' :: r) = true := by
  cases es with
  | nil => rfl
  | cons v rest => rfl

set_option maxHeartbeats 4000000 in
/-- Completeness of the recursive parser on rendered trees, all five
entry points at once, by induction on the fuel. -/
theorem parse_complete_gen : ∀ (fuel : Nat),
    (∀ (v : JValue) (r : Bytes) (d sc : Nat),
      rtOkV v = true → numDelimB r = true → d + heightJ v ≤ JSONK_MAX_DEPTH →
      sc + strCount v ≤ JSONK_MAX_ARRAY_SIZE → fV v ≤ fuel →
      parseV fuel (render v ++ r) d sc = some (v, r, sc + strCount v)) ∧
    (∀ (ms : Members) (r : Bytes) (d sc : Nat),
      rtOkM ms = true → ms.length ≤ JSONK_MAX_OBJECT_MEMBERS →
      d + heightMems ms ≤ JSONK_MAX_DEPTH → sc + strCountMems ms ≤ JSONK_MAX_ARRAY_SIZE →
      1 + fMems ms ≤ fuel →
      parseObj fuel ('{' :: (renderMems ms true ++ '}' :: r)) d sc =
        some (.obj ms, r, sc + strCountMems ms)) ∧
    (∀ (k : Bytes) (v : JValue) (ms : Members) (r : Bytes) (d sc : Nat) (acc : Members),
      strTokBody k = true → k.length = 1 → rtOkV v = true →
      rtOkM ms = true → acc.length + 1 + ms.length ≤ JSONK_MAX_OBJECT_MEMBERS →
      d + heightJ v ≤ JSONK_MAX_DEPTH → d + heightMems ms ≤ JSONK_MAX_DEPTH →
      sc + strCount v + strCountMems ms ≤ JSONK_MAX_ARRAY_SIZE →
      1 + fV v + fMems ms ≤ fuel →
      parseMems fuel ⟨.str, k⟩ (':' :: (render v ++ (renderMems ms false ++ '}' :: r))) d sc acc =
        some (.obj (acc ++ (k, v) :: ms), r, sc + strCount v + strCountMems ms)) ∧
    (∀ (es : List JValue) (r : Bytes) (d sc : Nat),
      rtOkE es = true → es.length ≤ JSONK_MAX_ARRAY_SIZE →
      d + heightElems es ≤ JSONK_MAX_DEPTH → sc + strCountElems es ≤ JSONK_MAX_ARRAY_SIZE →
      1 + fElems es ≤ fuel →
      parseArr fuel ('[' :: (renderElems es true ++ ']' :: r)) d sc =
        some (.arr es, r, sc + strCountElems es)) ∧
    (∀ (v : JValue) (es : List JValue) (r : Bytes) (d sc : Nat) (acc : List JValue),
      rtOkV v = true → rtOkE es = true → acc.length + 1 + es.length ≤ JSONK_MAX_ARRAY_SIZE →
      d + heightJ v ≤ JSONK_MAX_DEPTH → d + heightElems es ≤ JSONK_MAX_DEPTH →
      sc + strCount v + strCountElems es ≤ JSONK_MAX_ARRAY_SIZE →
      1 + fV v + fElems es ≤ fuel →
      parseElems fuel (render v ++ (renderElems es false ++ ']' :: r)) d sc acc =
        some (.arr (acc ++ v :: es), r, sc + strCount v + strCountElems es)) := by
  intro fuel
  induction fuel with
  | zero =>
    refine ⟨?_, ?_, ?_, ?_, ?_⟩ <;> intros <;> exfalso
    · rename_i v _ _ _ _ _ _ _ hf
      have := fV_pos v
      omega
    · rename_i hf
      omega
    · rename_i hf
      omega
    · rename_i hf
      omega
    · rename_i hf
      omega
  | succ fuel IH =>
    obtain ⟨IH1, IH2, IH3, IH4, IH5⟩ := IH
    refine ⟨?_, ?_, ?_, ?_, ?_⟩
    · -- parseV
      intro v r d sc hok hdel hh hsc hf
      rw [parseV]
      rw [if_neg (show ¬ d ≥ JSONK_MAX_DEPTH by
        have := heightJ_pos v
        simp only [JSONK_MAX_DEPTH] at *
        omega)]
      cases v with
      | null =>
        rw [show render JValue.null ++ r = s2l ("null") ++ r from rfl, next_token_null]
        simp [strCount]
      | boolean b =>
        cases b
        · rw [show render (JValue.boolean false) ++ r = s2l ("false") ++ r from rfl,
            next_token_false]
          simp [strCount]
        · rw [show render (JValue.boolean true) ++ r = s2l ("true") ++ r from rfl,
            next_token_true]
          simp [strCount]
      | str s =>
        simp only [rtOkV, Bool.and_eq_true, decide_eq_true_eq] at hok
        rw [show render (JValue.str s) ++ r = '"' :: (renderStr s ++ '"' :: r) by
          simp [render]]
        rw [next_token_str _ _ (strTokBody_renderStr s hok.1)]
        have hlen : ¬ ((renderStr s).length > JSONK_MAX_STRING_LENGTH) := by
          have := hok.2
          omega
        have hsc2 : ¬ (sc ≥ JSONK_MAX_ARRAY_SIZE) := by
          simp only [strCount, JSONK_MAX_ARRAY_SIZE] at hsc ⊢
          omega
        simp [jsonk_value_create_string, hlen, hsc2, unescape_renderStr s hok.1, strCount]
      | number n =>
        simp only [rtOkV, Bool.and_eq_true, decide_eq_true_eq, Bool.not_eq_true'] at hok
        obtain ⟨⟨⟨hneg, h0⟩, hle⟩, hfr⟩ := hok
        have hi : ((n.integer.toNat : Int)) = n.integer := Int.toNat_of_nonneg h0
        by_cases hint : n.is_integer
        · rw [show render (JValue.number n) = renderNumber n from rfl,
            renderNumber_eq n hneg h0, if_pos hint, next_token_int _ r hdel]
          rw [if_pos hint] at hfr
          simp only [decide_eq_true_eq] at hfr
          have hc := create_number_nat n.integer.toNat (by rw [hi]; exact hle)
          have hn : (⟨(n.integer.toNat : Int), 0, false, true⟩ : JNumber) = n := by
            rcases n with ⟨ni, nf, nneg, nint⟩
            simp only at hi hneg hfr hint
            subst hneg
            subst hint
            subst hfr
            rw [show ((ni.toNat : Int)) = ni from hi]
          rw [hn] at hc
          simp [hc, strCount]
        · rw [show render (JValue.number n) = renderNumber n from rfl,
            renderNumber_eq n hneg h0, if_neg hint, next_token_frac _ _ r hdel]
          rw [if_neg hint] at hfr
          simp only [decide_eq_true_eq] at hfr
          have hc := create_number_frac n.integer.toNat n.fraction (by rw [hi]; exact hle) hfr
          have hn : (⟨(n.integer.toNat : Int), n.fraction, false, false⟩ : JNumber) = n := by
            rcases n with ⟨ni, nf, nneg, nint⟩
            simp only at hi hneg hint
            rw [Bool.not_eq_true] at hint
            subst hneg
            subst hint
            rw [show ((ni.toNat : Int)) = ni from hi]
          rw [hn] at hc
          simp [hc, strCount]
      | obj ms =>
        simp only [rtOkV, Bool.and_eq_true, decide_eq_true_eq] at hok
        rw [show render (JValue.obj ms) ++ r = '{' :: (renderMems ms true ++ '}' :: r) by
          simp [render]]
        rw [next_token_objStart]
        simp only [heightJ] at hh
        simp only [strCount] at hsc ⊢
        simp only [fV] at hf
        have := IH2 ms r (d + 1) sc hok.2 hok.1 (by omega) hsc (by omega)
        simpa using this
      | arr es =>
        simp only [rtOkV, Bool.and_eq_true, decide_eq_true_eq] at hok
        rw [show render (JValue.arr es) ++ r = '[' :: (renderElems es true ++ ']' :: r) by
          simp [render]]
        rw [next_token_arrStart]
        simp only [heightJ] at hh
        simp only [strCount] at hsc ⊢
        simp only [fV] at hf
        have := IH4 es r (d + 1) sc hok.2 hok.1 (by omega) hsc (by omega)
        simpa using this
    · -- parseObj
      intro ms r d sc hokM hlen hh hsc hf
      rw [parseObj]
      rw [next_token_objStart]
      cases ms with
      | nil =>
        rw [show renderMems [] true ++ '}' :: r = '}' :: r from rfl]
        simp [next_token_objEnd, strCountMems]
      | cons kv ms2 =>
        obtain ⟨k, v⟩ := kv
        simp only [rtOkM, Bool.and_eq_true, decide_eq_true_eq] at hokM
        obtain ⟨⟨⟨hk, hklen⟩, hokv⟩, hokM2⟩ := hokM
        rw [show renderMems ((k, v) :: ms2) true ++ '}' :: r =
            '"' :: (k ++ '"' :: (':' :: (render v ++ (renderMems ms2 false ++ '}' :: r)))) by
          simp [renderMems]]
        have hnts := next_token_str k (':' :: (render v ++ (renderMems ms2 false ++ '}' :: r))) hk
        simp only [heightMems] at hh
        simp only [strCountMems] at hsc ⊢
        simp only [fMems] at hf
        have h3 := IH3 k v ms2 r d sc [] hk hklen hokv hokM2
          (by simp only [List.length_nil, List.length_cons] at hlen ⊢; omega)
          (by omega) (by omega) (by omega) (by omega)
        simpa [hnts, Nat.add_assoc] using h3
    · -- parseMems
      intro k v ms r d sc acc hk hklen hokv hokM hbud hhv hhm hsc hf
      rw [parseMems]
      have h1 := IH1 v (renderMems ms false ++ '}' :: r) d sc hokv (numDelim_mems ms r) hhv
        (by omega) (by omega)
      have hacc : ¬ (acc.length ≥ JSONK_MAX_OBJECT_MEMBERS) := by
        simp only [JSONK_MAX_OBJECT_MEMBERS] at *
        omega
      have hkey : (k ++ ['\x00']).take 1 = k := by
        rcases k with _ | ⟨c0, k2⟩
        · exfalso
          simp only [List.length_nil] at hklen
          omega
        · rcases k2 with _ | ⟨c1, k3⟩
          · simp
          · exfalso
            simp only [List.length_cons] at hklen
            omega
      cases ms with
      | nil =>
        simp only [renderMems, List.nil_append] at h1
        simp [next_token_colon, h1, hacc, hkey, next_token_objEnd, strCountMems, renderMems,
          JSONK_MAX_KEY_LENGTH]
      | cons kv2 ms2 =>
        obtain ⟨k2, v2⟩ := kv2
        simp only [rtOkM, Bool.and_eq_true, decide_eq_true_eq] at hokM
        obtain ⟨⟨⟨hk2, hklen3⟩, hokv2⟩, hokM2⟩ := hokM
        have hshape : renderMems ((k2, v2) :: ms2) false ++ '}' :: r =
            ',' :: ('"' :: (k2 ++ '"' :: (':' :: (render v2 ++ (renderMems ms2 false ++ '}' :: r))))) := by
          simp [renderMems]
        have hnts := next_token_str k2
          (':' :: (render v2 ++ (renderMems ms2 false ++ '}' :: r))) hk2
        simp only [heightMems] at hhm
        simp only [strCountMems] at hsc ⊢
        simp only [fMems] at hf
        have h3 := IH3 k2 v2 ms2 r d (sc + strCount v) (acc ++ [(k, v)]) hk2 hklen3 hokv2 hokM2
          (by simp only [List.length_append, List.length_cons, List.length_nil] at hbud ⊢; omega)
          (by omega) (by omega) (by omega) (by omega)
        rw [hshape] at h1
        simpa [next_token_colon, h1, hacc, hkey, hshape, next_token_comma, hnts,
          JSONK_MAX_KEY_LENGTH, Nat.add_assoc] using h3
    · -- parseArr
      intro es r d sc hokE hlen hh hsc hf
      rw [parseArr]
      rw [next_token_arrStart]
      cases es with
      | nil =>
        rcases fuel with _ | fuel2
        · simp only [fElems] at hf
          omega
        · rw [show renderElems [] true ++ ']' :: r = ']' :: r from rfl]
          have hpe : parseElems (fuel2 + 1) (']' :: r) d sc [] = some (.arr [], r, sc) := by
            rw [parseElems]
            rw [skip_ws_cons ']' r (by decide)]
            rfl
          simp [hpe, strCountElems]
      | cons v es2 =>
        simp only [rtOkE, Bool.and_eq_true] at hokE
        have hshape : renderElems (v :: es2) true ++ ']' :: r =
            render v ++ (renderElems es2 false ++ ']' :: r) := by simp [renderElems]
        simp only [heightElems] at hh
        simp only [strCountElems] at hsc ⊢
        simp only [fElems] at hf
        have h5 := IH5 v es2 r d sc [] hokE.1 hokE.2
          (by simp only [List.length_nil, List.length_cons] at hlen ⊢; omega)
          (by omega) (by omega) (by omega) (by omega)
        simpa [hshape, Nat.add_assoc] using h5
    · -- parseElems
      intro v es r d sc acc hokv hokE hbud hhv hhe hsc hf
      rw [parseElems]
      rw [skip_ws_render v (renderElems es false ++ ']' :: r)]
      have h1 := IH1 v (renderElems es false ++ ']' :: r) d sc hokv (numDelim_elems es r) hhv
        (by omega) (by omega)
      have hacc : ¬ (acc.length ≥ JSONK_MAX_ARRAY_SIZE) := by
        simp only [JSONK_MAX_ARRAY_SIZE] at *
        omega
      rcases hr : render v with _ | ⟨c, t⟩
      · exact absurd hr (render_ne_nil v)
      · rw [List.cons_append]
        split
        · rename_i lr heq
          injection heq with hinj _
          exact absurd hinj (render_head v c t hr).2
        · rw [← List.cons_append, ← hr]
          cases es with
          | nil =>
            simp only [renderElems, List.nil_append] at h1
            simp [h1, hacc, next_token_arrEnd, strCountElems, renderElems]
          | cons v2 es2 =>
            simp only [rtOkE, Bool.and_eq_true] at hokE
            have hshape : renderElems (v2 :: es2) false ++ ']' :: r =
                ',' :: (render v2 ++ (renderElems es2 false ++ ']' :: r)) := by
              simp [renderElems]
            simp only [heightElems] at hhe
            simp only [strCountElems] at hsc ⊢
            simp only [fElems] at hf
            have h5 := IH5 v2 es2 r d (sc + strCount v) (acc ++ [v]) hokE.1 hokE.2
              (by simp only [List.length_append, List.length_cons, List.length_nil] at hbud ⊢
                  omega)
              (by omega) (by omega) (by omega) (by omega)
            rw [hshape] at h1
            simpa [h1, hacc, hshape, next_token_comma, Nat.add_assoc] using h5

/-- Top-level parse of a rendered tree. -/
theorem jsonk_parse_render (v : JValue) (hok : rtOkV v = true)
    (hh : heightJ v ≤ JSONK_MAX_DEPTH) (hsc : strCount v ≤ JSONK_MAX_ARRAY_SIZE) :
    jsonk_parse (render v) = some v := by
  have hlen1 : 1 ≤ (render v).length := by
    rcases hr : render v with _ | ⟨c, t⟩
    · exact absurd hr (render_ne_nil v)
    · simp
  have hfuel : fV v ≤ 3 * (render v).length + 8 := by
    have := fV_le v
    omega
  have h := (parse_complete_gen (3 * (render v).length + 8)).1 v [] 0 0 hok rfl
    (by omega) (by omega) hfuel
  rw [List.append_nil] at h
  simp only [jsonk_parse, h]
  rw [if_neg (by omega)]
  rfl

/-- Parse success bounds the height of the result (wrapper around the
per-function height lemmas). -/
theorem jsonk_parse_height (j : Bytes) (v : JValue) (hp : jsonk_parse j = some v) :
    heightJ v ≤ JSONK_MAX_DEPTH := by
  rw [jsonk_parse] at hp
  split at hp
  · cases hp
  · obtain ⟨⟨v2, r, sc2⟩, hpv, he⟩ := Option.map_eq_some'.mp hp
    simp only at he
    subst he
    have := parseV_height (3 * j.length + 8) j 0 0 v2 r sc2 hpv
    omega

/-- C3 as amended.  `jsonk_parse_object` passes the colon token's
length (always 1) as the key length when adding a member, so every
parsed key is truncated to its first byte: the example document parses
with keys `n`, `v`, `a` and serializes to 28 bytes that differ from
the 42-byte input (which is also not the 41 bytes the claim states).
What remains of the round trip: for parsed trees that carry no
negative sign, whose strings re-escape within the limits and which fit
the budgets, serializing into any strictly larger buffer produces the
compact rendering, and parsing that rendering returns a tree equal to
the first (same member and element order). -/
theorem c3_round_trip :
    (∀ (j : Bytes) (v : JValue) (size : Nat),
      jsonk_parse j = some v →
      rtOkV v = true → strCount v ≤ JSONK_MAX_ARRAY_SIZE →
      (render v).length < size →
      jsonk_serialize v size = (render v, true) ∧ jsonk_parse (render v) = some v) ∧
    (s2l ("\x7b\"name\":\"JSONK\",\"version\":1,\"active\":true\x7d")).length = 42 ∧
    jsonk_parse (s2l ("\x7b\"name\":\"JSONK\",\"version\":1,\"active\":true\x7d")) =
      some (.obj [(s2l ("n"), .str (s2l ("JSONK"))),
        (s2l ("v"), .number ⟨1, 0, false, true⟩),
        (s2l ("a"), .boolean true)]) ∧
    jsonk_serialize (.obj [(s2l ("n"), .str (s2l ("JSONK"))),
        (s2l ("v"), .number ⟨1, 0, false, true⟩),
        (s2l ("a"), .boolean true)]) 64 =
      (s2l ("\x7b\"n\":\"JSONK\",\"v\":1,\"a\":true\x7d"), true) ∧
    s2l ("\x7b\"n\":\"JSONK\",\"v\":1,\"a\":true\x7d") ≠
      s2l ("\x7b\"name\":\"JSONK\",\"version\":1,\"active\":true\x7d") := by
  refine ⟨?_, by decide, by decide, by decide, by decide⟩
  intro j v size hp hok hsc hsize
  exact ⟨serRun_complete v size hsize,
    jsonk_parse_render v hok (jsonk_parse_height j v hp) hsc⟩

/-- Witness for C3 as amended: the general round-trip clause applied to
the tree the program parses from the 42-byte example document (keys
truncated to their first byte). -/
theorem c3_round_trip_witness :
    jsonk_serialize (.obj [(s2l ("n"), .str (s2l ("JSONK"))),
        (s2l ("v"), .number ⟨1, 0, false, true⟩),
        (s2l ("a"), .boolean true)]) 64 =
      (render (.obj [(s2l ("n"), .str (s2l ("JSONK"))),
        (s2l ("v"), .number ⟨1, 0, false, true⟩),
        (s2l ("a"), .boolean true)]), true) ∧
    jsonk_parse (render (.obj [(s2l ("n"), .str (s2l ("JSONK"))),
        (s2l ("v"), .number ⟨1, 0, false, true⟩),
        (s2l ("a"), .boolean true)])) =
      some (.obj [(s2l ("n"), .str (s2l ("JSONK"))),
        (s2l ("v"), .number ⟨1, 0, false, true⟩),
        (s2l ("a"), .boolean true)]) :=
  c3_round_trip.1 (s2l ("\x7b\"name\":\"JSONK\",\"version\":1,\"active\":true\x7d"))
    (.obj [(s2l ("n"), .str (s2l ("JSONK"))),
      (s2l ("v"), .number ⟨1, 0, false, true⟩),
      (s2l ("a"), .boolean true)]) 64
    (by decide) (by decide) (by decide) (by decide)

/-! ## Merge idempotence groundwork -/

mutual

/-- Patch values that merge idempotently when inserted whole: no member
anywhere inside is an empty patch value (such a member would delete on
the second pass), keys are unique at every level, and every value
survives the deep copy exactly. -/
def pOkB : JValue → Bool
  | .obj ms => decide ((ms.map Prod.fst).Nodup) && pOkM ms
  | _ => true

def pOkM : Members → Bool
  | [] => true
  | (_, v) :: rest => !isEmptyPatchValue v && dcOk v 1 && pOkB v && pOkM rest

end

/-- Top-level patch member list: empty values are allowed (they delete),
non-empty ones must be idempotence-safe. -/
def patchOkM : Members → Bool
  | [] => true
  | (_, v) :: rest =>
    (isEmptyPatchValue v || (dcOk v 1 && pOkB v)) && patchOkM rest

mutual

/-- Deeply no-duplicate-keys condition on a tree (through object members). -/
def dnOkV : JValue → Bool
  | .obj ms => decide ((ms.map Prod.fst).Nodup) && dnOkM ms
  | _ => true

def dnOkM : Members → Bool
  | [] => true
  | (_, v) :: rest => dnOkV v && dnOkM rest

end

mutual

/-- One patch value has been absorbed at a target slot (the result of
the member lookup): an empty value must be absent, an object value
recurses into a present object, and any other combination must compare
equal by `beqV`. -/
def absorbedV (v : JValue) (w : Option JValue) : Bool :=
  if isEmptyPatchValue v then w.isNone
  else
    match v, w with
    | .obj pm2, some (.obj tm2) => absorbedB tm2 pm2
    | v2, some wv => beqV wv v2
    | _, none => false

/-- The target has absorbed the patch: every patch member is absorbed
at its key. -/
def absorbedB : Members → Members → Bool
  | _, [] => true
  | t, (k, v) :: rest => absorbedV v (findMember t k) && absorbedB t rest

end

mutual

/-- Size measure for merge inductions. -/
def msizeV : JValue → Nat
  | .obj ms => 1 + msizeM ms
  | _ => 1

def msizeM : Members → Nat
  | [] => 0
  | (_, v) :: rest => 1 + msizeV v + msizeM rest

end

theorem findMember_replaceValue_other : ∀ (t : Members) (k k2 : Bytes) (w : JValue),
    k ≠ k2 → findMember (replaceValue t k2 w) k = findMember t k
  | [], _, _, _, _ => rfl
  | (k1, v1) :: tl, k, k2, w, h => by
    by_cases hk : k1 = k2
    · subst hk
      have h2 : k1 ≠ k := fun e => h e.symm
      simp [replaceValue, findMember, h2]
    · simp [replaceValue, hk, findMember,
        findMember_replaceValue_other tl k k2 w h]

theorem findMember_replaceValue_self : ∀ (t : Members) (k : Bytes) (v0 w : JValue),
    findMember t k = some v0 → findMember (replaceValue t k w) k = some w
  | [], _, _, _, h => by cases h
  | (k1, v1) :: tl, k, v0, w, h => by
    by_cases hk : k1 = k
    · simp [replaceValue, hk, findMember]
    · simp only [findMember, if_neg hk] at h
      simp [replaceValue, hk, findMember,
        findMember_replaceValue_self tl k v0 w h]

theorem replaceValue_self : ∀ (t : Members) (k : Bytes) (v : JValue),
    findMember t k = some v → replaceValue t k v = t
  | [], _, _, h => by cases h
  | (k1, v1) :: tl, k, v, h => by
    by_cases hk : k1 = k
    · simp only [findMember, if_pos hk] at h
      injection h with h2
      simp [replaceValue, hk, h2]
    · simp only [findMember, if_neg hk] at h
      simp [replaceValue, hk, replaceValue_self tl k v h]

theorem findMember_append_other : ∀ (t : Members) (k k2 : Bytes) (w : JValue),
    k ≠ k2 → findMember (t ++ [(k2, w)]) k = findMember t k
  | [], k, k2, w, h => by
    have h2 : k2 ≠ k := fun e => h e.symm
    simp [findMember, h2]
  | (k1, v1) :: tl, k, k2, w, h => by
    by_cases hk : k1 = k
    · simp [findMember, hk]
    · simp [findMember, hk, findMember_append_other tl k k2 w h]

theorem findMember_append_self : ∀ (t : Members) (k : Bytes) (w : JValue),
    findMember t k = none → findMember (t ++ [(k, w)]) k = some w
  | [], k, w, _ => by simp [findMember]
  | (k1, v1) :: tl, k, w, h => by
    by_cases hk : k1 = k
    · simp [findMember, hk] at h
    · simp only [findMember, if_neg hk] at h
      simp [findMember, hk, findMember_append_self tl k w h]

theorem keys_replaceValue : ∀ (t : Members) (k : Bytes) (w : JValue),
    (replaceValue t k w).map Prod.fst = t.map Prod.fst
  | [], _, _ => rfl
  | (k1, v1) :: tl, k, w => by
    by_cases hk : k1 = k <;> simp [replaceValue, hk, keys_replaceValue tl k w]

theorem keys_removeMember_sublist : ∀ (t : Members) (k : Bytes),
    ((removeMember t k).map Prod.fst).Sublist (t.map Prod.fst)
  | [], _ => List.Sublist.refl _
  | (k1, v1) :: tl, k => by
    by_cases hk : k1 = k
    · simp only [removeMember, if_pos hk]
      exact (List.sublist_cons_self _ _)
    · simp only [removeMember, if_neg hk, List.map_cons]
      exact List.Sublist.cons₂ _ (keys_removeMember_sublist tl k)

theorem nodup_removeMember (t : Members) (k : Bytes)
    (h : (t.map Prod.fst).Nodup) : ((removeMember t k).map Prod.fst).Nodup :=
  (keys_removeMember_sublist t k).nodup h

theorem findMember_none_of_eq_none : ∀ (t : Members) (k : Bytes),
    findMember t k = none → k ∉ t.map Prod.fst
  | [], _, _ => by simp
  | (k1, v1) :: tl, k, h => by
    by_cases hk : k1 = k
    · simp [findMember, hk] at h
    · simp only [findMember, if_neg hk] at h
      simp only [List.map_cons, List.mem_cons]
      rintro (h2 | h2)
      · exact hk h2.symm
      · exact findMember_none_of_eq_none tl k h h2

theorem findMember_of_nodup_mem : ∀ (t : Members) (k : Bytes) (v : JValue),
    (t.map Prod.fst).Nodup → (k, v) ∈ t → findMember t k = some v
  | [], _, _, _, h => by cases h
  | (k1, v1) :: tl, k, v, hnd, hmem => by
    rw [List.map_cons, List.nodup_cons] at hnd
    rcases List.mem_cons.mp hmem with h | h
    · injection h with h1 h2
      simp [findMember, h1.symm, h2]
    · by_cases hk : k1 = k
      · subst hk
        exact absurd (List.mem_map_of_mem Prod.fst h) hnd.1
      · simp [findMember, hk, findMember_of_nodup_mem tl k v hnd.2 h]

theorem dnOkM_find : ∀ (t : Members) (k : Bytes) (v : JValue),
    dnOkM t = true → findMember t k = some v → dnOkV v = true
  | [], _, _, _, h => by cases h
  | (k1, v1) :: tl, k, v, hd, h => by
    simp only [dnOkM, Bool.and_eq_true] at hd
    by_cases hk : k1 = k
    · simp only [findMember, if_pos hk] at h
      injection h with h2
      exact h2 ▸ hd.1
    · simp only [findMember, if_neg hk] at h
      exact dnOkM_find tl k v hd.2 h

theorem dnOkM_replace : ∀ (t : Members) (k : Bytes) (w : JValue),
    dnOkM t = true → dnOkV w = true → dnOkM (replaceValue t k w) = true
  | [], _, _, _, _ => rfl
  | (k1, v1) :: tl, k, w, hd, hw => by
    simp only [dnOkM, Bool.and_eq_true] at hd
    by_cases hk : k1 = k
    · simp [replaceValue, hk, dnOkM, hw, hd.2]
    · simp [replaceValue, hk, dnOkM, hd.1, dnOkM_replace tl k w hd.2 hw]

theorem dnOkM_remove : ∀ (t : Members) (k : Bytes),
    dnOkM t = true → dnOkM (removeMember t k) = true
  | [], _, _ => rfl
  | (k1, v1) :: tl, k, hd => by
    simp only [dnOkM, Bool.and_eq_true] at hd
    by_cases hk : k1 = k
    · simp [removeMember, hk, hd.2]
    · simp [removeMember, hk, dnOkM, hd.1, dnOkM_remove tl k hd.2]

theorem dnOkM_append (t : Members) (k : Bytes) (w : JValue)
    (hd : dnOkM t = true) (hw : dnOkV w = true) : dnOkM (t ++ [(k, w)]) = true := by
  induction t with
  | nil => simp [dnOkM, hw]
  | cons kv tl ih =>
    obtain ⟨k1, v1⟩ := kv
    simp only [dnOkM, Bool.and_eq_true] at hd
    simp only [List.cons_append, dnOkM, Bool.and_eq_true]
    exact ⟨hd.1, ih hd.2⟩

mutual

theorem pOkB_dnOkV : ∀ (v : JValue), pOkB v = true → dnOkV v = true
  | .null, _ => rfl
  | .boolean _, _ => rfl
  | .number _, _ => rfl
  | .str _, _ => rfl
  | .arr _, _ => rfl
  | .obj ms, h => by
    simp only [pOkB, Bool.and_eq_true] at h
    simp only [dnOkV, Bool.and_eq_true]
    exact ⟨h.1, pOkM_dnOkM ms h.2⟩

theorem pOkM_dnOkM : ∀ (ms : Members), pOkM ms = true → dnOkM ms = true
  | [], _ => rfl
  | (k1, v1) :: tl, h => by
    simp only [pOkM, Bool.and_eq_true] at h
    simp only [dnOkM, Bool.and_eq_true]
    exact ⟨pOkB_dnOkV v1 h.1.2, pOkM_dnOkM tl h.2⟩

end

theorem pOkM_patchOkM : ∀ (ms : Members), pOkM ms = true → patchOkM ms = true
  | [], _ => rfl
  | (k1, v1) :: tl, h => by
    simp only [pOkM, Bool.and_eq_true] at h
    simp only [patchOkM, Bool.and_eq_true, Bool.or_eq_true]
    exact ⟨Or.inr ⟨h.1.1.2, h.1.2⟩, pOkM_patchOkM tl h.2⟩

theorem beqV_refl (v : JValue) : beqV v v = true := (beqV_iff v v).mpr rfl

theorem mergeStep_empty_absent (t : Members) (k : Bytes) (v : JValue)
    (hE : isEmptyPatchValue v = true) (hF : findMember t k = none) :
    mergeStep t k v = some (t, false) := by
  simp [mergeStep, hE, hF]

theorem mergeStep_empty_present (t : Members) (k : Bytes) (v w : JValue)
    (hE : isEmptyPatchValue v = true) (hF : findMember t k = some w) :
    mergeStep t k v = some (removeMember t k, true) := by
  simp [mergeStep, hE, hF]

theorem mergeStep_insert (t : Members) (k : Bytes) (v c : JValue)
    (hE : isEmptyPatchValue v = false) (hF : findMember t k = none)
    (hD : jsonk_value_deep_copy v 1 = some c)
    (hlen : ¬ t.length ≥ JSONK_MAX_OBJECT_MEMBERS)
    (hklen : ¬ k.length > JSONK_MAX_KEY_LENGTH) :
    mergeStep t k v = some (t ++ [(k, c)], true) := by
  simp [mergeStep, hE, hF, hD, hlen, hklen]

theorem mergeStep_insert_fail (t : Members) (k : Bytes) (v : JValue)
    (hE : isEmptyPatchValue v = false) (hF : findMember t k = none)
    (hS : ∃ ta ca, mergeStep t k v = some (ta, ca)) :
    ∃ c, jsonk_value_deep_copy v 1 = some c ∧
      ¬ t.length ≥ JSONK_MAX_OBJECT_MEMBERS ∧ ¬ k.length > JSONK_MAX_KEY_LENGTH ∧
      mergeStep t k v = some (t ++ [(k, c)], true) := by
  obtain ⟨ta, ca, hS⟩ := hS
  rw [show mergeStep t k v =
      (match jsonk_value_deep_copy v 1 with
        | none => none
        | some c =>
          if t.length ≥ JSONK_MAX_OBJECT_MEMBERS then none
          else if k.length > JSONK_MAX_KEY_LENGTH then none
          else some (t ++ [(k, c)], true)) by simp [mergeStep, hE, hF]] at hS
  rcases hD : jsonk_value_deep_copy v 1 with _ | c <;> rw [hD] at hS
  · cases hS
  · have hS2 : (if t.length ≥ JSONK_MAX_OBJECT_MEMBERS then none
        else if k.length > JSONK_MAX_KEY_LENGTH then (none : Option (Members × Bool))
        else some (t ++ [(k, c)], true)) = some (ta, ca) := hS
    by_cases h1 : t.length ≥ JSONK_MAX_OBJECT_MEMBERS
    · rw [if_pos h1] at hS2
      cases hS2
    · rw [if_neg h1] at hS2
      by_cases h2 : k.length > JSONK_MAX_KEY_LENGTH
      · rw [if_pos h2] at hS2
        cases hS2
      · exact ⟨c, rfl, h1, h2, by simp [mergeStep, hE, hF, hD, h1, h2]⟩

theorem mergeStep_objobj (t : Members) (k : Bytes) (pms tms m : Members) (ci : Bool)
    (hF : findMember t k = some (.obj tms))
    (hMM : jsonk_merge_objects tms pms = some (m, ci)) :
    mergeStep t k (.obj pms) =
      (if pms.length = 0 then
        (if (findMember t k).isSome then some (removeMember t k, true) else some (t, false))
      else some (replaceValue t k (.obj m), ci)) := by
  by_cases hE : isEmptyPatchValue (.obj pms) = true
  · have hlen : pms.length = 0 := by simpa [isEmptyPatchValue] using hE
    simp [mergeStep, hE, hlen]
  · have hlen : ¬ pms.length = 0 := by simpa [isEmptyPatchValue] using hE
    simp only [Bool.not_eq_true] at hE
    simp [mergeStep, hE, hF, hlen, mergeUpdate, hMM]

theorem mergeStep_objobj_fail (t : Members) (k : Bytes) (pms tms : Members)
    (hE : isEmptyPatchValue (.obj pms) = false)
    (hF : findMember t k = some (.obj tms))
    (hMM : jsonk_merge_objects tms pms = none) :
    mergeStep t k (.obj pms) = none := by
  simp [mergeStep, hE, hF, mergeUpdate, hMM]

theorem mergeStep_objcopy (t : Members) (k : Bytes) (pms : Members) (w c : JValue)
    (hE : isEmptyPatchValue (.obj pms) = false)
    (hF : findMember t k = some w) (hw : isObjB w = false)
    (hD : jsonk_value_deep_copy (.obj pms) 1 = some c) :
    mergeStep t k (.obj pms) = some (replaceValue t k c, true) := by
  cases w with
  | obj ms2 => simp [isObjB] at hw
  | null => simp [mergeStep, hE, hF, mergeUpdate, hD]
  | boolean b => simp [mergeStep, hE, hF, mergeUpdate, hD]
  | number n => simp [mergeStep, hE, hF, mergeUpdate, hD]
  | str s => simp [mergeStep, hE, hF, mergeUpdate, hD]
  | arr es => simp [mergeStep, hE, hF, mergeUpdate, hD]

theorem mergeStep_copy (t : Members) (k : Bytes) (v w c : JValue)
    (hE : isEmptyPatchValue v = false)
    (hF : findMember t k = some w) (hv : isObjB v = false)
    (hD : jsonk_value_deep_copy v 1 = some c) :
    mergeStep t k v = some (replaceValue t k c, true) := by
  cases v with
  | obj ms2 => simp [isObjB] at hv
  | null => simp [isEmptyPatchValue] at hE
  | boolean b => simp [mergeStep, hE, hF, mergeUpdate, hD]
  | number n => simp [mergeStep, hE, hF, mergeUpdate, hD]
  | str s => simp [mergeStep, hE, hF, mergeUpdate, hD]
  | arr es => simp [mergeStep, hE, hF, mergeUpdate, hD]

theorem mergeUpdate_shape (t : Members) (k2 : Bytes) (v w : JValue) (ta : Members) (ca : Bool)
    (hS : mergeUpdate t k2 v w = some (ta, ca)) : ∃ x, ta = replaceValue t k2 x := by
  cases v with
  | obj pms =>
    cases w with
    | obj tms =>
      simp only [mergeUpdate] at hS
      rcases hM : jsonk_merge_objects tms pms with _ | ⟨m, ci⟩ <;> rw [hM] at hS
      · cases hS
      · have hS2 : some (replaceValue t k2 (JValue.obj m), ci) = some (ta, ca) := hS
        injection hS2 with h2
        injection h2 with h3 h4
        exact ⟨.obj m, h3.symm⟩
    | null =>
      simp only [mergeUpdate] at hS
      rcases hD : jsonk_value_deep_copy (.obj pms) 1 with _ | c <;> rw [hD] at hS
      · cases hS
      · have hS2 : some (replaceValue t k2 c, true) = some (ta, ca) := hS
        injection hS2 with h2
        injection h2 with h3 h4
        exact ⟨c, h3.symm⟩
    | boolean b =>
      simp only [mergeUpdate] at hS
      rcases hD : jsonk_value_deep_copy (.obj pms) 1 with _ | c <;> rw [hD] at hS
      · cases hS
      · have hS2 : some (replaceValue t k2 c, true) = some (ta, ca) := hS
        injection hS2 with h2
        injection h2 with h3 h4
        exact ⟨c, h3.symm⟩
    | number n =>
      simp only [mergeUpdate] at hS
      rcases hD : jsonk_value_deep_copy (.obj pms) 1 with _ | c <;> rw [hD] at hS
      · cases hS
      · have hS2 : some (replaceValue t k2 c, true) = some (ta, ca) := hS
        injection hS2 with h2
        injection h2 with h3 h4
        exact ⟨c, h3.symm⟩
    | str s =>
      simp only [mergeUpdate] at hS
      rcases hD : jsonk_value_deep_copy (.obj pms) 1 with _ | c <;> rw [hD] at hS
      · cases hS
      · have hS2 : some (replaceValue t k2 c, true) = some (ta, ca) := hS
        injection hS2 with h2
        injection h2 with h3 h4
        exact ⟨c, h3.symm⟩
    | arr es =>
      simp only [mergeUpdate] at hS
      rcases hD : jsonk_value_deep_copy (.obj pms) 1 with _ | c <;> rw [hD] at hS
      · cases hS
      · have hS2 : some (replaceValue t k2 c, true) = some (ta, ca) := hS
        injection hS2 with h2
        injection h2 with h3 h4
        exact ⟨c, h3.symm⟩
  | null =>
    simp only [mergeUpdate] at hS
    rcases hD : jsonk_value_deep_copy .null 1 with _ | c <;> rw [hD] at hS
    · cases hS
    · have hS2 : some (replaceValue t k2 c, true) = some (ta, ca) := hS
      injection hS2 with h2
      injection h2 with h3 h4
      exact ⟨c, h3.symm⟩
  | boolean b =>
    simp only [mergeUpdate] at hS
    rcases hD : jsonk_value_deep_copy (.boolean b) 1 with _ | c <;> rw [hD] at hS
    · cases hS
    · have hS2 : some (replaceValue t k2 c, true) = some (ta, ca) := hS
      injection hS2 with h2
      injection h2 with h3 h4
      exact ⟨c, h3.symm⟩
  | number n =>
    simp only [mergeUpdate] at hS
    rcases hD : jsonk_value_deep_copy (.number n) 1 with _ | c <;> rw [hD] at hS
    · cases hS
    · have hS2 : some (replaceValue t k2 c, true) = some (ta, ca) := hS
      injection hS2 with h2
      injection h2 with h3 h4
      exact ⟨c, h3.symm⟩
  | str s =>
    simp only [mergeUpdate] at hS
    rcases hD : jsonk_value_deep_copy (.str s) 1 with _ | c <;> rw [hD] at hS
    · cases hS
    · have hS2 : some (replaceValue t k2 c, true) = some (ta, ca) := hS
      injection hS2 with h2
      injection h2 with h3 h4
      exact ⟨c, h3.symm⟩
  | arr es =>
    simp only [mergeUpdate] at hS
    rcases hD : jsonk_value_deep_copy (.arr es) 1 with _ | c <;> rw [hD] at hS
    · cases hS
    · have hS2 : some (replaceValue t k2 c, true) = some (ta, ca) := hS
      injection hS2 with h2
      injection h2 with h3 h4
      exact ⟨c, h3.symm⟩

theorem mergeStep_find_other (t : Members) (k2 : Bytes) (v : JValue) (ta : Members) (ca : Bool)
    (hS : mergeStep t k2 v = some (ta, ca)) (k : Bytes) (hk : k ≠ k2) :
    findMember ta k = findMember t k ∧
      ((t.map Prod.fst).Nodup → (ta.map Prod.fst).Nodup) := by
  unfold mergeStep at hS
  by_cases hE : isEmptyPatchValue v = true
  · rw [if_pos hE] at hS
    by_cases hF : (findMember t k2).isSome = true
    · rw [if_pos hF] at hS
      injection hS with h2
      injection h2 with h3 h4
      rw [← h3]
      exact ⟨findMember_removeMember_other t k2 k hk, fun h => nodup_removeMember t k2 h⟩
    · rw [if_neg hF] at hS
      injection hS with h2
      injection h2 with h3 h4
      rw [← h3]
      exact ⟨rfl, fun h => h⟩
  · rw [if_neg hE] at hS
    rcases hF : findMember t k2 with _ | w <;> rw [hF] at hS
    · rcases hD : jsonk_value_deep_copy v 1 with _ | c <;> rw [hD] at hS
      · cases hS
      · have hS2 : (if t.length ≥ JSONK_MAX_OBJECT_MEMBERS then none
            else if k2.length > JSONK_MAX_KEY_LENGTH then (none : Option (Members × Bool))
            else some (t ++ [(k2, c)], true)) = some (ta, ca) := hS
        split at hS2
        · cases hS2
        · split at hS2
          · cases hS2
          · injection hS2 with h2
            injection h2 with h3 h4
            rw [← h3]
            refine ⟨findMember_append_other t k k2 c hk, fun h => ?_⟩
            have hnm := findMember_none_of_eq_none t k2 hF
            simp [List.nodup_append, h, hnm]
    · obtain ⟨x, hx⟩ := mergeUpdate_shape t k2 v w ta ca hS
      rw [hx]
      refine ⟨findMember_replaceValue_other t k k2 x hk, fun h => ?_⟩
      rw [keys_replaceValue]
      exact h

theorem merge_preserves : ∀ (p t t1 : Members) (c : Bool) (k : Bytes),
    jsonk_merge_objects t p = some (t1, c) → k ∉ p.map Prod.fst →
    findMember t1 k = findMember t k ∧
      ((t.map Prod.fst).Nodup → (t1.map Prod.fst).Nodup)
  | [], t, t1, c, k, h, _ => by
    simp only [jsonk_merge_objects] at h
    injection h with h2
    injection h2 with h3 h4
    rw [← h3]
    exact ⟨rfl, fun h => h⟩
  | (k2, v) :: rest, t, t1, c, k, h, hk => by
    have hkk : k ≠ k2 ∧ k ∉ rest.map Prod.fst := by
      simp only [List.map_cons, List.mem_cons, not_or] at hk
      exact hk
    rcases hS : mergeStep t k2 v with _ | ⟨ta, ca⟩
    · rw [merge_cons, hS] at h
      cases h
    · rw [merge_cons_of_step t ta k2 v ca rest hS] at h
      rcases hM : jsonk_merge_objects ta rest with _ | ⟨t2, c2⟩ <;> rw [hM] at h
      · cases h
      · simp only [Option.map_some'] at h
        injection h with h3
        have h4 : t2 = t1 := congrArg Prod.fst h3
        rw [← h4]
        obtain ⟨ha1, ha2⟩ := mergeStep_find_other t k2 v ta ca hS k hkk.1
        obtain ⟨hb1, hb2⟩ := merge_preserves rest ta t2 c2 k hM hkk.2
        exact ⟨hb1.trans ha1, fun h => hb2 (ha2 h)⟩

/-! ## Idempotence analysis for the merge engine (C6) -/

theorem absorbedB_cons_of (t : Members) (k : Bytes) (v : JValue) (rest : Members)
    (h1 : absorbedV v (findMember t k) = true) (h2 : absorbedB t rest = true) :
    absorbedB t ((k, v) :: rest) = true := by
  simp only [absorbedB, Bool.and_eq_true]
  exact ⟨h1, h2⟩

theorem absorbedV_empty (v : JValue) (hE : isEmptyPatchValue v = true) :
    absorbedV v none = true := by
  simp only [absorbedV]
  rw [if_pos hE]
  rfl

theorem absorbedV_isNone (v : JValue) (w : Option JValue)
    (hE : isEmptyPatchValue v = true) (h : absorbedV v w = true) : w = none := by
  cases w with
  | none => rfl
  | some x =>
    exfalso
    cases v <;> cases x <;> simp only [absorbedV] at h <;> rw [if_pos hE] at h <;>
      simp at h

/-- A tree whose members obey `pOkM` is absorbed by itself: every key is
present (no duplicates), object members recurse, and the rest compare
equal by `beqV`. -/
theorem self_absorbed : ∀ (n : Nat) (sub ms : Members), msizeM sub ≤ n →
    pOkM sub = true → (∀ k v, (k, v) ∈ sub → findMember ms k = some v) →
    absorbedB ms sub = true := by
  intro n
  induction n with
  | zero =>
    intro sub ms hsz _ _
    cases sub with
    | nil => rw [absorbedB]
    | cons hd tl =>
      exfalso
      obtain ⟨k, v⟩ := hd
      simp only [msizeM] at hsz
      omega
  | succ n IH =>
    intro sub ms hsz hok hmem
    cases sub with
    | nil => rw [absorbedB]
    | cons hd tl =>
      obtain ⟨k, v⟩ := hd
      simp only [pOkM, Bool.and_eq_true] at hok
      obtain ⟨⟨⟨hE', hdc⟩, hpb⟩, hrest⟩ := hok
      have hE : isEmptyPatchValue v = false := by simpa using hE'
      have hf : findMember ms k = some v := hmem k v (List.mem_cons_self _ _)
      have habs_rest : absorbedB ms tl = true := by
        refine IH tl ms ?_ hrest (fun k2 v2 h2 => hmem k2 v2 (List.mem_cons_of_mem _ h2))
        simp only [msizeM] at hsz
        omega
      simp only [absorbedB, Bool.and_eq_true]
      refine ⟨?_, habs_rest⟩
      rw [hf]
      cases v with
      | null => simp [isEmptyPatchValue] at hE
      | obj pm2 =>
        simp only [absorbedV]
        rw [if_neg (by simp [hE])]
        simp only [pOkB, Bool.and_eq_true, decide_eq_true_eq] at hpb
        exact IH pm2 pm2 (by simp only [msizeM, msizeV] at hsz; omega) hpb.2
          (fun k2 v2 h2 => findMember_of_nodup_mem pm2 k2 v2 hpb.1 h2)
      | boolean b =>
        simp only [absorbedV]
        rw [if_neg (by simp [hE])]
        exact beqV_refl _
      | number nn =>
        simp only [absorbedV]
        rw [if_neg (by simp [hE])]
        exact beqV_refl _
      | str s =>
        simp only [absorbedV]
        rw [if_neg (by simp [hE])]
        exact beqV_refl _
      | arr es =>
        simp only [absorbedV]
        rw [if_neg (by simp [hE])]
        exact beqV_refl _

theorem absorbedV_self (v : JValue) (hE : isEmptyPatchValue v = false)
    (hpb : pOkB v = true) : absorbedV v (some v) = true := by
  cases v with
  | null => simp [isEmptyPatchValue] at hE
  | obj pms =>
    simp only [absorbedV]
    rw [if_neg (by simp [hE])]
    simp only [pOkB, Bool.and_eq_true, decide_eq_true_eq] at hpb
    exact self_absorbed (msizeM pms) pms pms (Nat.le_refl _) hpb.2
      (fun k2 v2 h2 => findMember_of_nodup_mem pms k2 v2 hpb.1 h2)
  | boolean b =>
    simp only [absorbedV]
    rw [if_neg (by simp [hE])]
    exact beqV_refl _
  | number nn =>
    simp only [absorbedV]
    rw [if_neg (by simp [hE])]
    exact beqV_refl _
  | str s =>
    simp only [absorbedV]
    rw [if_neg (by simp [hE])]
    exact beqV_refl _
  | arr es =>
    simp only [absorbedV]
    rw [if_neg (by simp [hE])]
    exact beqV_refl _

theorem absorbedV_obj (pms m : Members) (hE : isEmptyPatchValue (.obj pms) = false)
    (hab : absorbedB m pms = true) : absorbedV (.obj pms) (some (.obj m)) = true := by
  simp only [absorbedV]
  rw [if_neg (by simp [hE])]
  exact hab

/-- A non-empty patch value with `dcOk` applied to a key that is present
but where no object-object recursion happens replaces the target value
by the patch value itself. -/
theorem mergeStep_self_copy (t : Members) (k : Bytes) (v w : JValue)
    (hE : isEmptyPatchValue v = false) (hdc : dcOk v 1 = true)
    (hF : findMember t k = some w)
    (hno : isObjB v = false ∨ isObjB w = false) :
    mergeStep t k v = some (replaceValue t k v, true) := by
  rcases hno with hv | hw
  · exact mergeStep_copy t k v w v hE hF hv (deep_copy_id v 1 hdc)
  · cases v with
    | obj pms => exact mergeStep_objcopy t k pms w (.obj pms) hE hF hw (deep_copy_id _ 1 hdc)
    | null => simp [isEmptyPatchValue] at hE
    | boolean b => exact mergeStep_copy t k _ w _ hE hF rfl (deep_copy_id _ 1 hdc)
    | number nn => exact mergeStep_copy t k _ w _ hE hF rfl (deep_copy_id _ 1 hdc)
    | str s => exact mergeStep_copy t k _ w _ hE hF rfl (deep_copy_id _ 1 hdc)
    | arr es => exact mergeStep_copy t k _ w _ hE hF rfl (deep_copy_id _ 1 hdc)

/-- A successful merge of an idempotence-safe patch leaves a target that
has absorbed the patch, and it preserves no-duplicate-keys (shallow and
deep). -/
theorem merge_absorbs_gen : ∀ (n : Nat) (p t t1 : Members) (c : Bool), msizeM p ≤ n →
    patchOkM p = true → ((p.map Prod.fst).Nodup) → ((t.map Prod.fst).Nodup) →
    dnOkM t = true → jsonk_merge_objects t p = some (t1, c) →
    absorbedB t1 p = true ∧ ((t1.map Prod.fst).Nodup) ∧ dnOkM t1 = true := by
  intro n
  induction n with
  | zero =>
    intro p t t1 c hsz hpo hnp hnt hdt h
    cases p with
    | nil =>
      simp only [jsonk_merge_objects] at h
      injection h with h2
      injection h2 with h3 h4
      subst h3
      exact ⟨by rw [absorbedB], hnt, hdt⟩
    | cons hd tl =>
      exfalso
      obtain ⟨k, v⟩ := hd
      simp only [msizeM] at hsz
      omega
  | succ n IH =>
    intro p t t1 c hsz hpo hnp hnt hdt h
    cases p with
    | nil =>
      simp only [jsonk_merge_objects] at h
      injection h with h2
      injection h2 with h3 h4
      subst h3
      exact ⟨by rw [absorbedB], hnt, hdt⟩
    | cons hd rest =>
      obtain ⟨k, v⟩ := hd
      simp only [patchOkM, Bool.and_eq_true, Bool.or_eq_true] at hpo
      obtain ⟨hpv, hprest⟩ := hpo
      simp only [List.map_cons, List.nodup_cons] at hnp
      obtain ⟨hknr, hnrest⟩ := hnp
      rcases hS : mergeStep t k v with _ | ⟨ta, ca⟩
      · rw [merge_cons, hS] at h
        cases h
      · rw [merge_cons_of_step t ta k v ca rest hS] at h
        rcases hM : jsonk_merge_objects ta rest with _ | ⟨t2, c2⟩ <;> rw [hM] at h
        · cases h
        · simp only [Option.map_some'] at h
          injection h with h3
          have ht : t2 = t1 := congrArg Prod.fst h3
          suffices hsuf : absorbedV v (findMember ta k) = true ∧
              ((ta.map Prod.fst).Nodup) ∧ dnOkM ta = true by
            obtain ⟨hhead, hnta, hdta⟩ := hsuf
            obtain ⟨habs2, hn1, hd1⟩ := IH rest ta t2 c2
              (by simp only [msizeM] at hsz; omega) hprest hnrest hnta hdta hM
            have hpres := (merge_preserves rest ta t2 c2 k hM hknr).1
            rw [← hpres] at hhead
            rw [← ht]
            exact ⟨absorbedB_cons_of t2 k v rest hhead habs2, hn1, hd1⟩
          by_cases hE0 : isEmptyPatchValue v = true
          · rcases hfw : findMember t k with _ | w
            · have h0 := (mergeStep_empty_absent t k v hE0 hfw).symm.trans hS
              injection h0 with h1
              injection h1 with h2 h3x
              subst h2
              refine ⟨?_, hnt, hdt⟩
              rw [hfw]
              exact absorbedV_empty v hE0
            · have h0 := (mergeStep_empty_present t k v w hE0 hfw).symm.trans hS
              injection h0 with h1
              injection h1 with h2 h3x
              subst h2
              refine ⟨?_, nodup_removeMember t k hnt, dnOkM_remove t k hdt⟩
              rw [findMember_removeMember_self t k hnt]
              exact absorbedV_empty v hE0
          · rw [Bool.not_eq_true] at hE0
            have hdp : dcOk v 1 = true ∧ pOkB v = true := by
              rcases hpv with h' | h'
              · rw [hE0] at h'
                exact Bool.noConfusion h'
              · exact h'
            obtain ⟨hdc, hpb⟩ := hdp
            rcases hfw : findMember t k with _ | w
            · obtain ⟨c0, hD, hl1, hl2, hstep⟩ :=
                mergeStep_insert_fail t k v hE0 hfw ⟨ta, ca, hS⟩
              have hc0 : v = c0 :=
                Option.some.inj ((deep_copy_id v 1 hdc).symm.trans hD)
              subst hc0
              have h0 := hstep.symm.trans hS
              injection h0 with h1
              injection h1 with h2 h3x
              subst h2
              have hknt : k ∉ t.map Prod.fst := findMember_none_of_eq_none t k hfw
              refine ⟨?_, ?_, dnOkM_append t k v hdt (pOkB_dnOkV v hpb)⟩
              · rw [findMember_append_self t k v hfw]
                exact absorbedV_self v hE0 hpb
              · simp [List.nodup_append, hnt, hknt]
            · by_cases hoo : isObjB v = true ∧ isObjB w = true
              · obtain ⟨hov, how⟩ := hoo
                cases v with
                | obj pms2 =>
                  cases w with
                  | obj tms2 =>
                    rcases hMM : jsonk_merge_objects tms2 pms2 with _ | ⟨m, ci⟩
                    · rw [mergeStep_objobj_fail t k pms2 tms2 hE0 hfw hMM] at hS
                      cases hS
                    · have hlen0 : ¬ pms2.length = 0 := by
                        simpa [isEmptyPatchValue] using hE0
                      have hstep := mergeStep_objobj t k pms2 tms2 m ci hfw hMM
                      rw [if_neg hlen0] at hstep
                      have h0 := hstep.symm.trans hS
                      injection h0 with h1
                      injection h1 with h2 h3x
                      subst h2
                      have hdno := dnOkM_find t k (.obj tms2) hdt hfw
                      simp only [dnOkV, Bool.and_eq_true, decide_eq_true_eq] at hdno
                      simp only [pOkB, Bool.and_eq_true, decide_eq_true_eq] at hpb
                      obtain ⟨habsM, hnm, hdm⟩ := IH pms2 tms2 m ci
                        (by simp only [msizeM, msizeV] at hsz; omega)
                        (pOkM_patchOkM pms2 hpb.2) hpb.1 hdno.1 hdno.2 hMM
                      refine ⟨?_, ?_, dnOkM_replace t k (.obj m) hdt ?_⟩
                      · rw [findMember_replaceValue_self t k (.obj tms2) (.obj m) hfw]
                        exact absorbedV_obj pms2 m hE0 habsM
                      · rw [keys_replaceValue]
                        exact hnt
                      · simp only [dnOkV, Bool.and_eq_true, decide_eq_true_eq]
                        exact ⟨hnm, hdm⟩
                  | null => exact Bool.noConfusion how
                  | boolean b2 => exact Bool.noConfusion how
                  | number n2 => exact Bool.noConfusion how
                  | str s2 => exact Bool.noConfusion how
                  | arr es2 => exact Bool.noConfusion how
                | null => exact Bool.noConfusion hov
                | boolean b => exact Bool.noConfusion hov
                | number nn => exact Bool.noConfusion hov
                | str s => exact Bool.noConfusion hov
                | arr es => exact Bool.noConfusion hov
              · have hno : isObjB v = false ∨ isObjB w = false := by
                  rcases hv : isObjB v with _ | _
                  · exact Or.inl rfl
                  · rcases hw : isObjB w with _ | _
                    · exact Or.inr rfl
                    · exact absurd ⟨hv, hw⟩ hoo
                have hstep := mergeStep_self_copy t k v w hE0 hdc hfw hno
                have h0 := hstep.symm.trans hS
                injection h0 with h1
                injection h1 with h2 h3x
                subst h2
                refine ⟨?_, ?_, dnOkM_replace t k v hdt (pOkB_dnOkV _ hpb)⟩
                · rw [findMember_replaceValue_self t k w v hfw]
                  exact absorbedV_self v hE0 hpb
                · rw [keys_replaceValue]
                  exact hnt

theorem absorbedV_none_false (v : JValue) (hE : isEmptyPatchValue v = false)
    (h : absorbedV v none = true) : False := by
  cases v with
  | null => simp [isEmptyPatchValue] at hE
  | boolean b =>
    simp only [absorbedV] at h
    rw [if_neg (by simp [hE])] at h
    exact Bool.noConfusion h
  | number nn =>
    simp only [absorbedV] at h
    rw [if_neg (by simp [hE])] at h
    exact Bool.noConfusion h
  | str s =>
    simp only [absorbedV] at h
    rw [if_neg (by simp [hE])] at h
    exact Bool.noConfusion h
  | arr es =>
    simp only [absorbedV] at h
    rw [if_neg (by simp [hE])] at h
    exact Bool.noConfusion h
  | obj pms =>
    simp only [absorbedV] at h
    rw [if_neg (by simp [hE])] at h
    exact Bool.noConfusion h

theorem absorbedV_some_eq (v w : JValue) (hE : isEmptyPatchValue v = false)
    (hno : isObjB v = false ∨ isObjB w = false)
    (h : absorbedV v (some w) = true) : w = v := by
  rw [← beqV_iff]
  cases v with
  | null => simp [isEmptyPatchValue] at hE
  | boolean b =>
    simp only [absorbedV] at h
    rw [if_neg (by simp [hE])] at h
    exact h
  | number nn =>
    simp only [absorbedV] at h
    rw [if_neg (by simp [hE])] at h
    exact h
  | str s =>
    simp only [absorbedV] at h
    rw [if_neg (by simp [hE])] at h
    exact h
  | arr es =>
    simp only [absorbedV] at h
    rw [if_neg (by simp [hE])] at h
    exact h
  | obj pms =>
    rcases hno with hv | hw
    · exact Bool.noConfusion hv
    · cases w with
      | obj tms => exact Bool.noConfusion hw
      | null =>
        simp only [absorbedV] at h
        rw [if_neg (by simp [hE])] at h
        exact h
      | boolean b2 =>
        simp only [absorbedV] at h
        rw [if_neg (by simp [hE])] at h
        exact h
      | number n2 =>
        simp only [absorbedV] at h
        rw [if_neg (by simp [hE])] at h
        exact h
      | str s2 =>
        simp only [absorbedV] at h
        rw [if_neg (by simp [hE])] at h
        exact h
      | arr es2 =>
        simp only [absorbedV] at h
        rw [if_neg (by simp [hE])] at h
        exact h

/-- Merging an idempotence-safe patch into a target that has already
absorbed it changes nothing, and its `changed` flag is exactly "some
patch member is non-empty". -/
theorem absorbed_fix_gen : ∀ (n : Nat) (p t : Members), msizeM p ≤ n →
    absorbedB t p = true → patchOkM p = true →
    jsonk_merge_objects t p =
      some (t, p.any (fun m => !isEmptyPatchValue m.2)) := by
  intro n
  induction n with
  | zero =>
    intro p t hsz habs hpo
    cases p with
    | nil => rfl
    | cons hd tl =>
      exfalso
      obtain ⟨k, v⟩ := hd
      simp only [msizeM] at hsz
      omega
  | succ n IH =>
    intro p t hsz habs hpo
    cases p with
    | nil => rfl
    | cons hd rest =>
      obtain ⟨k, v⟩ := hd
      simp only [absorbedB, Bool.and_eq_true] at habs
      obtain ⟨hhead, habs_rest⟩ := habs
      simp only [patchOkM, Bool.and_eq_true, Bool.or_eq_true] at hpo
      obtain ⟨hpv, hprest⟩ := hpo
      have hrest := IH rest t (by simp only [msizeM] at hsz; omega) habs_rest hprest
      by_cases hE0 : isEmptyPatchValue v = true
      · have hfw : findMember t k = none := absorbedV_isNone v (findMember t k) hE0 hhead
        rw [merge_cons_of_step t t k v false rest (mergeStep_empty_absent t k v hE0 hfw),
          hrest]
        simp [List.any_cons, hE0]
      · rw [Bool.not_eq_true] at hE0
        have hdp : dcOk v 1 = true ∧ pOkB v = true := by
          rcases hpv with h' | h'
          · rw [hE0] at h'
            exact Bool.noConfusion h'
          · exact h'
        obtain ⟨hdc, hpb⟩ := hdp
        rcases hfw : findMember t k with _ | w
        · rw [hfw] at hhead
          exact (absorbedV_none_false v hE0 hhead).elim
        · rw [hfw] at hhead
          by_cases hoo : isObjB v = true ∧ isObjB w = true
          · obtain ⟨hov, how⟩ := hoo
            cases v with
            | obj pms2 =>
              cases w with
              | obj tms2 =>
                have hab : absorbedB tms2 pms2 = true := by
                  simp only [absorbedV] at hhead
                  rw [if_neg (by simp [hE0])] at hhead
                  exact hhead
                have hpm : pOkM pms2 = true := by
                  simp only [pOkB, Bool.and_eq_true, decide_eq_true_eq] at hpb
                  exact hpb.2
                have hlen0 : ¬ pms2.length = 0 := by
                  simpa [isEmptyPatchValue] using hE0
                have hany2 : pms2.any (fun m => !isEmptyPatchValue m.2) = true := by
                  cases pms2 with
                  | nil => simp at hlen0
                  | cons hd2 tl2 =>
                    obtain ⟨k2, v2⟩ := hd2
                    simp only [pOkM, Bool.and_eq_true] at hpm
                    simp [List.any_cons, hpm.1.1.1]
                have hinner := IH pms2 tms2
                  (by simp only [msizeM, msizeV] at hsz; omega) hab (pOkM_patchOkM pms2 hpm)
                rw [hany2] at hinner
                have hstep := mergeStep_objobj t k pms2 tms2 tms2 true hfw hinner
                rw [if_neg hlen0] at hstep
                rw [replaceValue_self t k (.obj tms2) hfw] at hstep
                rw [merge_cons_of_step t t k (.obj pms2) true rest hstep, hrest]
                simp [List.any_cons, hE0]
              | null => exact Bool.noConfusion how
              | boolean b2 => exact Bool.noConfusion how
              | number n2 => exact Bool.noConfusion how
              | str s2 => exact Bool.noConfusion how
              | arr es2 => exact Bool.noConfusion how
            | null => exact Bool.noConfusion hov
            | boolean b => exact Bool.noConfusion hov
            | number nn => exact Bool.noConfusion hov
            | str s => exact Bool.noConfusion hov
            | arr es => exact Bool.noConfusion hov
          · have hno : isObjB v = false ∨ isObjB w = false := by
              rcases hv : isObjB v with _ | _
              · exact Or.inl rfl
              · rcases hw : isObjB w with _ | _
                · exact Or.inr rfl
                · exact absurd ⟨hv, hw⟩ hoo
            have hw2 : v = w := (absorbedV_some_eq v w hE0 hno hhead).symm
            subst hw2
            have hstep := mergeStep_self_copy t k v v hE0 hdc hfw hno
            rw [replaceValue_self t k v hfw] at hstep
            rw [merge_cons_of_step t t k v true rest hstep, hrest]
            simp [List.any_cons, hE0]

/-- C6.  Corrected form of the idempotence claim: when both documents
parse to objects, the target deep-copies exactly (`dcOk`), the parsed
patch members are idempotence-safe (`patchOkM`: every nested member is
non-empty, deep-copy-stable and duplicate-free) with distinct top-level
keys, the merge succeeds, and the merged tree deep-copies, re-parses
and re-serializes exactly, then applying the patch a second time to the
output of the first application yields the SAME bytes and the same
reported length; but the second result code is SUCCESS whenever some
top-level patch member is non-empty, and NO_CHANGE only when every
top-level patch member is empty (the spec instead claimed NO_CHANGE in
all cases, refuted by `c6_counterexample` together with this theorem's
witness). -/
theorem c6_idempotent_patch (tb pb : Bytes) (tms pms merged : Members) (chg : Bool)
    (rmax : Nat)
    (hpt : jsonk_parse tb = some (.obj tms))
    (hpp : jsonk_parse pb = some (.obj pms))
    (hdc1 : dcOk (.obj tms) 0 = true)
    (hdn1 : dnOkV (.obj tms) = true)
    (hnp : (pms.map Prod.fst).Nodup)
    (hpo : patchOkM pms = true)
    (hm : jsonk_merge_objects tms pms = some (merged, chg))
    (hdc2 : dcOk (.obj merged) 0 = true)
    (hrt : rtOkV (.obj merged) = true)
    (hh : heightJ (.obj merged) ≤ JSONK_MAX_DEPTH)
    (hsc : strCount (.obj merged) ≤ JSONK_MAX_ARRAY_SIZE)
    (hfit : (render (.obj merged)).length < rmax) :
    jsonk_apply_patch tb pb rmax =
      ((if chg then .success else .noChange), render (.obj merged),
        some (render (.obj merged)).length) ∧
    jsonk_apply_patch (render (.obj merged)) pb rmax =
      ((if pms.any (fun m => !isEmptyPatchValue m.2) then .success else .noChange),
        render (.obj merged), some (render (.obj merged)).length) := by
  have hser := serRun_complete (.obj merged) rmax hfit
  constructor
  · simp [jsonk_apply_patch, hpt, hpp, deep_copy_id _ 0 hdc1, hm, hser]
  · have hp2 : jsonk_parse (render (.obj merged)) = some (.obj merged) :=
      jsonk_parse_render (.obj merged) hrt hh hsc
    simp only [dnOkV, Bool.and_eq_true, decide_eq_true_eq] at hdn1
    obtain ⟨habs, hnm, hdm⟩ := merge_absorbs_gen (msizeM pms) pms tms merged chg
      (Nat.le_refl _) hpo hnp hdn1.1 hdn1.2 hm
    have hfix := absorbed_fix_gen (msizeM pms) pms merged (Nat.le_refl _) habs hpo
    simp [jsonk_apply_patch, hp2, hpp, deep_copy_id _ 0 hdc2, hfix, hser]

theorem c6_idempotent_patch_witness :
    jsonk_apply_patch (s2l ("\x7b\"a\":1\x7d")) (s2l ("\x7b\"b\":2\x7d")) 64 =
      (.success, s2l ("\x7b\"a\":1,\"b\":2\x7d"), some 13) ∧
    jsonk_apply_patch (s2l ("\x7b\"a\":1,\"b\":2\x7d")) (s2l ("\x7b\"b\":2\x7d")) 64 =
      (.success, s2l ("\x7b\"a\":1,\"b\":2\x7d"), some 13) := by
  have h := c6_idempotent_patch (s2l ("\x7b\"a\":1\x7d")) (s2l ("\x7b\"b\":2\x7d"))
    [(s2l ("a"), .number ⟨1, 0, false, true⟩)]
    [(s2l ("b"), .number ⟨2, 0, false, true⟩)]
    [(s2l ("a"), .number ⟨1, 0, false, true⟩), (s2l ("b"), .number ⟨2, 0, false, true⟩)]
    true 64 (by decide) (by decide) (by decide) (by decide) (by decide) (by decide)
    (by decide) (by decide) (by decide) (by decide) (by decide) (by decide)
  obtain ⟨h1, h2⟩ := h
  constructor
  · rw [h1]
    rfl
  · rw [show s2l ("\x7b\"a\":1,\"b\":2\x7d") =
      render (.obj [(s2l ("a"), .number ⟨1, 0, false, true⟩),
        (s2l ("b"), .number ⟨2, 0, false, true⟩)]) from rfl, h2]
    rfl
